import Mathlib

/-!
# go-perf crypto toolkit: a shallow embedding

The functions of `cmd/crypto/main.go` (`encryptAES`, `decryptAES`, `encryptRSA`,
`generateChecksum`, `generateHMAC`) and of `cmd/profiling/main.go` (`generateKey`,
`encryptData`) are translated below, together with the parts of the Go standard
library they call (`encoding/hex`, `crypto/aes`, `crypto/cipher`, `crypto/sha256`,
`crypto/hmac`, `crypto/rsa`, `io.ReadFull`).

Conventions.
* A Go `[]byte` and a Go `string` are both a list of bytes; a byte is a natural
  number below 256 (`IsBytes`).
* A Go function returning `(value, error)` returns an `Outcome`: the pair, or a
  run-time panic.
* `crypto/rand.Reader` is the list of bytes it will still deliver; reading more
  than it holds is a failed read. Functions that read from it return what is left.
-/

namespace GoPerf

/-! ## Bytes, strings, errors -/

/-- A Go byte slice or string. -/
abbrev Bytes := List Nat

/-- Every element is a byte. -/
def IsBytes (bs : Bytes) : Prop := ∀ b ∈ bs, b < 256

instance (bs : Bytes) : Decidable (IsBytes bs) := by
  unfold IsBytes; infer_instance

/-- An ASCII string literal as a Go string. -/
def str (s : String) : Bytes := s.toList.map Char.toNat

/-- The error values the modelled functions return. -/
inductive GoError where
  /-- Error `aes.KeySizeError(n)`: "crypto/aes: invalid key size n". -/
  | keySize (n : Nat)
  /-- Error `io.EOF`. -/
  | eof
  /-- Error `io.ErrUnexpectedEOF`. -/
  | unexpectedEOF
  /-- Error "cipher: NewGCM requires 128-bit block cipher". -/
  | gcmBlockSize
  /-- Error `errOpen`: "cipher: message authentication failed". -/
  | authFailed
  /-- Error `hex.InvalidByteError(b)`. -/
  | hexInvalidByte (b : Nat)
  /-- Error `hex.ErrLength`: "encoding/hex: odd length hex string". -/
  | hexLength
  /-- Error `rsa.ErrMessageTooLong`. -/
  | messageTooLong
  /-- Error "crypto/rsa: missing public modulus". -/
  | publicModulus
  /-- Error "crypto/rsa: public exponent too small". -/
  | publicExponentSmall
  /-- Error "crypto/rsa: public exponent too large". -/
  | publicExponentLarge
  /-- Error "crypto/rsa: n-bit keys are insecure". -/
  | insecureKeySize (n : Nat)
  /-- Error "bigmod: modulus must be > 1". -/
  | modulusTooSmall
  /-- Error "crypto/rsa: public modulus is even". -/
  | publicModulusEven
  /-- Error "crypto/rsa: public exponent is even". -/
  | publicExponentEven
  /-- Error "input overflows the modulus". -/
  | inputOverflowsModulus
  deriving DecidableEq, Repr

/-- The run-time panics the modelled functions can raise. -/
inductive Panic where
  /-- Slice expression `s[:hi]` with `hi > len(s)`. -/
  | sliceBounds (hi len : Nat)
  /-- Panic "crypto/cipher: incorrect nonce length given to GCM". -/
  | gcmNonceLength
  /-- Panic "crypto/cipher: message too large for GCM". -/
  | gcmMessageTooLarge
  /-- Panic "cipher.newCFB: IV length must equal block size". -/
  | cfbIVLength
  /-- Panic "d.nx != 0" of `checkSum`. -/
  | digestBuffer
  deriving DecidableEq, Repr

/-- What a call of a Go function `f(...) (T, error)` does: it returns the pair
`(value, err)` (`err = none` is Go's `nil` error) or it panics. -/
inductive Outcome (α : Type) where
  | ret (value : α) (err : Option GoError)
  | panic (p : Panic)
  deriving DecidableEq, Repr

deriving instance DecidableEq for Except

/-! ## io.ReadFull on crypto/rand.Reader -/

/-- Function `io.ReadFull(rand.Reader, buf)` with `len(buf) = n`: the `n` bytes read, or
the error of a reader that ran out, and the reader afterwards. -/
def ioReadFull (rand : Bytes) (n : Nat) : Except GoError Bytes × Bytes :=
  if n ≤ rand.length then (.ok (rand.take n), rand.drop n)
  else if rand.length = 0 then (.error .eof, [])
  else (.error .unexpectedEOF, [])

/-! ## encoding/hex -/

/-- The table `hextable = "0123456789abcdef"`. -/
def hextable : Bytes :=
  [48, 49, 50, 51, 52, 53, 54, 55, 56, 57, 97, 98, 99, 100, 101, 102]

/-- Function `hex.EncodeToString`: two characters per byte, `hextable[v>>4]` then
`hextable[v&0x0f]`. -/
def hexEncodeToString : Bytes → Bytes
  | [] => []
  | v :: rest =>
    hextable.getD (v / 16 % 16) 0 :: hextable.getD (v % 16) 0 :: hexEncodeToString rest

/-- The value of a hexadecimal character, either case; `none` for any other byte
(`reverseHexTable` holding `0xff`). -/
def fromHexChar (c : Nat) : Option Nat :=
  if 48 ≤ c ∧ c ≤ 57 then some (c - 48)
  else if 97 ≤ c ∧ c ≤ 102 then some (c - 97 + 10)
  else if 65 ≤ c ∧ c ≤ 70 then some (c - 65 + 10)
  else none

/-- Function `hex.DecodeString`: the bytes decoded before the first error, and the error.
A pair with an invalid character stops the loop; a trailing single character is
`InvalidByteError` when it is not hexadecimal and `ErrLength` otherwise. -/
def hexDecodeString : Bytes → Bytes × Option GoError
  | [] => ([], none)
  | [c] =>
    match fromHexChar c with
    | none => ([], some (.hexInvalidByte c))
    | some _ => ([], some .hexLength)
  | p :: q :: rest =>
    match fromHexChar p with
    | none => ([], some (.hexInvalidByte p))
    | some a =>
      match fromHexChar q with
      | none => ([], some (.hexInvalidByte q))
      | some b =>
        let r := hexDecodeString rest
        ((a <<< 4 ||| b) :: r.1, r.2)

/-- Function `subtle.XORBytes`: the byte-wise xor of the common prefix. -/
def xorBytes (x y : Bytes) : Bytes := List.zipWith (· ^^^ ·) x y

/-! ## crypto/aes (FIPS 197) -/

/-- The AES S-box (`sbox0`). -/
def sbox : List Nat :=
  [
   0x63, 0x7c, 0x77, 0x7b, 0xf2, 0x6b, 0x6f, 0xc5, 0x30, 0x01, 0x67, 0x2b, 0xfe, 0xd7, 0xab, 0x76,
   0xca, 0x82, 0xc9, 0x7d, 0xfa, 0x59, 0x47, 0xf0, 0xad, 0xd4, 0xa2, 0xaf, 0x9c, 0xa4, 0x72, 0xc0,
   0xb7, 0xfd, 0x93, 0x26, 0x36, 0x3f, 0xf7, 0xcc, 0x34, 0xa5, 0xe5, 0xf1, 0x71, 0xd8, 0x31, 0x15,
   0x04, 0xc7, 0x23, 0xc3, 0x18, 0x96, 0x05, 0x9a, 0x07, 0x12, 0x80, 0xe2, 0xeb, 0x27, 0xb2, 0x75,
   0x09, 0x83, 0x2c, 0x1a, 0x1b, 0x6e, 0x5a, 0xa0, 0x52, 0x3b, 0xd6, 0xb3, 0x29, 0xe3, 0x2f, 0x84,
   0x53, 0xd1, 0x00, 0xed, 0x20, 0xfc, 0xb1, 0x5b, 0x6a, 0xcb, 0xbe, 0x39, 0x4a, 0x4c, 0x58, 0xcf,
   0xd0, 0xef, 0xaa, 0xfb, 0x43, 0x4d, 0x33, 0x85, 0x45, 0xf9, 0x02, 0x7f, 0x50, 0x3c, 0x9f, 0xa8,
   0x51, 0xa3, 0x40, 0x8f, 0x92, 0x9d, 0x38, 0xf5, 0xbc, 0xb6, 0xda, 0x21, 0x10, 0xff, 0xf3, 0xd2,
   0xcd, 0x0c, 0x13, 0xec, 0x5f, 0x97, 0x44, 0x17, 0xc4, 0xa7, 0x7e, 0x3d, 0x64, 0x5d, 0x19, 0x73,
   0x60, 0x81, 0x4f, 0xdc, 0x22, 0x2a, 0x90, 0x88, 0x46, 0xee, 0xb8, 0x14, 0xde, 0x5e, 0x0b, 0xdb,
   0xe0, 0x32, 0x3a, 0x0a, 0x49, 0x06, 0x24, 0x5c, 0xc2, 0xd3, 0xac, 0x62, 0x91, 0x95, 0xe4, 0x79,
   0xe7, 0xc8, 0x37, 0x6d, 0x8d, 0xd5, 0x4e, 0xa9, 0x6c, 0x56, 0xf4, 0xea, 0x65, 0x7a, 0xae, 0x08,
   0xba, 0x78, 0x25, 0x2e, 0x1c, 0xa6, 0xb4, 0xc6, 0xe8, 0xdd, 0x74, 0x1f, 0x4b, 0xbd, 0x8b, 0x8a,
   0x70, 0x3e, 0xb5, 0x66, 0x48, 0x03, 0xf6, 0x0e, 0x61, 0x35, 0x57, 0xb9, 0x86, 0xc1, 0x1d, 0x9e,
   0xe1, 0xf8, 0x98, 0x11, 0x69, 0xd9, 0x8e, 0x94, 0x9b, 0x1e, 0x87, 0xe9, 0xce, 0x55, 0x28, 0xdf,
   0x8c, 0xa1, 0x89, 0x0d, 0xbf, 0xe6, 0x42, 0x68, 0x41, 0x99, 0x2d, 0x0f, 0xb0, 0x54, 0xbb, 0x16]

/-- Lookup `sbox0[b]`. -/
def subByte (b : Nat) : Nat := sbox.getD b 0

/-- Multiplication by `x` in GF(2^8) modulo `x^8 + x^4 + x^3 + x + 1`. -/
def xtime (b : Nat) : Nat := if b < 128 then 2 * b else (2 * b - 256) ^^^ 0x1b

/-- The round constants `powx`. -/
def powx : List Nat := [0x01, 0x02, 0x04, 0x08, 0x10, 0x20, 0x40, 0x80, 0x1b, 0x36]

/-- Step `rotw`: rotate a four-byte word left by one byte. -/
def rotw : Bytes → Bytes
  | [a, b, c, d] => [b, c, d, a]
  | w => w

/-- Step `subw`: the S-box on each byte of a word. -/
def subw (w : Bytes) : Bytes := w.map subByte

/-- The loop of `expandKeyGo`: `ws` holds the words `0 .. i-1` of the schedule, `n`
more are appended. -/
def expandKeyLoop (nk : Nat) : Nat → Nat → List Bytes → List Bytes
  | 0, _, ws => ws
  | n + 1, i, ws =>
    let t := ws.getD (i - 1) []
    let t :=
      if i % nk = 0 then xorBytes (subw (rotw t)) [powx.getD (i / nk - 1) 0, 0, 0, 0]
      else if nk > 6 ∧ i % nk = 4 then subw t
      else t
    expandKeyLoop nk n (i + 1) (ws ++ [xorBytes (ws.getD (i - nk) []) t])

/-- The first `nk` words of the schedule: the key, four bytes a word. -/
def keyWords : Nat → Bytes → List Bytes
  | 0, _ => []
  | n + 1, key => key.take 4 :: keyWords n (key.drop 4)

/-- The key schedule of `expandKeyGo`: `len(key) + 28` words. -/
def expandKey (key : Bytes) : List Bytes :=
  let nk := key.length / 4
  expandKeyLoop nk (key.length + 28 - nk) nk (keyWords nk key)

/-- The round keys: the schedule, four words a key. -/
def roundKeys : Nat → List Bytes → List Bytes
  | 0, _ => []
  | n + 1, ws => (ws.take 4).flatten :: roundKeys n (ws.drop 4)

/-- An AES block cipher (`cipher.Block`): its round keys. -/
structure AESCipher where
  rk : List Bytes
  deriving DecidableEq, Repr

/-- Method `BlockSize` of an AES cipher. -/
def AESCipher.blockSize (_c : AESCipher) : Nat := 16

/-- Function `newCipher`: the cipher of an expanded key, `len(key)/4 + 7` round keys. -/
def newCipher (key : Bytes) : AESCipher := ⟨roundKeys (key.length / 4 + 7) (expandKey key)⟩

/-- Function `aes.NewCipher`: a key of 16, 24 or 32 bytes, else `KeySizeError`. -/
def aesNewCipher (key : Bytes) : Except GoError AESCipher :=
  let k := key.length
  if k = 16 ∨ k = 24 ∨ k = 32 then .ok (newCipher key)
  else .error (.keySize k)

/-- Step SubBytes. -/
def subBytes (s : Bytes) : Bytes := s.map subByte

/-- Step ShiftRows on the column-major state. -/
def shiftRows : Bytes → Bytes
  | [s0, s1, s2, s3, s4, s5, s6, s7, s8, s9, s10, s11, s12, s13, s14, s15] =>
    [s0, s5, s10, s15, s4, s9, s14, s3, s8, s13, s2, s7, s12, s1, s6, s11]
  | s => s

/-- Step MixColumns on one column. -/
def mixColumn (a0 a1 a2 a3 : Nat) : Bytes :=
  [xtime a0 ^^^ (xtime a1 ^^^ a1) ^^^ a2 ^^^ a3,
   a0 ^^^ xtime a1 ^^^ (xtime a2 ^^^ a2) ^^^ a3,
   a0 ^^^ a1 ^^^ xtime a2 ^^^ (xtime a3 ^^^ a3),
   (xtime a0 ^^^ a0) ^^^ a1 ^^^ a2 ^^^ xtime a3]

/-- Step MixColumns. -/
def mixColumns : Bytes → Bytes
  | a0 :: a1 :: a2 :: a3 :: rest => mixColumn a0 a1 a2 a3 ++ mixColumns rest
  | s => s

/-- The rounds after the first AddRoundKey; the last one has no MixColumns. -/
def aesRounds : List Bytes → Bytes → Bytes
  | [], s => s
  | [k], s => xorBytes (shiftRows (subBytes s)) k
  | k :: ks, s => aesRounds ks (xorBytes (mixColumns (shiftRows (subBytes s))) k)

/-- Method `Encrypt` of an AES cipher on one 16-byte block. -/
def AESCipher.encrypt (c : AESCipher) (src : Bytes) : Bytes :=
  match c.rk with
  | [] => src
  | k :: ks => aesRounds ks (xorBytes src k)

/-! ## crypto/cipher: GCM (NIST SP 800-38D) -/

/-- Big-endian bytes to a number (`binary.BigEndian.Uint64` and the like). -/
def beToNat (bs : Bytes) : Nat := bs.foldl (fun acc b => acc * 256 + b) 0

/-- The low `len` bytes of a number, big-endian (`binary.BigEndian.PutUint64` and the
like). -/
def natToBE : Nat → Nat → Bytes
  | 0, _ => []
  | k + 1, n => n / 256 ^ k % 256 :: natToBE k n

/-- The reduction constant `R = 11100001 || 0^120` of GHASH. -/
def gcmR : Nat := 0xe1 <<< 120

/-- The loop of the multiplication `X · Y` in GF(2^128), blocks read as big-endian
numbers: `k` bits of `x` are left (the leftmost first), `v` is `Y · x^i`, `z` the sum. -/
def gcmMulLoop (x : Nat) : Nat → Nat → Nat → Nat
  | 0, _, z => z
  | k + 1, v, z =>
    gcmMulLoop x k (if v % 2 = 0 then v / 2 else (v / 2) ^^^ gcmR)
      (if x.testBit k then z ^^^ v else z)

/-- Multiplication in GF(2^128) (what `gcm.mul` computes with its table). -/
def gcmMul (x y : Nat) : Nat := gcmMulLoop x 128 y 0

/-- A GCM instance (`cipher.AEAD`): the block cipher and the hash subkey
`H = E_K(0^128)` its product table is built from. -/
structure GCM where
  cipher : AESCipher
  h : Nat
  deriving DecidableEq, Repr

/-- Constant `gcmStandardNonceSize`. -/
def gcmNonceSize : Nat := 12

/-- Constant `gcmTagSize`. -/
def gcmTagSize : Nat := 16

/-- The GCM instance of a block cipher, its hash subkey the encryption of the zero
block. -/
def newGCM (c : AESCipher) : GCM := ⟨c, beToNat (c.encrypt (List.replicate 16 0))⟩

/-- Function `cipher.NewGCM`: refuses a block cipher whose block is not 128 bits. -/
def cipherNewGCM (c : AESCipher) : Except GoError GCM :=
  if c.blockSize ≠ 16 then .error .gcmBlockSize
  else .ok (newGCM c)

/-- Method `update`: `y ← (y ⊕ block) · H` over the 16-byte blocks of `data`, the last
one padded with zeros; `n` bounds the number of blocks. -/
def gcmUpdate (h : Nat) : Nat → Nat → Bytes → Nat
  | 0, y, _ => y
  | n + 1, y, data =>
    if data.length = 0 then y
    else
      let block := data.take 16 ++ List.replicate (16 - (data.take 16).length) 0
      gcmUpdate h n (gcmMul (y ^^^ beToNat block) h) (data.drop 16)

/-- Method `auth`: GHASH of the additional data and the ciphertext with their bit
lengths, xored with the tag mask. -/
def GCM.auth (g : GCM) (ciphertext additionalData tagMask : Bytes) : Bytes :=
  let y := gcmUpdate g.h additionalData.length 0 additionalData
  let y := gcmUpdate g.h ciphertext.length y ciphertext
  let y := y ^^^ ((additionalData.length * 8 % 2 ^ 64) <<< 64 ||| (ciphertext.length * 8 % 2 ^ 64))
  xorBytes (natToBE 16 (gcmMul y g.h)) tagMask

/-- Method `deriveCounter` for a 12-byte nonce: `nonce || 0^31 || 1`. -/
def deriveCounter (nonce : Bytes) : Bytes := nonce ++ [0, 0, 0, 1]

/-- Function `gcmInc32`: the last four bytes, a big-endian number, plus one mod 2^32. -/
def gcmInc32 (counter : Bytes) : Bytes :=
  counter.take 12 ++ natToBE 4 ((beToNat (counter.drop 12) + 1) % 2 ^ 32)

/-- Method `counterCrypt`: xor `input` with the key stream of successive counter
blocks, 16 bytes at a time; `n` bounds the number of blocks. -/
def GCM.counterCrypt (g : GCM) : Nat → Bytes → Bytes → Bytes
  | 0, _, _ => []
  | n + 1, input, counter =>
    if input.length = 0 then []
    else
      xorBytes (input.take 16) (g.cipher.encrypt counter)
        ++ g.counterCrypt n (input.drop 16) (gcmInc32 counter)

/-- The longest plaintext GCM accepts: `((1<<32)-2) * BlockSize` bytes. -/
def gcmMaxPlaintext : Nat := (2 ^ 32 - 2) * 16

/-- Method `Seal` (with `dst = nil`): the ciphertext followed by the 16-byte tag. -/
def GCM.seal (g : GCM) (nonce plaintext data : Bytes) : Except Panic Bytes :=
  if nonce.length ≠ gcmNonceSize then .error .gcmNonceLength
  else if plaintext.length > gcmMaxPlaintext then .error .gcmMessageTooLarge
  else
    let counter := deriveCounter nonce
    let tagMask := g.cipher.encrypt counter
    let counter := gcmInc32 counter
    let out := g.counterCrypt plaintext.length plaintext counter
    let tag := g.auth out data tagMask
    .ok (out ++ tag)

/-- Method `Open` (with `dst = nil`): the plaintext, or `errOpen` when the tag does not
match the one computed over the ciphertext. -/
def GCM.open (g : GCM) (nonce ciphertext data : Bytes) : Outcome Bytes :=
  if nonce.length ≠ gcmNonceSize then .panic .gcmNonceLength
  else if ciphertext.length < gcmTagSize then .ret [] (some .authFailed)
  else if ciphertext.length > gcmMaxPlaintext + gcmTagSize then .ret [] (some .authFailed)
  else
    let tag := ciphertext.drop (ciphertext.length - gcmTagSize)
    let ciphertext := ciphertext.take (ciphertext.length - gcmTagSize)
    let counter := deriveCounter nonce
    let tagMask := g.cipher.encrypt counter
    let counter := gcmInc32 counter
    let expectedTag := g.auth ciphertext data tagMask
    if expectedTag ≠ tag then .ret [] (some .authFailed)
    else .ret (g.counterCrypt ciphertext.length ciphertext counter) none

/-! ## cmd/crypto/main.go -/

/-- Function `encryptAES(key, plaintext)`, reading the nonce from `rand`. -/
def encryptAES (key plaintext rand : Bytes) : Outcome Bytes × Bytes :=
  match aesNewCipher key with
  | .error err => (.ret [] (some err), rand)
  | .ok block =>
    match ioReadFull rand 12 with
    | (.error err, rand) => (.ret [] (some err), rand)
    | (.ok nonce, rand) =>
      match cipherNewGCM block with
      | .error err => (.ret [] (some err), rand)
      | .ok aesgcm =>
        match aesgcm.seal nonce plaintext [] with
        | .error p => (.panic p, rand)
        | .ok ciphertext =>
          (.ret (hexEncodeToString nonce ++ hexEncodeToString ciphertext) none, rand)

/-- Function `decryptAES(key, ciphertext)`. Both results of `hex.DecodeString` lose their
error (`nonce, _ :=`), and `ciphertext[:24]` panics on a shorter string. -/
def decryptAES (key ciphertext : Bytes) : Outcome Bytes :=
  match aesNewCipher key with
  | .error err => .ret [] (some err)
  | .ok block =>
    if ciphertext.length < 24 then .panic (.sliceBounds 24 ciphertext.length)
    else
      let nonce := (hexDecodeString (ciphertext.take 24)).1
      let ciphertextBytes := (hexDecodeString (ciphertext.drop 24)).1
      match cipherNewGCM block with
      | .error err => .ret [] (some err)
      | .ok aesgcm =>
        match aesgcm.open nonce ciphertextBytes [] with
        | .panic p => .panic p
        | .ret _ (some err) => .ret [] (some err)
        | .ret plaintextBytes none => .ret plaintextBytes none

/-! ## crypto/sha256 (FIPS 180-4) -/

/-- Function `bits.RotateLeft32(x, -n)`: rotate a 32-bit word right by `n`. -/
def rotr32 (x n : Nat) : Nat := (x >>> n ||| x <<< (32 - n)) % 2 ^ 32

/-- The round constants `_K`. -/
def sha256K : List Nat :=
  [
   0x428a2f98, 0x71374491, 0xb5c0fbcf, 0xe9b5dba5, 0x3956c25b, 0x59f111f1, 0x923f82a4, 0xab1c5ed5,
   0xd807aa98, 0x12835b01, 0x243185be, 0x550c7dc3, 0x72be5d74, 0x80deb1fe, 0x9bdc06a7, 0xc19bf174,
   0xe49b69c1, 0xefbe4786, 0x0fc19dc6, 0x240ca1cc, 0x2de92c6f, 0x4a7484aa, 0x5cb0a9dc, 0x76f988da,
   0x983e5152, 0xa831c66d, 0xb00327c8, 0xbf597fc7, 0xc6e00bf3, 0xd5a79147, 0x06ca6351, 0x14292967,
   0x27b70a85, 0x2e1b2138, 0x4d2c6dfc, 0x53380d13, 0x650a7354, 0x766a0abb, 0x81c2c92e, 0x92722c85,
   0xa2bfe8a1, 0xa81a664b, 0xc24b8b70, 0xc76c51a3, 0xd192e819, 0xd6990624, 0xf40e3585, 0x106aa070,
   0x19a4c116, 0x1e376c08, 0x2748774c, 0x34b0bcb5, 0x391c0cb3, 0x4ed8aa4a, 0x5b9cca4f, 0x682e6ff3,
   0x748f82ee, 0x78a5636f, 0x84c87814, 0x8cc70208, 0x90befffa, 0xa4506ceb, 0xbef9a3f7, 0xc67178f2]

/-- The eight working words of the compression function, also the chaining value. -/
structure Sha256State where
  a : Nat
  b : Nat
  c : Nat
  d : Nat
  e : Nat
  f : Nat
  g : Nat
  h : Nat
  deriving DecidableEq, Repr

/-- The initial chaining value `init0 .. init7`. -/
def sha256Init : Sha256State :=
  ⟨0x6a09e667, 0xbb67ae85, 0x3c6ef372, 0xa54ff53a, 0x510e527f, 0x9b05688c, 0x1f83d9ab, 0x5be0cd19⟩

/-- The first sixteen words of the message schedule: the chunk, four bytes a word. -/
def sha256Words : Nat → Bytes → List Nat
  | 0, _ => []
  | n + 1, p => beToNat (p.take 4) :: sha256Words n (p.drop 4)

/-- The loop filling `w[16..63]`: `w` holds the words `0 .. i-1`, `n` more are appended. -/
def sha256Schedule : Nat → Nat → List Nat → List Nat
  | 0, _, w => w
  | n + 1, i, w =>
    let v1 := w.getD (i - 2) 0
    let t1 := rotr32 v1 17 ^^^ rotr32 v1 19 ^^^ v1 >>> 10
    let v2 := w.getD (i - 15) 0
    let t2 := rotr32 v2 7 ^^^ rotr32 v2 18 ^^^ v2 >>> 3
    sha256Schedule n (i + 1) (w ++ [(t1 + w.getD (i - 7) 0 + t2 + w.getD (i - 16) 0) % 2 ^ 32])

/-- One round of the compression function, with round constant `k` and schedule word `w`. -/
def sha256Round (s : Sha256State) (k w : Nat) : Sha256State :=
  let t1 := (s.h + (rotr32 s.e 6 ^^^ rotr32 s.e 11 ^^^ rotr32 s.e 25)
    + (s.e &&& s.f ^^^ (s.e ^^^ 0xffffffff) &&& s.g) + k + w) % 2 ^ 32
  let t2 := ((rotr32 s.a 2 ^^^ rotr32 s.a 13 ^^^ rotr32 s.a 22)
    + (s.a &&& s.b ^^^ s.a &&& s.c ^^^ s.b &&& s.c)) % 2 ^ 32
  ⟨(t1 + t2) % 2 ^ 32, s.a, s.b, s.c, (s.d + t1) % 2 ^ 32, s.e, s.f, s.g⟩

/-- The sixty-four rounds. -/
def sha256Rounds : List Nat → List Nat → Sha256State → Sha256State
  | k :: ks, w :: ws, s => sha256Rounds ks ws (sha256Round s k w)
  | _, _, s => s

/-- Function `blockGeneric` on one 64-byte chunk. -/
def sha256Block (hv : Sha256State) (p : Bytes) : Sha256State :=
  let w := sha256Schedule 48 16 (sha256Words 16 p)
  let s := sha256Rounds sha256K w hv
  ⟨(hv.a + s.a) % 2 ^ 32, (hv.b + s.b) % 2 ^ 32, (hv.c + s.c) % 2 ^ 32, (hv.d + s.d) % 2 ^ 32,
   (hv.e + s.e) % 2 ^ 32, (hv.f + s.f) % 2 ^ 32, (hv.g + s.g) % 2 ^ 32, (hv.h + s.h) % 2 ^ 32⟩

/-- Function `blockGeneric` over `n` chunks. -/
def sha256Blocks : Nat → Sha256State → Bytes → Sha256State
  | 0, hv, _ => hv
  | n + 1, hv, p => sha256Blocks n (sha256Block hv (p.take 64)) (p.drop 64)

/-- The padding `checkSum` writes: a `0x80` byte, zeros up to 56 mod 64, and the bit
length as a big-endian `uint64`. -/
def sha256Padding (len : Nat) : Bytes :=
  let t := if len % 64 < 56 then 56 - len % 64 else 64 + 56 - len % 64
  0x80 :: List.replicate (t - 1) 0 ++ natToBE 8 (len * 8 % 2 ^ 64)

/-- The digest of `data` (`Write(data)` on a fresh hash, then `Sum(nil)`): 32 bytes. -/
def sha256Sum (data : Bytes) : Bytes :=
  let p := data ++ sha256Padding data.length
  let s := sha256Blocks (p.length / 64) sha256Init p
  natToBE 4 s.a ++ natToBE 4 s.b ++ natToBE 4 s.c ++ natToBE 4 s.d
    ++ natToBE 4 s.e ++ natToBE 4 s.f ++ natToBE 4 s.g ++ natToBE 4 s.h

/-- The state of a SHA-256 hash (`sha256.Digest`): the chaining value `h`, the bytes
`x[:nx]` kept for the next chunk, and the number `len` of bytes written, a `uint64`. -/
structure Digest where
  h : Sha256State
  x : Bytes
  len : Nat
  deriving DecidableEq, Repr

/-- Function `sha256.New()`: the state after `Reset`. -/
def sha256New : Digest := ⟨sha256Init, [], 0⟩

/-- Method `Write(p)`: a buffer that is not empty is filled from `p` first and, once it
holds a chunk, compressed; then the whole chunks of what is left of `p` are compressed;
the rest is kept in the buffer. -/
def Digest.write (d : Digest) (p : Bytes) : Digest :=
  let len := (d.len + p.length) % 2 ^ 64
  let s1 : Sha256State × Bytes × Bytes :=
    if d.x.length > 0 then
      let n := min (64 - d.x.length) p.length
      let x := d.x ++ p.take n
      if x.length = 64 then (sha256Blocks 1 d.h x, [], p.drop n)
      else (d.h, x, p.drop n)
    else (d.h, d.x, p)
  let s2 : Sha256State × Bytes :=
    if s1.2.2.length ≥ 64 then
      let n := s1.2.2.length / 64 * 64
      (sha256Blocks (n / 64) s1.1 (s1.2.2.take n), s1.2.2.drop n)
    else (s1.1, s1.2.2)
  let x := if s2.2.length > 0 then s2.2 else s1.2.1
  ⟨s2.1, x, len⟩

/-- Method `checkSum`: the padding is written, the buffer must be empty then (or the
method panics), and the chaining value is the digest, big-endian. -/
def Digest.checkSum (d : Digest) : Except Panic Bytes :=
  let d := d.write (sha256Padding d.len)
  if d.x.length ≠ 0 then .error .digestBuffer
  else
    .ok (natToBE 4 d.h.a ++ natToBE 4 d.h.b ++ natToBE 4 d.h.c ++ natToBE 4 d.h.d
      ++ natToBE 4 d.h.e ++ natToBE 4 d.h.f ++ natToBE 4 d.h.g ++ natToBE 4 d.h.h)

/-- Method `Sum(b)`: the digest of what has been written, appended to `b`; the hash
itself is left as it is. -/
def Digest.sum (d : Digest) (b : Bytes) : Except Panic Bytes :=
  match d.checkSum with
  | .error p => .error p
  | .ok hash => .ok (b ++ hash)

/-! ## crypto/hmac -/

/-- A keyed hash (`hmac.New(sha256.New, key)`): the two pads and the two hashes. -/
structure HMAC where
  opad : Bytes
  ipad : Bytes
  outer : Digest
  inner : Digest
  deriving DecidableEq, Repr

/-- The second half of `hmac.New`: the key, at most a block long by now, is copied into
the two pads of 64 zero bytes, the pads are xored with `0x36` and `0x5c`, and the inner
hash gets `ipad`. -/
def hmacPads (outer inner : Digest) (key : Bytes) : HMAC :=
  let pad := key.take 64 ++ List.replicate (64 - key.length) 0
  let ipad := pad.map (· ^^^ 0x36)
  let opad := pad.map (· ^^^ 0x5c)
  ⟨opad, ipad, outer, inner.write ipad⟩

/-- Function `hmac.New(sha256.New, key)`: a key longer than the 64-byte block is first
replaced by its digest, taken with the outer hash. -/
def hmacNew (key : Bytes) : Except Panic HMAC :=
  if key.length > 64 then
    match (sha256New.write key).sum [] with
    | .error p => .error p
    | .ok digest => .ok (hmacPads (sha256New.write key) sha256New digest)
  else .ok (hmacPads sha256New sha256New key)

/-- Method `Write(p)` of a keyed hash: the inner hash gets `p`. -/
def HMAC.write (h : HMAC) (p : Bytes) : HMAC := ⟨h.opad, h.ipad, h.outer, h.inner.write p⟩

/-- Method `Sum(b)` of a keyed hash: the inner digest is taken, the outer hash is reset
and gets `opad` and the inner digest; its digest is appended to `b`. -/
def HMAC.sum (h : HMAC) (b : Bytes) : Except Panic Bytes :=
  match h.inner.sum b with
  | .error p => .error p
  | .ok r =>
    let outer := sha256New
    let outer := outer.write h.opad
    let outer := outer.write (r.drop b.length)
    outer.sum (r.take b.length)

/-! ## crypto/cipher: CFB -/

/-- A CFB encrypter (`cipher.Stream`) before its first byte: the block cipher and the
register `next`, holding the IV. -/
structure CFB where
  b : AESCipher
  next : Bytes
  deriving DecidableEq, Repr

/-- Function `cipher.NewCFBEncrypter`: panics unless the IV is one block long. -/
def cipherNewCFBEncrypter (block : AESCipher) (iv : Bytes) : Except Panic CFB :=
  if iv.length ≠ block.blockSize then .error .cfbIVLength
  else .ok ⟨block, iv⟩

/-- Method `XORKeyStream` of a fresh CFB encrypter: each block of `src` is xored with
the encryption of `next`, and the ciphertext block is copied into `next`; `n` bounds
the number of blocks. -/
def cfbXORKeyStream (b : AESCipher) : Nat → Bytes → Bytes → Bytes
  | 0, _, _ => []
  | n + 1, next, src =>
    if src.length = 0 then []
    else
      let out := b.encrypt next
      let dst := xorBytes (src.take 16) out
      dst ++ cfbXORKeyStream b n (dst ++ next.drop dst.length) (src.drop 16)

/-- Method `XORKeyStream(dst, src)`, `dst` as long as `src`. -/
def CFB.xorKeyStream (x : CFB) (src : Bytes) : Bytes :=
  cfbXORKeyStream x.b src.length x.next src

/-! ## crypto/rsa: OAEP encryption (RFC 8017) -/

/-- An RSA public key (`rsa.PublicKey`) with a modulus. -/
structure PublicKey where
  N : Nat
  E : Int
  deriving DecidableEq, Repr

/-- Method `BitLen` of a `big.Int`. -/
def bitLen (n : Nat) : Nat := if n = 0 then 0 else Nat.log2 n + 1

/-- Method `Size`: the modulus size in bytes. -/
def PublicKey.size (pub : PublicKey) : Nat := (bitLen pub.N + 7) / 8

/-- Function `checkKeySize`: a modulus under 1024 bits is refused (the setting
`rsa1024min` left at its default). -/
def checkKeySize (size : Nat) : Option GoError :=
  if size ≥ 1024 then none else some (.insecureKeySize size)

/-- Function `checkPublicKeySize`. -/
def checkPublicKeySize (k : PublicKey) : Option GoError := checkKeySize (bitLen k.N)

/-- Function `checkPublicKey`: the modulus is odd, the exponent is at least 2, odd, and
fits 31 bits; the checks are made in this order. -/
def checkPublicKey (pub : PublicKey) : Option GoError :=
  if pub.N % 2 = 0 then some .publicModulusEven
  else if pub.E < 2 then some .publicExponentSmall
  else if pub.E % 2 = 0 then some .publicExponentEven
  else if pub.E > 2 ^ 31 - 1 then some .publicExponentLarge
  else none

/-- The key stream of `mgf1XOR`: the digests of `seed || counter` for `n` successive
four-byte counters from `c`. -/
def mgf1Stream (seed : Bytes) : Nat → Nat → Bytes
  | 0, _ => []
  | n + 1, c => sha256Sum (seed ++ natToBE 4 c) ++ mgf1Stream seed n (c + 1)

/-- Function `mgf1XOR(out, sha256, seed)`: `out` xored with the MGF1 mask of `seed`. -/
def mgf1XOR (out seed : Bytes) : Bytes :=
  xorBytes out (mgf1Stream seed ((out.length + 31) / 32) 0)

/-- Function `encrypt(pub, plaintext)`: the encoded message as a number below the
modulus (`SetBytes` refuses any other), raised to the exponent modulo `N`
(`ExpShortVarTime`), as `k` big-endian bytes. -/
def rsaEncrypt (pub : PublicKey) (plaintext : Bytes) : Except GoError Bytes :=
  let m := beToNat plaintext
  if m ≥ pub.N then .error .inputOverflowsModulus
  else .ok (natToBE pub.size (m ^ pub.E.toNat % pub.N))

/-- Function `rsa.EncryptOAEP(sha256.New(), rand.Reader, pub, msg, label)`: the key size
check, the modulus conversion of `fipsPublicKey` (`bigmod.NewModulus`), `checkPublicKey`,
the length check, the OAEP encoding with a 32-byte seed read from `rand`, and `encrypt`. -/
def rsaEncryptOAEP (rand : Bytes) (pub : PublicKey) (msg label : Bytes) :
    Outcome Bytes × Bytes :=
  match checkPublicKeySize pub with
  | some err => (.ret [] (some err), rand)
  | none =>
    if pub.N ≤ 1 then (.ret [] (some .modulusTooSmall), rand)
    else
      match checkPublicKey pub with
      | some err => (.ret [] (some err), rand)
      | none =>
        let k := pub.size
        if (msg.length : Int) > (k : Int) - 2 * 32 - 2 then
          (.ret [] (some .messageTooLong), rand)
        else
          let lHash := sha256Sum label
          let db := lHash ++ List.replicate (k - 2 * 32 - 2 - msg.length) 0 ++ 1 :: msg
          match ioReadFull rand 32 with
          | (.error err, rand) => (.ret [] (some err), rand)
          | (.ok seed, rand) =>
            let db := mgf1XOR db seed
            let seed := mgf1XOR seed db
            let em := 0 :: seed ++ db
            match rsaEncrypt pub em with
            | .error err => (.ret [] (some err), rand)
            | .ok c => (.ret c none, rand)

/-! ## cmd/crypto/main.go, continued -/

/-- Function `encryptRSA(publicKey, plaintext)`. -/
def encryptRSA (publicKey : PublicKey) (plaintext rand : Bytes) : Outcome Bytes × Bytes :=
  match rsaEncryptOAEP rand publicKey plaintext [] with
  | (.ret _ (some err), rand) => (.ret [] (some err), rand)
  | (.ret ciphertext none, rand) => (.ret ciphertext none, rand)
  | (.panic p, rand) => (.panic p, rand)

/-- Function `generateChecksum(data)`. -/
def generateChecksum (data : Bytes) : Except Panic Bytes :=
  let hasher := sha256New
  let hasher := hasher.write data
  match hasher.sum [] with
  | .error p => .error p
  | .ok digest => .ok (hexEncodeToString digest)

/-- Function `generateHMAC(key, data)`. -/
def generateHMAC (key data : Bytes) : Except Panic Bytes :=
  match hmacNew key with
  | .error p => .error p
  | .ok mac =>
    let mac := mac.write data
    match mac.sum [] with
    | .error p => .error p
    | .ok tag => .ok (hexEncodeToString tag)

/-! ## cmd/profiling/main.go -/

/-- Function `generateKey()`: the fixed 16-byte key. -/
def generateKey : Bytes := str "examplekey123456"

/-- Function `encryptData(data, key)`, reading the IV from `rand`. The IV is the first
block of the result, the CFB output is appended to it. -/
def encryptData (data key rand : Bytes) : Outcome Bytes × Bytes :=
  match aesNewCipher key with
  | .error err => (.ret [] (some err), rand)
  | .ok block =>
    match ioReadFull rand 16 with
    | (.error err, rand) => (.ret [] (some err), rand)
    | (.ok iv, rand) =>
      match cipherNewCFBEncrypter block iv with
      | .error p => (.panic p, rand)
      | .ok stream =>
        let encrypted := stream.xorKeyStream data
        let ciphertext := iv ++ encrypted
        (.ret (hexEncodeToString ciphertext) none, rand)

/-! ## Well-formed blocks, words and ciphers -/

/-- A 16-byte block. -/
def IsBlock (b : Bytes) : Prop := b.length = 16 ∧ IsBytes b

/-- A four-byte word. -/
def IsWord (w : Bytes) : Prop := w.length = 4 ∧ IsBytes w

/-- Every round key of the cipher is a block. -/
def AESCipher.WF (c : AESCipher) : Prop := ∀ k ∈ c.rk, IsBlock k

/-- A lower-case hexadecimal character: `0-9` or `a-f`. -/
def IsHexLower (c : Nat) : Prop := (48 ≤ c ∧ c ≤ 57) ∨ (97 ≤ c ∧ c ≤ 102)

/-- Two characters with the same hexadecimal value, or both with none. -/
def SameHex (a b : Nat) : Prop := fromHexChar a = fromHexChar b

/-- CFB mode with 16-byte segments as NIST SP 800-38A states it: each ciphertext segment
is the plaintext segment xored with the encryption of the previous ciphertext segment (the
IV for the first), the last segment with as many leading bytes of it as it has itself; `n`
bounds the number of segments. -/
def cfbEncrypt (b : AESCipher) : Nat → Bytes → Bytes → Bytes
  | 0, _, _ => []
  | n + 1, prev, p =>
    if p.length = 0 then []
    else
      let c := xorBytes (p.take 16) (b.encrypt prev)
      c ++ cfbEncrypt b n c (p.drop 16)

/-! ## The inverse steps of AES (FIPS 197 §5.3), used to show that encryption is injective -/

/-- The inverse S-box (`sbox1`). -/
def invSbox : List Nat :=
  [
   0x52, 0x09, 0x6a, 0xd5, 0x30, 0x36, 0xa5, 0x38, 0xbf, 0x40, 0xa3, 0x9e, 0x81, 0xf3, 0xd7, 0xfb,
   0x7c, 0xe3, 0x39, 0x82, 0x9b, 0x2f, 0xff, 0x87, 0x34, 0x8e, 0x43, 0x44, 0xc4, 0xde, 0xe9, 0xcb,
   0x54, 0x7b, 0x94, 0x32, 0xa6, 0xc2, 0x23, 0x3d, 0xee, 0x4c, 0x95, 0x0b, 0x42, 0xfa, 0xc3, 0x4e,
   0x08, 0x2e, 0xa1, 0x66, 0x28, 0xd9, 0x24, 0xb2, 0x76, 0x5b, 0xa2, 0x49, 0x6d, 0x8b, 0xd1, 0x25,
   0x72, 0xf8, 0xf6, 0x64, 0x86, 0x68, 0x98, 0x16, 0xd4, 0xa4, 0x5c, 0xcc, 0x5d, 0x65, 0xb6, 0x92,
   0x6c, 0x70, 0x48, 0x50, 0xfd, 0xed, 0xb9, 0xda, 0x5e, 0x15, 0x46, 0x57, 0xa7, 0x8d, 0x9d, 0x84,
   0x90, 0xd8, 0xab, 0x00, 0x8c, 0xbc, 0xd3, 0x0a, 0xf7, 0xe4, 0x58, 0x05, 0xb8, 0xb3, 0x45, 0x06,
   0xd0, 0x2c, 0x1e, 0x8f, 0xca, 0x3f, 0x0f, 0x02, 0xc1, 0xaf, 0xbd, 0x03, 0x01, 0x13, 0x8a, 0x6b,
   0x3a, 0x91, 0x11, 0x41, 0x4f, 0x67, 0xdc, 0xea, 0x97, 0xf2, 0xcf, 0xce, 0xf0, 0xb4, 0xe6, 0x73,
   0x96, 0xac, 0x74, 0x22, 0xe7, 0xad, 0x35, 0x85, 0xe2, 0xf9, 0x37, 0xe8, 0x1c, 0x75, 0xdf, 0x6e,
   0x47, 0xf1, 0x1a, 0x71, 0x1d, 0x29, 0xc5, 0x89, 0x6f, 0xb7, 0x62, 0x0e, 0xaa, 0x18, 0xbe, 0x1b,
   0xfc, 0x56, 0x3e, 0x4b, 0xc6, 0xd2, 0x79, 0x20, 0x9a, 0xdb, 0xc0, 0xfe, 0x78, 0xcd, 0x5a, 0xf4,
   0x1f, 0xdd, 0xa8, 0x33, 0x88, 0x07, 0xc7, 0x31, 0xb1, 0x12, 0x10, 0x59, 0x27, 0x80, 0xec, 0x5f,
   0x60, 0x51, 0x7f, 0xa9, 0x19, 0xb5, 0x4a, 0x0d, 0x2d, 0xe5, 0x7a, 0x9f, 0x93, 0xc9, 0x9c, 0xef,
   0xa0, 0xe0, 0x3b, 0x4d, 0xae, 0x2a, 0xf5, 0xb0, 0xc8, 0xeb, 0xbb, 0x3c, 0x83, 0x53, 0x99, 0x61,
   0x17, 0x2b, 0x04, 0x7e, 0xba, 0x77, 0xd6, 0x26, 0xe1, 0x69, 0x14, 0x63, 0x55, 0x21, 0x0c, 0x7d]

/-- Lookup `sbox1[b]`. -/
def invSubByte (b : Nat) : Nat := invSbox.getD b 0

/-- Multiplication by `09` in GF(2^8). -/
def mul9 (a : Nat) : Nat := xtime (xtime (xtime a)) ^^^ a

/-- Multiplication by `0b` in GF(2^8). -/
def mul11 (a : Nat) : Nat := xtime (xtime (xtime a)) ^^^ xtime a ^^^ a

/-- Multiplication by `0d` in GF(2^8). -/
def mul13 (a : Nat) : Nat := xtime (xtime (xtime a)) ^^^ xtime (xtime a) ^^^ a

/-- Multiplication by `0e` in GF(2^8). -/
def mul14 (a : Nat) : Nat := xtime (xtime (xtime a)) ^^^ xtime (xtime a) ^^^ xtime a

/-- Step InvMixColumns on one column. -/
def invMixColumn (r0 r1 r2 r3 : Nat) : Bytes :=
  [mul14 r0 ^^^ mul11 r1 ^^^ mul13 r2 ^^^ mul9 r3,
   mul9 r0 ^^^ mul14 r1 ^^^ mul11 r2 ^^^ mul13 r3,
   mul13 r0 ^^^ mul9 r1 ^^^ mul14 r2 ^^^ mul11 r3,
   mul11 r0 ^^^ mul13 r1 ^^^ mul9 r2 ^^^ mul14 r3]

/-- Step InvMixColumns. -/
def invMixColumns : Bytes → Bytes
  | r0 :: r1 :: r2 :: r3 :: rest => invMixColumn r0 r1 r2 r3 ++ invMixColumns rest
  | s => s

/-- The xor of the values `c k` over the bits `k < 8` set in `b`. -/
def bitsum8 (c : Nat → Nat) (b : Nat) : Nat :=
  (if b.testBit 0 then c 0 else 0) ^^^ (if b.testBit 1 then c 1 else 0)
    ^^^ (if b.testBit 2 then c 2 else 0) ^^^ (if b.testBit 3 then c 3 else 0)
    ^^^ (if b.testBit 4 then c 4 else 0) ^^^ (if b.testBit 5 then c 5 else 0)
    ^^^ (if b.testBit 6 then c 6 else 0) ^^^ (if b.testBit 7 then c 7 else 0)

/-- A map of bytes that respects xor. -/
def ByteLin (f : Nat → Nat) : Prop :=
  (∀ a < 256, f a < 256) ∧ ∀ a < 256, ∀ b < 256, f (a ^^^ b) = f a ^^^ f b

/-- Flip bit `j` of byte `i`. -/
def flipBit (bs : Bytes) (i j : Nat) : Bytes := bs.set i (bs.getD i 0 ^^^ 2 ^ j)

/-- The nonce an envelope encodes: its first 24 characters, decoded. -/
def envelopeNonce (e : Bytes) : Bytes := (hexDecodeString (e.take 24)).1

/-- The ciphertext an envelope encodes: what follows the nonce, decoded, without its last
16 bytes. -/
def envelopeCiphertext (e : Bytes) : Bytes :=
  (hexDecodeString (e.drop 24)).1.take ((hexDecodeString (e.drop 24)).1.length - 16)

/-- The tag an envelope encodes: the last 16 bytes of what follows the nonce, decoded. -/
def envelopeTag (e : Bytes) : Bytes :=
  (hexDecodeString (e.drop 24)).1.drop ((hexDecodeString (e.drop 24)).1.length - 16)

/-- The state of a hash that started from the chaining value `h0` and has been given the
bytes `m`: the whole chunks of `m` are compressed, the rest waits in the buffer. -/
def digestOf (h0 : Sha256State) (m : Bytes) : Digest :=
  ⟨sha256Blocks (m.length / 64) h0 m, m.drop (m.length / 64 * 64), m.length % 2 ^ 64⟩

/-! ## The specification of the digests: SHA-256 as in FIPS 180-4 and HMAC as in
RFC 2104, written from the standards and not from the code -/

/-- Operation `ROTR^n(x)` on a 32-bit word (FIPS 180-4, 3.2). -/
def specROTR (n x : Nat) : Nat := (x >>> n ||| x <<< (32 - n)) % 2 ^ 32

/-- Operation `SHR^n(x)` (FIPS 180-4, 3.2). -/
def specSHR (n x : Nat) : Nat := x >>> n

/-- Function `Ch(x, y, z) = (x ∧ y) ⊕ (¬x ∧ z)` (FIPS 180-4, 4.1.2). -/
def specCh (x y z : Nat) : Nat := (x &&& y) ^^^ ((x ^^^ 0xffffffff) &&& z)

/-- Function `Maj(x, y, z) = (x ∧ y) ⊕ (x ∧ z) ⊕ (y ∧ z)`. -/
def specMaj (x y z : Nat) : Nat := (x &&& y) ^^^ (x &&& z) ^^^ (y &&& z)

/-- Function `Σ0(x) = ROTR^2(x) ⊕ ROTR^13(x) ⊕ ROTR^22(x)`. -/
def specBigSigma0 (x : Nat) : Nat := specROTR 2 x ^^^ specROTR 13 x ^^^ specROTR 22 x

/-- Function `Σ1(x) = ROTR^6(x) ⊕ ROTR^11(x) ⊕ ROTR^25(x)`. -/
def specBigSigma1 (x : Nat) : Nat := specROTR 6 x ^^^ specROTR 11 x ^^^ specROTR 25 x

/-- Function `σ0(x) = ROTR^7(x) ⊕ ROTR^18(x) ⊕ SHR^3(x)`. -/
def specSmallSigma0 (x : Nat) : Nat := specROTR 7 x ^^^ specROTR 18 x ^^^ specSHR 3 x

/-- Function `σ1(x) = ROTR^17(x) ⊕ ROTR^19(x) ⊕ SHR^10(x)`. -/
def specSmallSigma1 (x : Nat) : Nat := specROTR 17 x ^^^ specROTR 19 x ^^^ specSHR 10 x

/-- The sixty-four constants `K_0 .. K_63` (FIPS 180-4, 4.2.2). -/
def specK : List Nat :=
  [
   0x428a2f98, 0x71374491, 0xb5c0fbcf, 0xe9b5dba5, 0x3956c25b, 0x59f111f1, 0x923f82a4, 0xab1c5ed5,
   0xd807aa98, 0x12835b01, 0x243185be, 0x550c7dc3, 0x72be5d74, 0x80deb1fe, 0x9bdc06a7, 0xc19bf174,
   0xe49b69c1, 0xefbe4786, 0x0fc19dc6, 0x240ca1cc, 0x2de92c6f, 0x4a7484aa, 0x5cb0a9dc, 0x76f988da,
   0x983e5152, 0xa831c66d, 0xb00327c8, 0xbf597fc7, 0xc6e00bf3, 0xd5a79147, 0x06ca6351, 0x14292967,
   0x27b70a85, 0x2e1b2138, 0x4d2c6dfc, 0x53380d13, 0x650a7354, 0x766a0abb, 0x81c2c92e, 0x92722c85,
   0xa2bfe8a1, 0xa81a664b, 0xc24b8b70, 0xc76c51a3, 0xd192e819, 0xd6990624, 0xf40e3585, 0x106aa070,
   0x19a4c116, 0x1e376c08, 0x2748774c, 0x34b0bcb5, 0x391c0cb3, 0x4ed8aa4a, 0x5b9cca4f, 0x682e6ff3,
   0x748f82ee, 0x78a5636f, 0x84c87814, 0x8cc70208, 0x90befffa, 0xa4506ceb, 0xbef9a3f7, 0xc67178f2]

/-- The initial hash value `H(0)` (FIPS 180-4, 5.3.3). -/
def specH0 : Sha256State :=
  ⟨0x6a09e667, 0xbb67ae85, 0x3c6ef372, 0xa54ff53a, 0x510e527f, 0x9b05688c, 0x1f83d9ab, 0x5be0cd19⟩

/-- The number `k` of zero bits of the padding of a message of `l` bits: the smallest
`k ≥ 0` with `l + 1 + k ≡ 448 (mod 512)` (FIPS 180-4, 5.1.1). -/
def specZeroBits (l : Nat) : Nat := (448 + 512 - (l + 1) % 512) % 512

/-- The padded message (FIPS 180-4, 5.1.1), for a message of whole bytes: the bit `1` and
`k` zero bits make the byte `0x80` and `(k + 1) / 8 - 1` zero bytes, and the length `l` in
bits follows as a 64-bit block. -/
def specPad (m : Bytes) : Bytes :=
  m ++ 0x80 :: List.replicate ((specZeroBits (8 * m.length) + 1) / 8 - 1) 0
    ++ natToBE 8 (8 * m.length)

/-- The sixteen 32-bit words `M_0 .. M_15` of a 512-bit block (FIPS 180-4, 5.2.1). -/
def specWords (block : Bytes) : List Nat :=
  (List.range 16).map (fun t => beToNat ((block.drop (4 * t)).take 4))

/-- The message schedule (FIPS 180-4, 6.2.2, step 1), `n` more words after those of `w`:
`W_t = σ1(W_{t-2}) + W_{t-7} + σ0(W_{t-15}) + W_{t-16}`. -/
def specSchedule : Nat → List Nat → List Nat
  | 0, w => w
  | n + 1, w =>
    let t := w.length
    specSchedule n (w ++ [(specSmallSigma1 (w.getD (t - 2) 0) + w.getD (t - 7) 0
      + specSmallSigma0 (w.getD (t - 15) 0) + w.getD (t - 16) 0) % 2 ^ 32])

/-- One iteration of step 3 of FIPS 180-4, 6.2.2, with `T1` and `T2`. -/
def specStep (s : Sha256State) (kw : Nat × Nat) : Sha256State :=
  let t1 := (s.h + specBigSigma1 s.e + specCh s.e s.f s.g + kw.1 + kw.2) % 2 ^ 32
  let t2 := (specBigSigma0 s.a + specMaj s.a s.b s.c) % 2 ^ 32
  ⟨(t1 + t2) % 2 ^ 32, s.a, s.b, s.c, (s.d + t1) % 2 ^ 32, s.e, s.f, s.g⟩

/-- The hash value `H(i)` from `H(i-1)` and the block `M(i)` (FIPS 180-4, 6.2.2). -/
def specCompress (hv : Sha256State) (block : Bytes) : Sha256State :=
  let w := specSchedule 48 (specWords block)
  let s := (specK.zip w).foldl specStep hv
  ⟨(s.a + hv.a) % 2 ^ 32, (s.b + hv.b) % 2 ^ 32, (s.c + hv.c) % 2 ^ 32, (s.d + hv.d) % 2 ^ 32,
   (s.e + hv.e) % 2 ^ 32, (s.f + hv.f) % 2 ^ 32, (s.g + hv.g) % 2 ^ 32, (s.h + hv.h) % 2 ^ 32⟩

/-- SHA-256 of a message of whole bytes (FIPS 180-4, 6.2): the padded message is parsed
into 512-bit blocks, the blocks are compressed in order from `H(0)`, and the digest is
the last hash value, 32 bytes. -/
def specSHA256 (m : Bytes) : Bytes :=
  let p := specPad m
  let hv := (List.range (p.length / 64)).foldl
    (fun hv i => specCompress hv ((p.drop (64 * i)).take 64)) specH0
  natToBE 4 hv.a ++ natToBE 4 hv.b ++ natToBE 4 hv.c ++ natToBE 4 hv.d
    ++ natToBE 4 hv.e ++ natToBE 4 hv.f ++ natToBE 4 hv.g ++ natToBE 4 hv.h

/-- HMAC-SHA256 (RFC 2104): with `B = 64`, a key longer than `B` bytes is hashed first,
zeros are appended to the key up to `B` bytes, and the tag is
`H((K ⊕ opad) || H((K ⊕ ipad) || text))`, `ipad` the byte `0x36` and `opad` the byte `0x5c`
repeated `B` times. -/
def specHMAC (key text : Bytes) : Bytes :=
  let k := if key.length > 64 then specSHA256 key else key
  let k0 := k ++ List.replicate (64 - k.length) 0
  let ipad := List.replicate 64 0x36
  let opad := List.replicate 64 0x5c
  specSHA256 (xorBytes k0 opad ++ specSHA256 (xorBytes k0 ipad ++ text))

/-! ## An RSA key for the examples -/

/-- A 2048-bit modulus generated by `openssl genrsa`. -/
def exampleModulus : Nat :=
  0xa9ea79b5ad7bbcf62fd318ad274b8cc80955bbdaf881f175e7be939c901dc8fab2698e2ea672ea2e8e3c3f9070c9ab6ba1aa639ee823cd836703d2775c59a19af1abd6a830dc6197c9b44faa8c5b8fab28e8eb316b67a3f6ad994001ba75f5be9c44a01d8442b99b6307340566961a7dcd388e1174daa7d23034e37a5ba3f7add71f972f57ed15e97b28d9babd65f795e8786650035c5f1c8e68220b1b8f6d0035ed6cdbb0d6810a09177d7c1775eb5c1320b0bbfdc281b26855e774dcd6e782a3ae7a3fda7b96f58a812bc7e0aa0dc2cac446093963dd5ee62886cd8527914aaa0515ddbe4dab967139cc57119d8341a3f529b20220ff46d95d0a4724019cb7

/-- The encoded message `em` that `rsa.EncryptOAEP` builds for a modulus of `k` bytes:
a zero byte, the masked seed and the masked data block. -/
def oaepEncode (k : Nat) (seed msg label : Bytes) : Bytes :=
  let db := sha256Sum label ++ List.replicate (k - 2 * 32 - 2 - msg.length) 0 ++ 1 :: msg
  0 :: mgf1XOR seed (mgf1XOR db seed) ++ mgf1XOR db seed

/-! ## GF(2^128): the polynomial reading of blocks, used to show that GHASH detects a
changed ciphertext byte -/

/-- The map `ψ` reads a 128-bit block as a polynomial over GF(2), its leftmost bit the
constant term. -/
def IsGcmPoly (ψ : ℕ → Polynomial (ZMod 2)) : Prop :=
  ∀ n, ψ n = Finset.sum (Finset.range 128)
    (fun i => if n.testBit (127 - i) then (Polynomial.X : Polynomial (ZMod 2)) ^ i else 0)

/-- The polynomial `x^128 + x^7 + x^2 + x + 1` of GHASH. -/
def IsGcmModulus (p : Polynomial (ZMod 2)) : Prop :=
  p = Polynomial.X ^ 128 + Polynomial.X ^ 7 + Polynomial.X ^ 2 + Polynomial.X + 1

/-- Squaring `k` times in GF(2^128). -/
def gcmSqIter : Nat → Nat → Nat
  | 0, s => s
  | k + 1, s => gcmSqIter k (gcmMul s s)

/-- The inverse of `x^(2^64) + x` in GF(2^128), as a block. -/
def gcmRabinInverse : Nat := 0x180da934bf53158251c13dbb149f5279

/-! ## Bytes -/

theorem isBytes_nil : IsBytes [] := fun _ h => by simp at h

theorem isBytes_cons {b : Nat} {bs : Bytes} : IsBytes (b :: bs) ↔ b < 256 ∧ IsBytes bs := by
  simp [IsBytes]

theorem isBytes_append {xs ys : Bytes} : IsBytes (xs ++ ys) ↔ IsBytes xs ∧ IsBytes ys := by
  simp only [IsBytes, List.mem_append]
  constructor
  · intro h; exact ⟨fun b hb => h b (Or.inl hb), fun b hb => h b (Or.inr hb)⟩
  · rintro ⟨h1, h2⟩ b (hb | hb)
    · exact h1 b hb
    · exact h2 b hb

theorem isBytes_take {xs : Bytes} (n : Nat) (h : IsBytes xs) : IsBytes (xs.take n) :=
  fun b hb => h b (List.mem_of_mem_take hb)

theorem isBytes_drop {xs : Bytes} (n : Nat) (h : IsBytes xs) : IsBytes (xs.drop n) :=
  fun b hb => h b (List.mem_of_mem_drop hb)

theorem isBytes_replicate_zero (n : Nat) : IsBytes (List.replicate n 0) := by
  intro b hb
  rw [List.mem_replicate] at hb
  omega

theorem xor_lt_256 {a b : Nat} (ha : a < 256) (hb : b < 256) : a ^^^ b < 256 :=
  Nat.xor_lt_two_pow (n := 8) ha hb

theorem xorBytes_length (x y : Bytes) : (xorBytes x y).length = min x.length y.length := by
  simp [xorBytes]

theorem isBytes_xorBytes : ∀ {x y : Bytes}, IsBytes x → IsBytes y → IsBytes (xorBytes x y)
  | [], _, _, _ => by simp [xorBytes, isBytes_nil]
  | _ :: _, [], _, _ => by simp [xorBytes, isBytes_nil]
  | a :: x, b :: y, hx, hy => by
    rw [isBytes_cons] at hx hy
    have ih := isBytes_xorBytes hx.2 hy.2
    simp only [xorBytes, List.zipWith_cons_cons] at ih ⊢
    exact isBytes_cons.2 ⟨xor_lt_256 hx.1 hy.1, ih⟩

theorem xorBytes_cancel : ∀ (x y : Bytes), x.length ≤ y.length → xorBytes (xorBytes x y) y = x
  | [], _, _ => by simp [xorBytes]
  | _ :: _, [], h => by simp at h
  | a :: x, b :: y, h => by
    have ih := xorBytes_cancel x y (by simpa using h)
    simp only [xorBytes, List.zipWith_cons_cons] at ih ⊢
    rw [ih, Nat.xor_assoc, Nat.xor_self, Nat.xor_zero]

theorem natToBE_length (k n : Nat) : (natToBE k n).length = k := by
  induction k with
  | zero => rfl
  | succ k ih => simp [natToBE, ih]

theorem isBytes_natToBE (k n : Nat) : IsBytes (natToBE k n) := by
  induction k with
  | zero => exact isBytes_nil
  | succ k ih => exact isBytes_cons.2 ⟨Nat.mod_lt _ (by omega), ih⟩

/-! ## AES: every block stays a block -/

set_option maxRecDepth 100000 in
theorem sbox_lt : ∀ x ∈ sbox, x < 256 := by decide

theorem subByte_lt (b : Nat) : subByte b < 256 := by
  unfold subByte
  rw [List.getD_eq_getElem?_getD]
  cases h : sbox[b]? with
  | none => simp
  | some x => exact sbox_lt x (List.getElem?_mem h)

theorem isBytes_map_subByte (s : Bytes) : IsBytes (s.map subByte) := by
  intro b hb
  obtain ⟨a, _, rfl⟩ := List.mem_map.1 hb
  exact subByte_lt a

theorem xtime_lt {b : Nat} (h : b < 256) : xtime b < 256 := by
  unfold xtime
  split
  · omega
  · exact xor_lt_256 (by omega) (by omega)

theorem hexEncodeToString_length (bs : Bytes) :
    (hexEncodeToString bs).length = 2 * bs.length := by
  induction bs with
  | nil => rfl
  | cons v rest ih => simp only [hexEncodeToString, List.length_cons, ih]; omega

theorem hexEncodeToString_append (xs ys : Bytes) :
    hexEncodeToString (xs ++ ys) = hexEncodeToString xs ++ hexEncodeToString ys := by
  induction xs with
  | nil => rfl
  | cons v rest ih => simp [hexEncodeToString, ih]

theorem fromHexChar_hextable : ∀ d < 16, fromHexChar (hextable.getD d 0) = some d := by
  decide

set_option maxRecDepth 100000 in
theorem nibbles_join_all : ∀ v < 256, (v / 16 % 16) <<< 4 ||| v % 16 = v := by
  decide

theorem nibbles_join (v : Nat) (hv : v < 256) : (v / 16 % 16) <<< 4 ||| v % 16 = v :=
  nibbles_join_all v hv

theorem hexDecodeString_encode_append (bs s : Bytes) (h : IsBytes bs) :
    hexDecodeString (hexEncodeToString bs ++ s)
      = (bs ++ (hexDecodeString s).1, (hexDecodeString s).2) := by
  induction bs with
  | nil => simp [hexEncodeToString]
  | cons v rest ih =>
    have hv : v < 256 := h v (List.mem_cons_self _ _)
    have hr : IsBytes rest := fun b hb => h b (List.mem_cons_of_mem _ hb)
    simp only [hexEncodeToString, List.cons_append, hexDecodeString]
    rw [fromHexChar_hextable _ (by omega), fromHexChar_hextable _ (by omega)]
    simp only [List.append_eq, ih hr, nibbles_join v hv, List.cons_append]

/-! ## More on encoding/hex -/

theorem hextable_lower : ∀ d < 16, IsHexLower (hextable.getD d 0) := by
  unfold IsHexLower
  decide

theorem hexEncodeToString_lower (bs : Bytes) : ∀ c ∈ hexEncodeToString bs, IsHexLower c := by
  induction bs with
  | nil => intro c hc; simp [hexEncodeToString] at hc
  | cons v rest ih =>
    intro c hc
    simp only [hexEncodeToString, List.mem_cons] at hc
    rcases hc with rfl | rfl | hc
    · exact hextable_lower _ (Nat.mod_lt _ (by omega))
    · exact hextable_lower _ (Nat.mod_lt _ (by omega))
    · exact ih c hc

theorem fromHexChar_lt {c a : Nat} (h : fromHexChar c = some a) : a < 16 := by
  unfold fromHexChar at h
  split at h
  · injection h with h; omega
  · split at h
    · injection h with h; omega
    · split at h
      · injection h with h; omega
      · cases h

theorem nibbles_lt_all : ∀ a < 16, ∀ b < 16, a <<< 4 ||| b < 256 := by
  decide

/-- Whatever `hex.DecodeString` returns is a byte string. -/
theorem isBytes_hexDecodeString : ∀ (s : Bytes), IsBytes (hexDecodeString s).1
  | [] => isBytes_nil
  | [c] => by
    rw [hexDecodeString]
    split <;> exact isBytes_nil
  | p :: q :: rest => by
    have ih := isBytes_hexDecodeString rest
    rw [hexDecodeString]
    split
    · exact isBytes_nil
    · rename_i a ha
      split
      · exact isBytes_nil
      · rename_i b hb
        exact isBytes_cons.2 ⟨nibbles_lt_all a (fromHexChar_lt ha) b (fromHexChar_lt hb), ih⟩

/-- A string of `2 * n` hexadecimal characters decodes to `n` bytes. -/
theorem hexDecodeString_length : ∀ (n : Nat) (s : Bytes), s.length = 2 * n →
    (∀ c ∈ s, (fromHexChar c).isSome) → (hexDecodeString s).1.length = n
  | 0, s, hl, _ => by
    have : s = [] := List.length_eq_zero.1 (by omega)
    subst this
    rfl
  | n + 1, s, hl, hc => by
    match s, hl, hc with
    | p :: q :: rest, hl, hc =>
      have hp := hc p (by simp)
      have hq := hc q (by simp)
      obtain ⟨a, ha⟩ := Option.isSome_iff_exists.1 hp
      obtain ⟨b, hb⟩ := Option.isSome_iff_exists.1 hq
      have ih := hexDecodeString_length n rest (by simp at hl; omega)
        (fun c h => hc c (by simp [h]))
      simp only [hexDecodeString, ha, hb, List.length_cons, ih]

/-- A string that is one character, or starts with a character that is not
hexadecimal, decodes to nothing, with an error. -/
theorem hexDecodeString_garbage (s : Bytes)
    (h : s.length = 1 ∨ ∃ c rest, s = c :: rest ∧ fromHexChar c = none) :
    (hexDecodeString s).1 = [] ∧ (hexDecodeString s).2 ≠ none := by
  match s, h with
  | [], h =>
    rcases h with h | ⟨c, r, hs, _⟩
    · simp at h
    · cases hs
  | [c], _ =>
    rw [hexDecodeString]
    split <;> exact ⟨rfl, by simp⟩
  | p :: q :: rest, h =>
    rcases h with h | ⟨c, r, hs, hc⟩
    · simp at h
    · injection hs with h1 _
      subst h1
      simp [hexDecodeString, hc]

theorem hexDecodeString_congr : ∀ (s t : Bytes), List.Forall₂ SameHex s t →
    (hexDecodeString s).1 = (hexDecodeString t).1
  | [], _, h => by cases h; rfl
  | [c], _, h => by
    cases h with
    | cons h1 h2 =>
      cases h2
      unfold SameHex at h1
      simp only [hexDecodeString, h1]
      split <;> rfl
  | p :: q :: rest, _, h => by
    cases h with
    | cons h1 h2 =>
      cases h2 with
      | cons h3 h4 =>
        have ih := hexDecodeString_congr rest _ h4
        unfold SameHex at h1 h3
        simp only [hexDecodeString, h1, h3, ih]
        split
        · rfl
        · split <;> rfl

theorem forall₂_sameHex_refl (s : Bytes) : List.Forall₂ SameHex s s := by
  induction s with
  | nil => exact List.Forall₂.nil
  | cons a s ih => exact List.Forall₂.cons rfl ih

theorem forall₂_sameHex_set : ∀ (s : Bytes) (i v : Nat), SameHex (s.getD i 0) v →
    List.Forall₂ SameHex s (s.set i v)
  | [], _, _, _ => List.Forall₂.nil
  | a :: s, 0, v, h => List.Forall₂.cons (by simpa using h) (forall₂_sameHex_refl s)
  | a :: s, i + 1, v, h =>
    List.Forall₂.cons rfl (forall₂_sameHex_set s i v (by simpa using h))

theorem forall₂_take {R : Nat → Nat → Prop} : ∀ (n : Nat) {s t : Bytes}, List.Forall₂ R s t →
    List.Forall₂ R (s.take n) (t.take n)
  | 0, _, _, _ => by simp
  | _ + 1, _, _, .nil => by simp
  | n + 1, _, _, .cons h1 h2 => by
    simp only [List.take_succ_cons]
    exact List.Forall₂.cons h1 (forall₂_take n h2)

theorem forall₂_drop {R : Nat → Nat → Prop} : ∀ (n : Nat) {s t : Bytes}, List.Forall₂ R s t →
    List.Forall₂ R (s.drop n) (t.drop n)
  | 0, _, _, h => by simpa using h
  | _ + 1, _, _, .nil => by simp
  | n + 1, _, _, .cons _ h2 => by
    simp only [List.drop_succ_cons]
    exact forall₂_drop n h2

/-- The upper-case form of a letter `a-f` has the same hexadecimal value. -/
theorem sameHex_upper {c : Nat} (h : 97 ≤ c ∧ c ≤ 102) : SameHex c (c - 32) := by
  unfold SameHex fromHexChar
  have h1 : ¬(48 ≤ c ∧ c ≤ 57) := by omega
  have h2 : ¬(48 ≤ c - 32 ∧ c - 32 ≤ 57) := by omega
  have h3 : ¬(97 ≤ c - 32 ∧ c - 32 ≤ 102) := by omega
  have h4 : 65 ≤ c - 32 ∧ c - 32 ≤ 70 := by omega
  rw [if_neg h1, if_pos h, if_neg h2, if_neg h3, if_pos h4]
  exact congrArg some (by omega)

/-- Decryption depends on the envelope through the values of its characters only. -/
theorem decryptAES_congr (key e e2 : Bytes) (h : List.Forall₂ SameHex e e2) :
    decryptAES key e = decryptAES key e2 := by
  have hl : e.length = e2.length := h.length_eq
  unfold decryptAES
  rw [hexDecodeString_congr _ _ (forall₂_take 24 h), hexDecodeString_congr _ _ (forall₂_drop 24 h),
    hl]

theorem isBlock_xorBytes {x y : Bytes} (hx : IsBlock x) (hy : IsBlock y) :
    IsBlock (xorBytes x y) :=
  ⟨by rw [xorBytes_length, hx.1, hy.1]; rfl, isBytes_xorBytes hx.2 hy.2⟩

theorem isBlock_subBytes {s : Bytes} (hs : IsBlock s) : IsBlock (subBytes s) :=
  ⟨by simp [subBytes, hs.1], isBytes_map_subByte s⟩

theorem length_eq_16 {s : Bytes} (h : s.length = 16) :
    ∃ s0 s1 s2 s3 s4 s5 s6 s7 s8 s9 s10 s11 s12 s13 s14 s15,
      s = [s0, s1, s2, s3, s4, s5, s6, s7, s8, s9, s10, s11, s12, s13, s14, s15] := by
  match s, h with
  | [s0, s1, s2, s3, s4, s5, s6, s7, s8, s9, s10, s11, s12, s13, s14, s15], _ =>
    exact ⟨s0, s1, s2, s3, s4, s5, s6, s7, s8, s9, s10, s11, s12, s13, s14, s15, rfl⟩

theorem isBlock_shiftRows {s : Bytes} (hs : IsBlock s) : IsBlock (shiftRows s) := by
  obtain ⟨s0, s1, s2, s3, s4, s5, s6, s7, s8, s9, s10, s11, s12, s13, s14, s15, rfl⟩ :=
    length_eq_16 hs.1
  have h := hs.2
  simp only [IsBlock, IsBytes, shiftRows, List.mem_cons, List.length_cons, List.length_nil,
    forall_eq_or_imp, List.mem_nil_iff, List.not_mem_nil] at h ⊢
  simp only [h, and_self, true_and]
  exact fun _ hf => hf.elim

theorem isBytes_mixColumn {a0 a1 a2 a3 : Nat} (h0 : a0 < 256) (h1 : a1 < 256) (h2 : a2 < 256)
    (h3 : a3 < 256) : IsBytes (mixColumn a0 a1 a2 a3) := by
  have x0 := xtime_lt h0
  have x1 := xtime_lt h1
  have x2 := xtime_lt h2
  have x3 := xtime_lt h3
  unfold mixColumn
  refine isBytes_cons.2 ⟨?_, isBytes_cons.2 ⟨?_, isBytes_cons.2 ⟨?_, isBytes_cons.2 ⟨?_, isBytes_nil⟩⟩⟩⟩
  all_goals
    first
      | exact xor_lt_256 (xor_lt_256 (xor_lt_256 x0 (xor_lt_256 x1 h1)) h2) h3
      | exact xor_lt_256 (xor_lt_256 (xor_lt_256 h0 x1) (xor_lt_256 x2 h2)) h3
      | exact xor_lt_256 (xor_lt_256 (xor_lt_256 h0 h1) x2) (xor_lt_256 x3 h3)
      | exact xor_lt_256 (xor_lt_256 (xor_lt_256 (xor_lt_256 x0 h0) h1) h2) x3

theorem mixColumns_length : ∀ (s : Bytes), (mixColumns s).length = s.length
  | a0 :: a1 :: a2 :: a3 :: rest => by
    have ih := mixColumns_length rest
    simp [mixColumns, mixColumn, ih]
  | [] => rfl
  | [_] => rfl
  | [_, _] => rfl
  | [_, _, _] => rfl

theorem isBytes_mixColumns : ∀ {s : Bytes}, IsBytes s → IsBytes (mixColumns s)
  | a0 :: a1 :: a2 :: a3 :: rest, h => by
    rw [isBytes_cons, isBytes_cons, isBytes_cons, isBytes_cons] at h
    obtain ⟨h0, h1, h2, h3, hr⟩ := h
    rw [mixColumns]
    exact isBytes_append.2 ⟨isBytes_mixColumn h0 h1 h2 h3, isBytes_mixColumns hr⟩
  | [], h => h
  | [_], h => h
  | [_, _], h => h
  | [_, _, _], h => h

theorem isBlock_mixColumns {s : Bytes} (hs : IsBlock s) : IsBlock (mixColumns s) :=
  ⟨by rw [mixColumns_length, hs.1], isBytes_mixColumns hs.2⟩

theorem isBlock_aesRounds : ∀ (ks : List Bytes) (s : Bytes), (∀ k ∈ ks, IsBlock k) → IsBlock s →
    IsBlock (aesRounds ks s)
  | [], _, _, hs => hs
  | [k], s, hk, hs => by
    rw [aesRounds]
    exact isBlock_xorBytes (isBlock_shiftRows (isBlock_subBytes hs)) (hk k (by simp))
  | k :: k2 :: ks, s, hk, hs => by
    rw [aesRounds]
    · exact isBlock_aesRounds (k2 :: ks) _ (fun x hx => hk x (List.mem_cons_of_mem _ hx))
        (isBlock_xorBytes (isBlock_mixColumns (isBlock_shiftRows (isBlock_subBytes hs)))
          (hk k (by simp)))
    · simp

theorem isBlock_encrypt {c : AESCipher} (hc : c.WF) {src : Bytes} (hs : IsBlock src) :
    IsBlock (c.encrypt src) := by
  unfold AESCipher.encrypt
  split
  · exact hs
  · rename_i k ks hrk
    have hk : ∀ x ∈ k :: ks, IsBlock x := by rw [← hrk]; exact hc
    exact isBlock_aesRounds ks _ (fun x hx => hk x (List.mem_cons_of_mem _ hx))
      (isBlock_xorBytes hs (hk k (by simp)))

/-! ## AES: the key schedule yields blocks -/

theorem getD_mem_of_lt {α : Type} {l : List α} {i : Nat} (d : α) (h : i < l.length) :
    l.getD i d ∈ l := by
  rw [List.getD_eq_getElem _ _ h]
  exact List.getElem_mem h

theorem isWord_rotw {w : Bytes} (h : IsWord w) : IsWord (rotw w) := by
  obtain ⟨hl, hb⟩ := h
  match w, hl with
  | [a, b, c, d], _ =>
    simp only [IsBytes, List.mem_cons, forall_eq_or_imp, List.mem_nil_iff, List.not_mem_nil] at hb
    refine ⟨rfl, ?_⟩
    simp only [rotw, IsBytes, List.mem_cons, forall_eq_or_imp, List.mem_nil_iff,
      List.not_mem_nil]
    exact ⟨hb.2.1, hb.2.2.1, hb.2.2.2.1, hb.1, fun _ hf => hf.elim⟩

theorem isWord_subw {w : Bytes} (h : IsWord w) : IsWord (subw w) :=
  ⟨by simp [subw, h.1], isBytes_map_subByte w⟩

theorem isWord_xorBytes {x y : Bytes} (hx : IsWord x) (hy : IsWord y) : IsWord (xorBytes x y) :=
  ⟨by rw [xorBytes_length, hx.1, hy.1]; rfl, isBytes_xorBytes hx.2 hy.2⟩

theorem powx_lt : ∀ x ∈ powx, x < 256 := by decide

theorem isWord_rcon (j : Nat) : IsWord [powx.getD j 0, 0, 0, 0] := by
  refine ⟨rfl, ?_⟩
  have h : powx.getD j 0 < 256 := by
    rw [List.getD_eq_getElem?_getD]
    cases h : powx[j]? with
    | none => simp
    | some x => exact powx_lt x (List.getElem?_mem h)
  simp only [IsBytes, List.mem_cons, forall_eq_or_imp, List.mem_nil_iff, List.not_mem_nil]
  exact ⟨h, by omega, by omega, by omega, fun _ hf => hf.elim⟩

theorem expandKeyLoop_spec (nk : Nat) (hnk : 1 ≤ nk) : ∀ (n i : Nat) (ws : List Bytes),
    (∀ w ∈ ws, IsWord w) → ws.length = i → nk ≤ i →
    (∀ w ∈ expandKeyLoop nk n i ws, IsWord w) ∧ (expandKeyLoop nk n i ws).length = i + n
  | 0, i, ws, hw, hl, _ => ⟨hw, by simpa [expandKeyLoop] using hl⟩
  | n + 1, i, ws, hw, hl, hi => by
    have ht : IsWord (ws.getD (i - 1) []) := hw _ (getD_mem_of_lt _ (by omega))
    have hp : IsWord (ws.getD (i - nk) []) := hw _ (getD_mem_of_lt _ (by omega))
    have ht2 : IsWord (if i % nk = 0 then
        xorBytes (subw (rotw (ws.getD (i - 1) []))) [powx.getD (i / nk - 1) 0, 0, 0, 0]
      else if nk > 6 ∧ i % nk = 4 then subw (ws.getD (i - 1) []) else ws.getD (i - 1) []) := by
      split
      · exact isWord_xorBytes (isWord_subw (isWord_rotw ht)) (isWord_rcon _)
      · split
        · exact isWord_subw ht
        · exact ht
    have hnew := isWord_xorBytes hp ht2
    have ih := expandKeyLoop_spec nk hnk n (i + 1)
      (ws ++ [xorBytes (ws.getD (i - nk) []) (if i % nk = 0 then
        xorBytes (subw (rotw (ws.getD (i - 1) []))) [powx.getD (i / nk - 1) 0, 0, 0, 0]
      else if nk > 6 ∧ i % nk = 4 then subw (ws.getD (i - 1) []) else ws.getD (i - 1) [])])
      (by
        intro w hmem
        rcases List.mem_append.1 hmem with h | h
        · exact hw w h
        · rw [List.mem_singleton] at h; rw [h]; exact hnew)
      (by simp [hl]) (by omega)
    rw [expandKeyLoop]
    exact ⟨ih.1, by rw [ih.2]; omega⟩

theorem keyWords_spec : ∀ (n : Nat) (key : Bytes), IsBytes key → 4 * n ≤ key.length →
    (∀ w ∈ keyWords n key, IsWord w) ∧ (keyWords n key).length = n
  | 0, _, _, _ => ⟨fun _ h => by simp [keyWords] at h, rfl⟩
  | n + 1, key, hb, hl => by
    have ih := keyWords_spec n (key.drop 4) (isBytes_drop 4 hb) (by simp; omega)
    refine ⟨?_, by simp [keyWords, ih.2]⟩
    intro w hw
    rw [keyWords, List.mem_cons] at hw
    rcases hw with rfl | hw
    · exact ⟨by simp; omega, isBytes_take 4 hb⟩
    · exact ih.1 w hw

theorem expandKey_spec (key : Bytes) (hb : IsBytes key) (h4 : 4 ≤ key.length)
    (hm : key.length % 4 = 0) :
    (∀ w ∈ expandKey key, IsWord w) ∧ (expandKey key).length = key.length + 28 := by
  have hk := keyWords_spec (key.length / 4) key hb (by omega)
  have h := expandKeyLoop_spec (key.length / 4) (by omega) (key.length + 28 - key.length / 4)
    (key.length / 4) (keyWords (key.length / 4) key) hk.1 hk.2 (le_refl _)
  unfold expandKey
  exact ⟨h.1, by rw [h.2]; omega⟩

theorem roundKeys_spec : ∀ (n : Nat) (ws : List Bytes), (∀ w ∈ ws, IsWord w) →
    4 * n ≤ ws.length → ∀ k ∈ roundKeys n ws, IsBlock k
  | 0, _, _, _ => fun _ h => by simp [roundKeys] at h
  | n + 1, ws, hw, hl => by
    intro k hk
    rw [roundKeys, List.mem_cons] at hk
    rcases hk with rfl | hk
    · match ws, hl, hw with
      | w0 :: w1 :: w2 :: w3 :: rest, _, hw =>
        have h0 := hw w0 (by simp)
        have h1 := hw w1 (by simp)
        have h2 := hw w2 (by simp)
        have h3 := hw w3 (by simp)
        refine ⟨by simp [h0.1, h1.1, h2.1, h3.1], ?_⟩
        simp only [List.take_succ_cons, List.take_zero, List.flatten_cons, List.flatten_nil,
          List.append_nil]
        exact isBytes_append.2 ⟨h0.2, isBytes_append.2 ⟨h1.2, isBytes_append.2 ⟨h2.2, h3.2⟩⟩⟩
    · exact roundKeys_spec n (ws.drop 4) (fun w h => hw w (List.mem_of_mem_drop h))
        (by simp; omega) k hk

theorem aesNewCipher_wf {key : Bytes} {c : AESCipher} (hb : IsBytes key)
    (h : aesNewCipher key = .ok c) : c.WF := by
  unfold aesNewCipher at h
  simp only at h
  split at h
  · rename_i hlen
    injection h with h
    subst h
    have hs := expandKey_spec key hb (by omega) (by omega)
    exact roundKeys_spec _ _ hs.1 (by rw [hs.2]; omega)
  · cases h

theorem newCipher_wf {key : Bytes} (hb : IsBytes key)
    (h : key.length = 16 ∨ key.length = 24 ∨ key.length = 32) : (newCipher key).WF := by
  have hs := expandKey_spec key hb (by omega) (by omega)
  exact roundKeys_spec _ _ hs.1 (by rw [hs.2]; omega)

theorem aesNewCipher_ok {key : Bytes} (h : key.length = 16 ∨ key.length = 24 ∨ key.length = 32) :
    aesNewCipher key = .ok (newCipher key) := by
  simp [aesNewCipher, h]

theorem aesNewCipher_error {key : Bytes}
    (h : ¬(key.length = 16 ∨ key.length = 24 ∨ key.length = 32)) :
    aesNewCipher key = .error (.keySize key.length) := by
  simp only [aesNewCipher, h, if_false]

/-! ## AES encryption is injective -/

set_option maxRecDepth 100000 in
theorem invSubByte_subByte : ∀ b < 256, invSubByte (subByte b) = b := by decide

theorem ite_bxor (p q : Bool) (c : Nat) :
    (if (p ^^ q) = true then c else 0) = (if p = true then c else 0) ^^^ (if q = true then c else 0) := by
  cases p <;> cases q <;> simp

theorem bitsum8_xor (c : Nat → Nat) (a b : Nat) :
    bitsum8 c (a ^^^ b) = bitsum8 c a ^^^ bitsum8 c b := by
  unfold bitsum8
  simp only [Nat.testBit_xor, ite_bxor]
  ac_rfl

set_option maxRecDepth 100000 in
theorem xtime_bitsum8 : ∀ b < 256, xtime b = bitsum8 (fun k => xtime (2 ^ k)) b := by decide

theorem xtime_xor {a b : Nat} (ha : a < 256) (hb : b < 256) :
    xtime (a ^^^ b) = xtime a ^^^ xtime b := by
  rw [xtime_bitsum8 _ (xor_lt_256 ha hb), bitsum8_xor, ← xtime_bitsum8 a ha,
    ← xtime_bitsum8 b hb]

theorem byteLin_id : ByteLin (fun a => a) := ⟨fun _ h => h, fun _ _ _ _ => rfl⟩

theorem byteLin_xtime : ByteLin xtime := ⟨fun _ h => xtime_lt h, fun _ ha _ hb => xtime_xor ha hb⟩

theorem byteLin_comp {f g : Nat → Nat} (hf : ByteLin f) (hg : ByteLin g) :
    ByteLin (fun a => f (g a)) :=
  ⟨fun a ha => hf.1 _ (hg.1 a ha), fun a ha b hb => by
    show f (g (a ^^^ b)) = f (g a) ^^^ f (g b)
    rw [hg.2 a ha b hb, hf.2 _ (hg.1 a ha) _ (hg.1 b hb)]⟩

theorem byteLin_xor {f g : Nat → Nat} (hf : ByteLin f) (hg : ByteLin g) :
    ByteLin (fun a => f a ^^^ g a) :=
  ⟨fun a ha => xor_lt_256 (hf.1 a ha) (hg.1 a ha), fun a ha b hb => by
    show f (a ^^^ b) ^^^ g (a ^^^ b) = f a ^^^ g a ^^^ (f b ^^^ g b)
    rw [hf.2 a ha b hb, hg.2 a ha b hb]
    ac_rfl⟩

theorem byteLin_xtime3 : ByteLin (fun a => xtime (xtime (xtime a))) :=
  byteLin_comp byteLin_xtime (byteLin_comp byteLin_xtime byteLin_xtime)

theorem byteLin_xtime2 : ByteLin (fun a => xtime (xtime a)) :=
  byteLin_comp byteLin_xtime byteLin_xtime

theorem byteLin_mul9 : ByteLin mul9 := byteLin_xor byteLin_xtime3 byteLin_id

theorem byteLin_mul11 : ByteLin mul11 :=
  byteLin_xor (byteLin_xor byteLin_xtime3 byteLin_xtime) byteLin_id

theorem byteLin_mul13 : ByteLin mul13 :=
  byteLin_xor (byteLin_xor byteLin_xtime3 byteLin_xtime2) byteLin_id

theorem byteLin_mul14 : ByteLin mul14 :=
  byteLin_xor (byteLin_xor byteLin_xtime3 byteLin_xtime2) byteLin_xtime

theorem byteLin_four {g : Nat → Nat} (hg : ByteLin g) {x0 x1 x2 x3 : Nat} (h0 : x0 < 256)
    (h1 : x1 < 256) (h2 : x2 < 256) (h3 : x3 < 256) :
    g (x0 ^^^ x1 ^^^ x2 ^^^ x3) = g x0 ^^^ g x1 ^^^ g x2 ^^^ g x3 := by
  rw [hg.2 _ (xor_lt_256 (xor_lt_256 h0 h1) h2) _ h3, hg.2 _ (xor_lt_256 h0 h1) _ h2,
    hg.2 _ h0 _ h1]

set_option maxRecDepth 100000 in
theorem invMix_0_0 : ∀ a < 256, mul14 (xtime a) ^^^ mul11 a ^^^ mul13 a ^^^ mul9 (xtime a ^^^ a) = a := by
  decide

set_option maxRecDepth 100000 in
theorem invMix_0_1 : ∀ a < 256, mul14 (xtime a ^^^ a) ^^^ mul11 (xtime a) ^^^ mul13 a ^^^ mul9 a = 0 := by
  decide

set_option maxRecDepth 100000 in
theorem invMix_0_2 : ∀ a < 256, mul14 a ^^^ mul11 (xtime a ^^^ a) ^^^ mul13 (xtime a) ^^^ mul9 a = 0 := by
  decide

set_option maxRecDepth 100000 in
theorem invMix_0_3 : ∀ a < 256, mul14 a ^^^ mul11 a ^^^ mul13 (xtime a ^^^ a) ^^^ mul9 (xtime a) = 0 := by
  decide

set_option maxRecDepth 100000 in
theorem invMix_1_0 : ∀ a < 256, mul9 (xtime a) ^^^ mul14 a ^^^ mul11 a ^^^ mul13 (xtime a ^^^ a) = 0 := by
  decide

set_option maxRecDepth 100000 in
theorem invMix_1_1 : ∀ a < 256, mul9 (xtime a ^^^ a) ^^^ mul14 (xtime a) ^^^ mul11 a ^^^ mul13 a = a := by
  decide

set_option maxRecDepth 100000 in
theorem invMix_1_2 : ∀ a < 256, mul9 a ^^^ mul14 (xtime a ^^^ a) ^^^ mul11 (xtime a) ^^^ mul13 a = 0 := by
  decide

set_option maxRecDepth 100000 in
theorem invMix_1_3 : ∀ a < 256, mul9 a ^^^ mul14 a ^^^ mul11 (xtime a ^^^ a) ^^^ mul13 (xtime a) = 0 := by
  decide

set_option maxRecDepth 100000 in
theorem invMix_2_0 : ∀ a < 256, mul13 (xtime a) ^^^ mul9 a ^^^ mul14 a ^^^ mul11 (xtime a ^^^ a) = 0 := by
  decide

set_option maxRecDepth 100000 in
theorem invMix_2_1 : ∀ a < 256, mul13 (xtime a ^^^ a) ^^^ mul9 (xtime a) ^^^ mul14 a ^^^ mul11 a = 0 := by
  decide

set_option maxRecDepth 100000 in
theorem invMix_2_2 : ∀ a < 256, mul13 a ^^^ mul9 (xtime a ^^^ a) ^^^ mul14 (xtime a) ^^^ mul11 a = a := by
  decide

set_option maxRecDepth 100000 in
theorem invMix_2_3 : ∀ a < 256, mul13 a ^^^ mul9 a ^^^ mul14 (xtime a ^^^ a) ^^^ mul11 (xtime a) = 0 := by
  decide

set_option maxRecDepth 100000 in
theorem invMix_3_0 : ∀ a < 256, mul11 (xtime a) ^^^ mul13 a ^^^ mul9 a ^^^ mul14 (xtime a ^^^ a) = 0 := by
  decide

set_option maxRecDepth 100000 in
theorem invMix_3_1 : ∀ a < 256, mul11 (xtime a ^^^ a) ^^^ mul13 (xtime a) ^^^ mul9 a ^^^ mul14 a = 0 := by
  decide

set_option maxRecDepth 100000 in
theorem invMix_3_2 : ∀ a < 256, mul11 a ^^^ mul13 (xtime a ^^^ a) ^^^ mul9 (xtime a) ^^^ mul14 a = 0 := by
  decide

set_option maxRecDepth 100000 in
theorem invMix_3_3 : ∀ a < 256, mul11 a ^^^ mul13 a ^^^ mul9 (xtime a ^^^ a) ^^^ mul14 (xtime a) = a := by
  decide

theorem invMix_row0 {a0 a1 a2 a3 : Nat} (h0 : a0 < 256) (h1 : a1 < 256) (h2 : a2 < 256)
    (h3 : a3 < 256) :
    mul14 (xtime a0 ^^^ (xtime a1 ^^^ a1) ^^^ a2 ^^^ a3) ^^^ mul11 (a0 ^^^ xtime a1 ^^^ (xtime a2 ^^^ a2) ^^^ a3) ^^^ mul13 (a0 ^^^ a1 ^^^ xtime a2 ^^^ (xtime a3 ^^^ a3)) ^^^ mul9 ((xtime a0 ^^^ a0) ^^^ a1 ^^^ a2 ^^^ xtime a3) = a0 := by
  have x0 := xtime_lt h0
  have x1 := xtime_lt h1
  have x2 := xtime_lt h2
  have x3 := xtime_lt h3
  have y0 := xor_lt_256 x0 h0
  have y1 := xor_lt_256 x1 h1
  have y2 := xor_lt_256 x2 h2
  have y3 := xor_lt_256 x3 h3
  rw [byteLin_four byteLin_mul14 x0 y1 h2 h3,
    byteLin_four byteLin_mul11 h0 x1 y2 h3,
    byteLin_four byteLin_mul13 h0 h1 x2 y3,
    byteLin_four byteLin_mul9 y0 h1 h2 x3]
  calc _ = (mul14 (xtime a0) ^^^ mul11 a0 ^^^ mul13 a0 ^^^ mul9 (xtime a0 ^^^ a0))
          ^^^ (mul14 (xtime a1 ^^^ a1) ^^^ mul11 (xtime a1) ^^^ mul13 a1 ^^^ mul9 a1)
          ^^^ (mul14 a2 ^^^ mul11 (xtime a2 ^^^ a2) ^^^ mul13 (xtime a2) ^^^ mul9 a2)
          ^^^ (mul14 a3 ^^^ mul11 a3 ^^^ mul13 (xtime a3 ^^^ a3) ^^^ mul9 (xtime a3)) := by ac_rfl
    _ = a0 := by
      rw [invMix_0_0 a0 h0, invMix_0_1 a1 h1, invMix_0_2 a2 h2, invMix_0_3 a3 h3]
      simp

theorem invMix_row1 {a0 a1 a2 a3 : Nat} (h0 : a0 < 256) (h1 : a1 < 256) (h2 : a2 < 256)
    (h3 : a3 < 256) :
    mul9 (xtime a0 ^^^ (xtime a1 ^^^ a1) ^^^ a2 ^^^ a3) ^^^ mul14 (a0 ^^^ xtime a1 ^^^ (xtime a2 ^^^ a2) ^^^ a3) ^^^ mul11 (a0 ^^^ a1 ^^^ xtime a2 ^^^ (xtime a3 ^^^ a3)) ^^^ mul13 ((xtime a0 ^^^ a0) ^^^ a1 ^^^ a2 ^^^ xtime a3) = a1 := by
  have x0 := xtime_lt h0
  have x1 := xtime_lt h1
  have x2 := xtime_lt h2
  have x3 := xtime_lt h3
  have y0 := xor_lt_256 x0 h0
  have y1 := xor_lt_256 x1 h1
  have y2 := xor_lt_256 x2 h2
  have y3 := xor_lt_256 x3 h3
  rw [byteLin_four byteLin_mul9 x0 y1 h2 h3,
    byteLin_four byteLin_mul14 h0 x1 y2 h3,
    byteLin_four byteLin_mul11 h0 h1 x2 y3,
    byteLin_four byteLin_mul13 y0 h1 h2 x3]
  calc _ = (mul9 (xtime a0) ^^^ mul14 a0 ^^^ mul11 a0 ^^^ mul13 (xtime a0 ^^^ a0))
          ^^^ (mul9 (xtime a1 ^^^ a1) ^^^ mul14 (xtime a1) ^^^ mul11 a1 ^^^ mul13 a1)
          ^^^ (mul9 a2 ^^^ mul14 (xtime a2 ^^^ a2) ^^^ mul11 (xtime a2) ^^^ mul13 a2)
          ^^^ (mul9 a3 ^^^ mul14 a3 ^^^ mul11 (xtime a3 ^^^ a3) ^^^ mul13 (xtime a3)) := by ac_rfl
    _ = a1 := by
      rw [invMix_1_0 a0 h0, invMix_1_1 a1 h1, invMix_1_2 a2 h2, invMix_1_3 a3 h3]
      simp

theorem invMix_row2 {a0 a1 a2 a3 : Nat} (h0 : a0 < 256) (h1 : a1 < 256) (h2 : a2 < 256)
    (h3 : a3 < 256) :
    mul13 (xtime a0 ^^^ (xtime a1 ^^^ a1) ^^^ a2 ^^^ a3) ^^^ mul9 (a0 ^^^ xtime a1 ^^^ (xtime a2 ^^^ a2) ^^^ a3) ^^^ mul14 (a0 ^^^ a1 ^^^ xtime a2 ^^^ (xtime a3 ^^^ a3)) ^^^ mul11 ((xtime a0 ^^^ a0) ^^^ a1 ^^^ a2 ^^^ xtime a3) = a2 := by
  have x0 := xtime_lt h0
  have x1 := xtime_lt h1
  have x2 := xtime_lt h2
  have x3 := xtime_lt h3
  have y0 := xor_lt_256 x0 h0
  have y1 := xor_lt_256 x1 h1
  have y2 := xor_lt_256 x2 h2
  have y3 := xor_lt_256 x3 h3
  rw [byteLin_four byteLin_mul13 x0 y1 h2 h3,
    byteLin_four byteLin_mul9 h0 x1 y2 h3,
    byteLin_four byteLin_mul14 h0 h1 x2 y3,
    byteLin_four byteLin_mul11 y0 h1 h2 x3]
  calc _ = (mul13 (xtime a0) ^^^ mul9 a0 ^^^ mul14 a0 ^^^ mul11 (xtime a0 ^^^ a0))
          ^^^ (mul13 (xtime a1 ^^^ a1) ^^^ mul9 (xtime a1) ^^^ mul14 a1 ^^^ mul11 a1)
          ^^^ (mul13 a2 ^^^ mul9 (xtime a2 ^^^ a2) ^^^ mul14 (xtime a2) ^^^ mul11 a2)
          ^^^ (mul13 a3 ^^^ mul9 a3 ^^^ mul14 (xtime a3 ^^^ a3) ^^^ mul11 (xtime a3)) := by ac_rfl
    _ = a2 := by
      rw [invMix_2_0 a0 h0, invMix_2_1 a1 h1, invMix_2_2 a2 h2, invMix_2_3 a3 h3]
      simp

theorem invMix_row3 {a0 a1 a2 a3 : Nat} (h0 : a0 < 256) (h1 : a1 < 256) (h2 : a2 < 256)
    (h3 : a3 < 256) :
    mul11 (xtime a0 ^^^ (xtime a1 ^^^ a1) ^^^ a2 ^^^ a3) ^^^ mul13 (a0 ^^^ xtime a1 ^^^ (xtime a2 ^^^ a2) ^^^ a3) ^^^ mul9 (a0 ^^^ a1 ^^^ xtime a2 ^^^ (xtime a3 ^^^ a3)) ^^^ mul14 ((xtime a0 ^^^ a0) ^^^ a1 ^^^ a2 ^^^ xtime a3) = a3 := by
  have x0 := xtime_lt h0
  have x1 := xtime_lt h1
  have x2 := xtime_lt h2
  have x3 := xtime_lt h3
  have y0 := xor_lt_256 x0 h0
  have y1 := xor_lt_256 x1 h1
  have y2 := xor_lt_256 x2 h2
  have y3 := xor_lt_256 x3 h3
  rw [byteLin_four byteLin_mul11 x0 y1 h2 h3,
    byteLin_four byteLin_mul13 h0 x1 y2 h3,
    byteLin_four byteLin_mul9 h0 h1 x2 y3,
    byteLin_four byteLin_mul14 y0 h1 h2 x3]
  calc _ = (mul11 (xtime a0) ^^^ mul13 a0 ^^^ mul9 a0 ^^^ mul14 (xtime a0 ^^^ a0))
          ^^^ (mul11 (xtime a1 ^^^ a1) ^^^ mul13 (xtime a1) ^^^ mul9 a1 ^^^ mul14 a1)
          ^^^ (mul11 a2 ^^^ mul13 (xtime a2 ^^^ a2) ^^^ mul9 (xtime a2) ^^^ mul14 a2)
          ^^^ (mul11 a3 ^^^ mul13 a3 ^^^ mul9 (xtime a3 ^^^ a3) ^^^ mul14 (xtime a3)) := by ac_rfl
    _ = a3 := by
      rw [invMix_3_0 a0 h0, invMix_3_1 a1 h1, invMix_3_2 a2 h2, invMix_3_3 a3 h3]
      simp

theorem invMixColumn_mixColumn {a0 a1 a2 a3 : Nat} (h0 : a0 < 256) (h1 : a1 < 256)
    (h2 : a2 < 256) (h3 : a3 < 256) :
    invMixColumns (mixColumn a0 a1 a2 a3) = [a0, a1, a2, a3] := by
  simp only [mixColumn, invMixColumns, invMixColumn, invMix_row0 h0 h1 h2 h3,
    invMix_row1 h0 h1 h2 h3, invMix_row2 h0 h1 h2 h3, invMix_row3 h0 h1 h2 h3, List.append_nil]

theorem invMixColumns_mixColumns : ∀ {s : Bytes}, IsBytes s → invMixColumns (mixColumns s) = s
  | a0 :: a1 :: a2 :: a3 :: rest, h => by
    rw [isBytes_cons, isBytes_cons, isBytes_cons, isBytes_cons] at h
    obtain ⟨h0, h1, h2, h3, hr⟩ := h
    have ih := invMixColumns_mixColumns hr
    have hc := invMixColumn_mixColumn h0 h1 h2 h3
    simp only [mixColumn, invMixColumns, List.append_nil] at hc
    rw [mixColumns]
    unfold mixColumn
    show invMixColumn _ _ _ _ ++ invMixColumns (mixColumns rest) = _
    rw [ih, hc]
    rfl
  | [], _ => rfl
  | [_], _ => rfl
  | [_, _], _ => rfl
  | [_, _, _], _ => rfl

theorem mixColumns_inj {s t : Bytes} (hs : IsBytes s) (ht : IsBytes t)
    (h : mixColumns s = mixColumns t) : s = t := by
  rw [← invMixColumns_mixColumns hs, ← invMixColumns_mixColumns ht, h]

theorem map_invSubByte_subBytes : ∀ {s : Bytes}, IsBytes s → (subBytes s).map invSubByte = s
  | [], _ => rfl
  | a :: s, h => by
    rw [isBytes_cons] at h
    have ih := map_invSubByte_subBytes h.2
    simp only [subBytes, List.map_cons, List.map_map] at ih ⊢
    rw [invSubByte_subByte a h.1, ih]

theorem subBytes_inj {s t : Bytes} (hs : IsBytes s) (ht : IsBytes t)
    (h : subBytes s = subBytes t) : s = t := by
  rw [← map_invSubByte_subBytes hs, ← map_invSubByte_subBytes ht, h]

theorem shiftRows_inj {s t : Bytes} (hs : s.length = 16) (ht : t.length = 16)
    (h : shiftRows s = shiftRows t) : s = t := by
  obtain ⟨s0, s1, s2, s3, s4, s5, s6, s7, s8, s9, s10, s11, s12, s13, s14, s15, rfl⟩ :=
    length_eq_16 hs
  obtain ⟨t0, t1, t2, t3, t4, t5, t6, t7, t8, t9, t10, t11, t12, t13, t14, t15, rfl⟩ :=
    length_eq_16 ht
  simp only [shiftRows, List.cons.injEq, and_true] at h
  obtain ⟨e0, e5, e10, e15, e4, e9, e14, e3, e8, e13, e2, e7, e12, e1, e6, e11⟩ := h
  subst e0 e1 e2 e3 e4 e5 e6 e7 e8 e9 e10 e11 e12 e13 e14 e15
  rfl

theorem xorBytes_right_inj {x y k : Bytes} (hx : x.length ≤ k.length) (hy : y.length ≤ k.length)
    (h : xorBytes x k = xorBytes y k) : x = y := by
  rw [← xorBytes_cancel x k hx, ← xorBytes_cancel y k hy, h]

theorem xorBytes_comm : ∀ (x y : Bytes), xorBytes x y = xorBytes y x
  | [], [] => rfl
  | [], _ :: _ => rfl
  | _ :: _, [] => rfl
  | a :: x, b :: y => by
    have ih := xorBytes_comm x y
    simp only [xorBytes, List.zipWith_cons_cons] at ih ⊢
    rw [ih, Nat.xor_comm]

theorem aesRounds_cons_cons (k k2 : Bytes) (ks : List Bytes) (s : Bytes) :
    aesRounds (k :: k2 :: ks) s
      = aesRounds (k2 :: ks) (xorBytes (mixColumns (shiftRows (subBytes s))) k) := by
  rw [aesRounds]
  simp

theorem aesRounds_inj : ∀ (ks : List Bytes) (s t : Bytes), (∀ k ∈ ks, IsBlock k) →
    IsBlock s → IsBlock t → aesRounds ks s = aesRounds ks t → s = t
  | [], _, _, _, _, _, h => h
  | [k], s, t, hk, hs, ht, h => by
    rw [aesRounds, aesRounds] at h
    have hkb := hk k (by simp)
    have h1 := isBlock_shiftRows (isBlock_subBytes hs)
    have h2 := isBlock_shiftRows (isBlock_subBytes ht)
    have e1 := xorBytes_right_inj (by rw [h1.1, hkb.1]) (by rw [h2.1, hkb.1]) h
    have e2 := shiftRows_inj (isBlock_subBytes hs).1 (isBlock_subBytes ht).1 e1
    exact subBytes_inj hs.2 ht.2 e2
  | k :: k2 :: ks, s, t, hk, hs, ht, h => by
    rw [aesRounds_cons_cons k k2 ks s, aesRounds_cons_cons k k2 ks t] at h
    have hkb := hk k (by simp)
    have h1 := isBlock_mixColumns (isBlock_shiftRows (isBlock_subBytes hs))
    have h2 := isBlock_mixColumns (isBlock_shiftRows (isBlock_subBytes ht))
    have e0 := aesRounds_inj (k2 :: ks) _ _ (fun x hx => hk x (List.mem_cons_of_mem _ hx))
      (isBlock_xorBytes h1 hkb) (isBlock_xorBytes h2 hkb) h
    have e1 := xorBytes_right_inj (by rw [h1.1, hkb.1]) (by rw [h2.1, hkb.1]) e0
    have e2 := mixColumns_inj (isBlock_shiftRows (isBlock_subBytes hs)).2
      (isBlock_shiftRows (isBlock_subBytes ht)).2 e1
    have e3 := shiftRows_inj (isBlock_subBytes hs).1 (isBlock_subBytes ht).1 e2
    exact subBytes_inj hs.2 ht.2 e3

/-- AES encryption under a fixed key is injective on blocks. -/
theorem encrypt_inj {c : AESCipher} (hc : c.WF) {s t : Bytes} (hs : IsBlock s) (ht : IsBlock t)
    (h : c.encrypt s = c.encrypt t) : s = t := by
  unfold AESCipher.encrypt at h
  split at h
  · exact h
  · rename_i k ks hrk
    have hk : ∀ x ∈ k :: ks, IsBlock x := by rw [← hrk]; exact hc
    have hkb := hk k (by simp)
    have e0 := aesRounds_inj ks _ _ (fun x hx => hk x (List.mem_cons_of_mem _ hx))
      (isBlock_xorBytes hs hkb) (isBlock_xorBytes ht hkb) h
    exact xorBytes_right_inj (by rw [hs.1, hkb.1]) (by rw [ht.1, hkb.1]) e0

/-! ## GF(2^128): the multiplication of GHASH by a non-zero block is injective -/

section GF128

open Polynomial

theorem gcmPoly_zero {ψ : ℕ → (ZMod 2)[X]} (hψ : IsGcmPoly ψ) : ψ 0 = 0 := by
  rw [hψ 0]
  simp

theorem ite_bxor_poly (p q : Bool) (c : (ZMod 2)[X]) :
    (if (p ^^ q) = true then c else 0) = (if p = true then c else 0) + (if q = true then c else 0) := by
  cases p <;> cases q <;> simp [CharTwo.add_self_eq_zero]

theorem gcmPoly_xor {ψ : ℕ → (ZMod 2)[X]} (hψ : IsGcmPoly ψ) (a b : ℕ) :
    ψ (a ^^^ b) = ψ a + ψ b := by
  rw [hψ, hψ a, hψ b, ← Finset.sum_add_distrib]
  refine Finset.sum_congr rfl (fun i _ => ?_)
  rw [Nat.testBit_xor, ite_bxor_poly]

theorem gcmPoly_two_pow {ψ : ℕ → (ZMod 2)[X]} (hψ : IsGcmPoly ψ) {i : ℕ} (hi : i < 128) :
    ψ (2 ^ (127 - i)) = X ^ i := by
  rw [hψ]
  rw [Finset.sum_eq_single i]
  · simp [Nat.testBit_two_pow_self]
  · intro j hj hne
    have hj' : j < 128 := Finset.mem_range.1 hj
    have : (2 ^ (127 - i)).testBit (127 - j) = false := by
      rw [Nat.testBit_two_pow]
      simp
      omega
    simp [this]
  · intro h
    exact absurd (Finset.mem_range.2 hi) h

theorem gcmPoly_coeff {ψ : ℕ → (ZMod 2)[X]} (hψ : IsGcmPoly ψ) (n i : ℕ) :
    (ψ n).coeff i = if i < 128 ∧ n.testBit (127 - i) then 1 else 0 := by
  rw [hψ, Polynomial.finset_sum_coeff]
  by_cases hi : i < 128
  · rw [Finset.sum_eq_single i]
    · by_cases hb : n.testBit (127 - i) <;> simp [hb, hi]
    · intro j _ hne
      by_cases hb : n.testBit (127 - j) <;> simp [hb, Polynomial.coeff_X_pow, hne.symm]
    · intro h
      exact absurd (Finset.mem_range.2 hi) h
  · rw [Finset.sum_eq_zero]
    · simp [hi]
    · intro j hj
      have hj' : j < 128 := Finset.mem_range.1 hj
      have : i ≠ j := by omega
      by_cases hb : n.testBit (127 - j) <;> simp [hb, Polynomial.coeff_X_pow, this]

theorem gcmPoly_degree_lt {ψ : ℕ → (ZMod 2)[X]} (hψ : IsGcmPoly ψ) (n : ℕ) :
    (ψ n).degree < ((128 : ℕ) : WithBot ℕ) := by
  rw [Polynomial.degree_lt_iff_coeff_zero]
  intro m hm
  rw [gcmPoly_coeff hψ]
  have : ¬ m < 128 := by
    have : (128 : ℕ) ≤ m := by exact_mod_cast hm
    omega
  simp [this]

theorem gcmPoly_inj {ψ : ℕ → (ZMod 2)[X]} (hψ : IsGcmPoly ψ) {a b : ℕ} (ha : a < 2 ^ 128)
    (hb : b < 2 ^ 128) (h : ψ a = ψ b) : a = b := by
  apply Nat.eq_of_testBit_eq
  intro i
  by_cases hi : i < 128
  · have hc := congrArg (fun f => f.coeff (127 - i)) h
    simp only [gcmPoly_coeff hψ] at hc
    have h1 : 127 - i < 128 := by omega
    have h2 : 127 - (127 - i) = i := by omega
    rw [h2] at hc
    by_cases p : a.testBit i <;> by_cases q : b.testBit i <;> simp [p, q, h1] at hc ⊢
  · have h1 : a.testBit i = false :=
      Nat.testBit_eq_false_of_lt (lt_of_lt_of_le ha (Nat.pow_le_pow_right (by omega) (by omega)))
    have h2 : b.testBit i = false :=
      Nat.testBit_eq_false_of_lt (lt_of_lt_of_le hb (Nat.pow_le_pow_right (by omega) (by omega)))
    rw [h1, h2]

theorem gcmPoly_eq_zero {ψ : ℕ → (ZMod 2)[X]} (hψ : IsGcmPoly ψ) {a : ℕ} (ha : a < 2 ^ 128)
    (h : ψ a = 0) : a = 0 :=
  gcmPoly_inj hψ ha (by positivity) (by rw [h, gcmPoly_zero hψ])

theorem gcmPoly_half {ψ : ℕ → (ZMod 2)[X]} (hψ : IsGcmPoly ψ) {v : ℕ} (hv : v < 2 ^ 128) :
    ψ (v / 2) = X * ψ v + (if v.testBit 0 then X ^ 128 else 0) := by
  ext i
  rw [Polynomial.coeff_add, gcmPoly_coeff hψ]
  cases i with
  | zero =>
    have h1 : (v / 2).testBit 127 = false :=
      Nat.testBit_eq_false_of_lt (by omega)
    by_cases hb : v.testBit 0 <;> simp [h1, hb, Polynomial.coeff_X_pow]
  | succ i =>
    rw [Polynomial.coeff_X_mul, gcmPoly_coeff hψ]
    by_cases hi : i + 1 < 128
    · have h1 : (v / 2).testBit (126 - i) = v.testBit (127 - i) := by
        rw [← Nat.testBit_succ]
        congr 1
        omega
      have h2 : i < 128 := by omega
      have h3 : i + 1 ≠ 128 := by omega
      by_cases hb : v.testBit 0 <;> simp [h1, h2, hi, hb, Polynomial.coeff_X_pow, h3]
    · by_cases h128 : i + 1 = 128
      · have hi2 : i = 127 := by omega
        subst hi2
        by_cases hb : v.testBit 0 <;> simp [hb, Polynomial.coeff_X_pow, CharTwo.add_self_eq_zero]
      · have h2 : ¬ i < 128 := by omega
        by_cases hb : v.testBit 0 <;> simp [hi, h2, hb, Polynomial.coeff_X_pow, h128]

theorem gcmPoly_R {ψ : ℕ → (ZMod 2)[X]} (hψ : IsGcmPoly ψ) :
    ψ gcmR = 1 + X + X ^ 2 + X ^ 7 := by
  have h : gcmR = 2 ^ (127 - 0) ^^^ 2 ^ (127 - 1) ^^^ 2 ^ (127 - 2) ^^^ 2 ^ (127 - 7) := by
    decide
  rw [h, gcmPoly_xor hψ, gcmPoly_xor hψ, gcmPoly_xor hψ, gcmPoly_two_pow hψ (by omega),
    gcmPoly_two_pow hψ (by omega), gcmPoly_two_pow hψ (by omega), gcmPoly_two_pow hψ (by omega)]
  simp

theorem gcmDouble_lt {v : ℕ} (hv : v < 2 ^ 128) :
    (if v % 2 = 0 then v / 2 else (v / 2) ^^^ gcmR) < 2 ^ 128 := by
  split
  · omega
  · exact Nat.xor_lt_two_pow (by omega) (by decide)

theorem gcmMulLoop_lt (x : ℕ) : ∀ (k v z : ℕ), v < 2 ^ 128 → z < 2 ^ 128 →
    gcmMulLoop x k v z < 2 ^ 128
  | 0, _, _, _, hz => hz
  | k + 1, v, z, hv, hz => by
    rw [gcmMulLoop]
    refine gcmMulLoop_lt x k _ _ (gcmDouble_lt hv) ?_
    split
    · exact Nat.xor_lt_two_pow hz hv
    · exact hz

theorem gcmMul_lt (x : ℕ) {y : ℕ} (hy : y < 2 ^ 128) : gcmMul x y < 2 ^ 128 :=
  gcmMulLoop_lt x 128 y 0 hy (by positivity)

theorem gcmPoly_double {ψ : ℕ → (ZMod 2)[X]} (hψ : IsGcmPoly ψ) {p : (ZMod 2)[X]}
    (hp : IsGcmModulus p) {v : ℕ} (hv : v < 2 ^ 128) :
    AdjoinRoot.mk p (ψ (if v % 2 = 0 then v / 2 else (v / 2) ^^^ gcmR))
      = AdjoinRoot.mk p X * AdjoinRoot.mk p (ψ v) := by
  have h0 : v.testBit 0 = decide (v % 2 = 1) := Nat.testBit_zero v
  split
  · rename_i h
    have hb : v.testBit 0 = false := by rw [h0]; simp; omega
    rw [gcmPoly_half hψ hv, hb]
    simp
  · rename_i h
    have hb : v.testBit 0 = true := by rw [h0]; simp; omega
    rw [gcmPoly_xor hψ, gcmPoly_half hψ hv, gcmPoly_R hψ, hb]
    have e : X * ψ v + (if true = true then X ^ 128 else 0) + (1 + X + X ^ 2 + X ^ 7)
        = X * ψ v + p := by
      rw [hp]
      simp only [if_true]
      ring
    rw [e, map_add, map_mul, AdjoinRoot.mk_self, add_zero]

theorem gcmMulLoop_poly {ψ : ℕ → (ZMod 2)[X]} (hψ : IsGcmPoly ψ) {p : (ZMod 2)[X]}
    (hp : IsGcmModulus p) (x : ℕ) : ∀ (k v z : ℕ), v < 2 ^ 128 →
    AdjoinRoot.mk p (ψ (gcmMulLoop x k v z))
      = AdjoinRoot.mk p (ψ z) + AdjoinRoot.mk p (ψ v)
          * AdjoinRoot.mk p (Finset.sum (Finset.range k)
              (fun j => if x.testBit (k - 1 - j) then X ^ j else 0))
  | 0, v, z, _ => by simp [gcmMulLoop]
  | k + 1, v, z, hv => by
    rw [gcmMulLoop, gcmMulLoop_poly hψ hp x k _ _ (gcmDouble_lt hv), gcmPoly_double hψ hp hv,
      Finset.sum_range_succ']
    have hs : (Finset.sum (Finset.range k)
          (fun j => if x.testBit (k + 1 - 1 - (j + 1)) then (X : (ZMod 2)[X]) ^ (j + 1) else 0))
        = X * Finset.sum (Finset.range k)
          (fun j => if x.testBit (k - 1 - j) then (X : (ZMod 2)[X]) ^ j else 0) := by
      rw [Finset.mul_sum]
      refine Finset.sum_congr rfl (fun j _ => ?_)
      have : k + 1 - 1 - (j + 1) = k - 1 - j := by omega
      rw [this]
      split
      · rw [pow_succ, mul_comm]
      · rw [mul_zero]
    have hk : k + 1 - 1 - 0 = k := by omega
    rw [hs, hk]
    by_cases hb : x.testBit k
    · simp only [hb, if_true, gcmPoly_xor hψ, map_add, map_mul, pow_zero, map_one]
      ring
    · simp only [hb, Bool.false_eq_true, if_false, map_add, map_mul, map_zero, add_zero]
      ring

/-- The multiplication of GHASH is the multiplication of polynomials modulo
`x^128 + x^7 + x^2 + x + 1`. -/
theorem gcmMul_poly {ψ : ℕ → (ZMod 2)[X]} (hψ : IsGcmPoly ψ) {p : (ZMod 2)[X]}
    (hp : IsGcmModulus p) (x : ℕ) {y : ℕ} (hy : y < 2 ^ 128) :
    AdjoinRoot.mk p (ψ (gcmMul x y)) = AdjoinRoot.mk p (ψ x) * AdjoinRoot.mk p (ψ y) := by
  unfold gcmMul
  rw [gcmMulLoop_poly hψ hp x 128 y 0 hy, gcmPoly_zero hψ, map_zero, zero_add, mul_comm]
  congr 2
  rw [hψ x]

theorem gcmSqIter_128 : gcmSqIter 128 (2 ^ 126) = 2 ^ 126 := by decide!

theorem gcmSqIter_64 :
    gcmMul gcmRabinInverse (gcmSqIter 64 (2 ^ 126) ^^^ 2 ^ 126) = 2 ^ 127 := by decide!

theorem gcmSqIter_lt : ∀ (k : ℕ) {s : ℕ}, s < 2 ^ 128 → gcmSqIter k s < 2 ^ 128
  | 0, _, hs => hs
  | k + 1, _, hs => gcmSqIter_lt k (gcmMul_lt _ hs)

theorem gcmSqIter_poly {ψ : ℕ → (ZMod 2)[X]} (hψ : IsGcmPoly ψ) {p : (ZMod 2)[X]}
    (hp : IsGcmModulus p) : ∀ (k : ℕ) {s : ℕ}, s < 2 ^ 128 →
    AdjoinRoot.mk p (ψ (gcmSqIter k s)) = AdjoinRoot.mk p (ψ s) ^ 2 ^ k
  | 0, _, _ => by simp [gcmSqIter]
  | k + 1, s, hs => by
    rw [gcmSqIter, gcmSqIter_poly hψ hp k (gcmMul_lt _ hs), gcmMul_poly hψ hp s hs, ← pow_two,
      ← pow_mul, pow_succ 2 k, mul_comm]

theorem exists_gcmPoly : ∃ ψ : ℕ → (ZMod 2)[X], IsGcmPoly ψ :=
  ⟨fun n => Finset.sum (Finset.range 128) (fun i => if n.testBit (127 - i) then X ^ i else 0),
    fun _ => rfl⟩

/-- Rabin's test, first part: `x^(2^128) = x` modulo the polynomial. -/
theorem gcmModulus_dvd_128 {p : (ZMod 2)[X]} (hp : IsGcmModulus p) :
    p ∣ X ^ 2 ^ 128 - X := by
  obtain ⟨ψ, hψ⟩ := exists_gcmPoly
  have h := gcmSqIter_poly hψ hp 128 (s := 2 ^ 126) (by decide)
  rw [gcmSqIter_128] at h
  have hx : ψ (2 ^ 126) = X := by
    have := gcmPoly_two_pow hψ (i := 1) (by omega)
    simpa using this
  rw [hx] at h
  rw [← AdjoinRoot.mk_eq_zero, map_sub, map_pow, ← h, sub_self]

/-- Rabin's test, second part: `x^(2^64) + x` is invertible modulo the polynomial. -/
theorem gcmModulus_dvd_64 {p : (ZMod 2)[X]} (hp : IsGcmModulus p) :
    ∃ u : (ZMod 2)[X], p ∣ u * (X ^ 2 ^ 64 + X) - 1 := by
  obtain ⟨ψ, hψ⟩ := exists_gcmPoly
  have hx : ψ (2 ^ 126) = X := by
    have := gcmPoly_two_pow hψ (i := 1) (by omega)
    simpa using this
  have h1 : ψ (2 ^ 127) = 1 := by
    have := gcmPoly_two_pow hψ (i := 0) (by omega)
    simpa using this
  have hs := gcmSqIter_poly hψ hp 64 (s := 2 ^ 126) (by decide)
  have hlt : gcmSqIter 64 (2 ^ 126) ^^^ 2 ^ 126 < 2 ^ 128 :=
    Nat.xor_lt_two_pow (gcmSqIter_lt 64 (by decide)) (by decide)
  have h := gcmMul_poly hψ hp gcmRabinInverse hlt
  rw [gcmSqIter_64, h1, gcmPoly_xor hψ, map_add, hs, hx, map_one] at h
  refine ⟨ψ gcmRabinInverse, ?_⟩
  rw [← AdjoinRoot.mk_eq_zero, map_sub, map_mul, map_add, map_pow, map_one, ← h, sub_self]

theorem sq_iterate {K : Type} [Monoid K] (x : K) (n : ℕ) :
    (fun y : K => y ^ 2)^[n] x = x ^ 2 ^ n := by
  induction n with
  | zero => simp
  | succ n ih => rw [Function.iterate_succ_apply', ih, ← pow_mul, pow_succ]

theorem gcd_128_dvd_64 : ∀ d < 128, 0 < d → Nat.gcd d 128 ∣ 64 := by decide

/-- An irreducible factor of the GHASH polynomial has degree at least 128. -/
theorem gcmModulus_factor_degree {p q : (ZMod 2)[X]} (hp : IsGcmModulus p)
    (hq : Irreducible q) (hqp : q ∣ p) : 128 ≤ q.natDegree := by
  by_contra hlt
  push_neg at hlt
  haveI : Fact (Irreducible q) := ⟨hq⟩
  have hq0 : q ≠ 0 := hq.ne_zero
  have hd : 0 < q.natDegree := Polynomial.natDegree_pos_iff_degree_pos.2
    (Polynomial.degree_pos_of_irreducible hq)
  haveI : Module.Finite (ZMod 2) (AdjoinRoot q) := (AdjoinRoot.powerBasis hq0).finite
  haveI : Finite (AdjoinRoot q) := Module.finite_of_finite (ZMod 2)
  haveI : Fintype (AdjoinRoot q) := Fintype.ofFinite _
  have hcard : Fintype.card (AdjoinRoot q) = 2 ^ q.natDegree := by
    rw [card_eq_pow_finrank (K := ZMod 2), ZMod.card, (AdjoinRoot.powerBasis hq0).finrank,
      AdjoinRoot.powerBasis_dim]
  have h1 : AdjoinRoot.root q ^ 2 ^ q.natDegree = AdjoinRoot.root q := by
    rw [← hcard]
    exact FiniteField.pow_card _
  have h2 : AdjoinRoot.root q ^ 2 ^ 128 = AdjoinRoot.root q := by
    have h := dvd_trans hqp (gcmModulus_dvd_128 hp)
    rw [← AdjoinRoot.mk_eq_zero, map_sub, map_pow, AdjoinRoot.mk_X] at h
    exact sub_eq_zero.1 h
  have p1 : Function.IsPeriodicPt (fun y : AdjoinRoot q => y ^ 2) q.natDegree
      (AdjoinRoot.root q) := by
    show (fun y : AdjoinRoot q => y ^ 2)^[q.natDegree] (AdjoinRoot.root q) = AdjoinRoot.root q
    rw [sq_iterate]
    exact h1
  have p2 : Function.IsPeriodicPt (fun y : AdjoinRoot q => y ^ 2) 128 (AdjoinRoot.root q) := by
    show (fun y : AdjoinRoot q => y ^ 2)^[128] (AdjoinRoot.root q) = AdjoinRoot.root q
    rw [sq_iterate]
    exact h2
  have p3 := (p1.gcd p2).trans_dvd (gcd_128_dvd_64 _ hlt hd)
  have h3 : AdjoinRoot.root q ^ 2 ^ 64 = AdjoinRoot.root q := by
    have : (fun y : AdjoinRoot q => y ^ 2)^[64] (AdjoinRoot.root q) = AdjoinRoot.root q := p3
    rwa [sq_iterate] at this
  have h4 : q ∣ X ^ 2 ^ 64 + X := by
    rw [← CharTwo.sub_eq_add, ← AdjoinRoot.mk_eq_zero, map_sub, map_pow, AdjoinRoot.mk_X, h3,
      sub_self]
  obtain ⟨u, hu⟩ := gcmModulus_dvd_64 hp
  have h5 : q ∣ u * (X ^ 2 ^ 64 + X) - 1 := dvd_trans hqp hu
  have h6 : q ∣ 1 := by
    have := dvd_sub (dvd_mul_of_dvd_right h4 u) h5
    rwa [sub_sub_cancel] at this
  exact hq.not_unit (isUnit_of_dvd_one h6)

/-- The polynomial `x^128 + x^7 + x^2 + x + 1` is irreducible over GF(2). -/
theorem gcmModulus_irreducible {p : (ZMod 2)[X]} (hp : IsGcmModulus p) : Irreducible p := by
  have hdeg : p.natDegree = 128 := by
    rw [hp]
    compute_degree!
  have hp0 : p ≠ 0 := by
    intro h
    rw [h] at hdeg
    simp at hdeg
  have hnu : ¬IsUnit p := by
    intro h
    have := Polynomial.natDegree_eq_zero_of_isUnit h
    omega
  obtain ⟨q, hq, hqp⟩ := WfDvdMonoid.exists_irreducible_factor hnu hp0
  have h1 := gcmModulus_factor_degree hp hq hqp
  have h2 : q.natDegree ≤ p.natDegree := Polynomial.natDegree_le_of_dvd hqp hp0
  obtain ⟨c, hc⟩ := hqp
  have hc0 : c ≠ 0 := by
    rintro rfl
    rw [mul_zero] at hc
    exact hp0 hc
  have hcd : c.natDegree = 0 := by
    have := congrArg natDegree hc
    rw [Polynomial.natDegree_mul hq.ne_zero hc0] at this
    omega
  have hcu : IsUnit c := by
    rw [Polynomial.isUnit_iff]
    refine ⟨c.coeff 0, ?_, ?_⟩
    · rw [isUnit_iff_ne_zero]
      intro h0
      apply hc0
      rw [Polynomial.eq_C_of_natDegree_eq_zero hcd, h0, map_zero]
    · exact (Polynomial.eq_C_of_natDegree_eq_zero hcd).symm
  rw [hc]
  exact (irreducible_mul_isUnit hcu).2 hq

/-- In GF(2^128), multiplication by a non-zero block is injective. -/
theorem gcmMul_left_inj {h x y : ℕ} (hh : h < 2 ^ 128) (h0 : h ≠ 0) (hx : x < 2 ^ 128)
    (hy : y < 2 ^ 128) (e : gcmMul x h = gcmMul y h) : x = y := by
  obtain ⟨ψ, hψ⟩ := exists_gcmPoly
  have hp : IsGcmModulus (X ^ 128 + X ^ 7 + X ^ 2 + X + 1) := rfl
  haveI : Fact (Irreducible (X ^ 128 + X ^ 7 + X ^ 2 + X + 1 : (ZMod 2)[X])) :=
    ⟨gcmModulus_irreducible hp⟩
  have hdeg : (X ^ 128 + X ^ 7 + X ^ 2 + X + 1 : (ZMod 2)[X]).degree = ((128 : ℕ) : WithBot ℕ) := by
    compute_degree!
  have e1 := gcmMul_poly hψ hp x hh
  have e2 := gcmMul_poly hψ hp y hh
  rw [e] at e1
  have e3 := e1.symm.trans e2
  have hne : AdjoinRoot.mk (X ^ 128 + X ^ 7 + X ^ 2 + X + 1) (ψ h) ≠ 0 := by
    intro hz
    rw [AdjoinRoot.mk_eq_zero] at hz
    have hψ0 : ψ h ≠ 0 := fun hz0 => h0 (gcmPoly_eq_zero hψ hh hz0)
    have := Polynomial.degree_le_of_dvd hz hψ0
    rw [hdeg] at this
    exact absurd (lt_of_le_of_lt this (gcmPoly_degree_lt hψ h)) (lt_irrefl _)
  have e4 := mul_right_cancel₀ hne e3
  rw [AdjoinRoot.mk_eq_mk] at e4
  by_contra hxy
  have hd0 : ψ x - ψ y ≠ 0 := fun hz => hxy (gcmPoly_inj hψ hx hy (sub_eq_zero.1 hz))
  have := Polynomial.degree_le_of_dvd e4 hd0
  rw [hdeg] at this
  have hlt : (ψ x - ψ y).degree < ((128 : ℕ) : WithBot ℕ) :=
    lt_of_le_of_lt (Polynomial.degree_sub_le _ _)
      (max_lt (gcmPoly_degree_lt hψ x) (gcmPoly_degree_lt hψ y))
  exact absurd (lt_of_le_of_lt this hlt) (lt_irrefl _)

end GF128

/-! ## GHASH: a changed ciphertext byte changes the tag -/

theorem beToNat_foldl (bs : Bytes) (acc : Nat) :
    bs.foldl (fun a b => a * 256 + b) acc = acc * 256 ^ bs.length + beToNat bs := by
  induction bs generalizing acc with
  | nil => simp [beToNat]
  | cons b bs ih =>
    simp only [List.foldl_cons, List.length_cons, beToNat]
    rw [ih, ih (0 * 256 + b)]
    ring

theorem beToNat_cons (b : Nat) (bs : Bytes) :
    beToNat (b :: bs) = b * 256 ^ bs.length + beToNat bs := by
  rw [beToNat, List.foldl_cons, beToNat_foldl]
  ring

theorem beToNat_lt : ∀ {bs : Bytes}, IsBytes bs → beToNat bs < 256 ^ bs.length
  | [], _ => by simp [beToNat]
  | b :: bs, h => by
    rw [isBytes_cons] at h
    have ih := beToNat_lt h.2
    rw [beToNat_cons, List.length_cons, pow_succ]
    have : b * 256 ^ bs.length ≤ 255 * 256 ^ bs.length := Nat.mul_le_mul_right _ (by omega)
    omega

theorem beToNat_inj : ∀ {xs ys : Bytes}, IsBytes xs → IsBytes ys → xs.length = ys.length →
    beToNat xs = beToNat ys → xs = ys
  | [], [], _, _, _, _ => rfl
  | [], _ :: _, _, _, hl, _ => by simp at hl
  | _ :: _, [], _, _, hl, _ => by simp at hl
  | a :: xs, b :: ys, hx, hy, hl, h => by
    rw [isBytes_cons] at hx hy
    have hl2 : xs.length = ys.length := by simpa using hl
    rw [beToNat_cons, beToNat_cons, hl2] at h
    have h1 := beToNat_lt hx.2
    have h2 := beToNat_lt hy.2
    rw [hl2] at h1
    have hpos : 0 < 256 ^ ys.length := pow_pos (by omega) _
    have hab : a = b := by
      have e1 : (a * 256 ^ ys.length + beToNat xs) / 256 ^ ys.length = a := by
        rw [Nat.mul_comm, Nat.mul_add_div hpos, Nat.div_eq_of_lt h1, Nat.add_zero]
      have e2 : (b * 256 ^ ys.length + beToNat ys) / 256 ^ ys.length = b := by
        rw [Nat.mul_comm, Nat.mul_add_div hpos, Nat.div_eq_of_lt h2, Nat.add_zero]
      rw [← e1, ← e2, h]
    subst hab
    have hr : beToNat xs = beToNat ys := Nat.add_left_cancel h
    rw [beToNat_inj hx.2 hy.2 hl2 hr]

theorem natToBE_mod : ∀ (k x : Nat), natToBE k x = natToBE k (x % 256 ^ k)
  | 0, _ => rfl
  | k + 1, x => by
    have hpos : 0 < 256 ^ k := pow_pos (by omega) _
    have ih1 := natToBE_mod k x
    have ih2 := natToBE_mod k (x % 256 ^ (k + 1))
    have hmm : x % 256 ^ (k + 1) % 256 ^ k = x % 256 ^ k :=
      Nat.mod_mod_of_dvd _ (Dvd.intro _ (pow_succ 256 k).symm)
    simp only [natToBE]
    rw [ih1, ih2, hmm]
    congr 1
    rw [pow_succ, Nat.mod_mul_right_div_self, Nat.mod_mod]

theorem natToBE_inj : ∀ (k : Nat) {m n : Nat}, m < 256 ^ k → n < 256 ^ k →
    natToBE k m = natToBE k n → m = n
  | 0, m, n, hm, hn, _ => by
    simp at hm hn
    omega
  | k + 1, m, n, hm, hn, h => by
    simp only [natToBE, List.cons.injEq] at h
    have hpos : 0 < 256 ^ k := pow_pos (by omega) _
    have hm1 : m / 256 ^ k < 256 := by
      rw [Nat.div_lt_iff_lt_mul hpos, Nat.mul_comm]
      rw [pow_succ] at hm
      exact hm
    have hn1 : n / 256 ^ k < 256 := by
      rw [Nat.div_lt_iff_lt_mul hpos, Nat.mul_comm]
      rw [pow_succ] at hn
      exact hn
    have e1 : m / 256 ^ k = n / 256 ^ k := by
      have := h.1
      rwa [Nat.mod_eq_of_lt hm1, Nat.mod_eq_of_lt hn1] at this
    have hk : ∀ x : Nat, natToBE k x = natToBE k (x % 256 ^ k) := natToBE_mod k
    have e2 : m % 256 ^ k = n % 256 ^ k := by
      apply natToBE_inj k (Nat.mod_lt _ hpos) (Nat.mod_lt _ hpos)
      rw [← hk, ← hk]
      exact h.2
    rw [← Nat.div_add_mod m (256 ^ k), ← Nat.div_add_mod n (256 ^ k), e1, e2]

theorem take_set_of_le {α : Type} (a : α) {n m : Nat} (l : List α) (h : m ≤ n) :
    (l.set n a).take m = l.take m :=
  List.ext_getElem? fun i => by
    rw [List.getElem?_take, List.getElem?_take]
    split
    · rw [List.getElem?_set_ne (by omega)]
    · rfl

theorem getD_take_of_lt (l : Bytes) {i n : Nat} (h : i < n) :
    (l.take n).getD i 0 = l.getD i 0 := by
  rw [List.getD_eq_getElem?_getD, List.getD_eq_getElem?_getD, List.getElem?_take_of_lt h]

theorem getD_set_self (l : Bytes) {i : Nat} (v : Nat) (h : i < l.length) :
    (l.set i v).getD i 0 = v := by
  rw [List.getD_eq_getElem?_getD, List.getElem?_set_self h]
  rfl

theorem getD_drop (l : Bytes) (n i : Nat) : (l.drop n).getD i 0 = l.getD (n + i) 0 := by
  rw [List.getD_eq_getElem?_getD, List.getD_eq_getElem?_getD, List.getElem?_drop]

theorem isBytes_set {l : Bytes} (h : IsBytes l) (i : Nat) {v : Nat} (hv : v < 256) :
    IsBytes (l.set i v) := by
  intro b hb
  rcases List.mem_or_eq_of_mem_set hb with hb | rfl
  · exact h b hb
  · exact hv

/-- The 16-byte block `update` folds in: the next bytes, zero-padded. -/
theorem gcmBlock_isBlock {data : Bytes} (hb : IsBytes data) :
    IsBlock (data.take 16 ++ List.replicate (16 - (data.take 16).length) 0) := by
  refine ⟨?_, isBytes_append.2 ⟨isBytes_take 16 hb, isBytes_replicate_zero _⟩⟩
  rw [List.length_append, List.length_replicate, List.length_take]
  omega

theorem isBlock_beToNat_lt {b : Bytes} (h : IsBlock b) : beToNat b < 2 ^ 128 := by
  have := beToNat_lt h.2
  rw [h.1] at this
  exact this

theorem gcmUpdate_succ (h n y : Nat) (data : Bytes) (hd : data.length ≠ 0) :
    gcmUpdate h (n + 1) y data
      = gcmUpdate h n (gcmMul (y ^^^ beToNat
          (data.take 16 ++ List.replicate (16 - (data.take 16).length) 0)) h) (data.drop 16) := by
  rw [gcmUpdate, if_neg hd]

theorem gcmUpdate_lt {h : Nat} (hh : h < 2 ^ 128) : ∀ (n y : Nat) (data : Bytes),
    y < 2 ^ 128 → gcmUpdate h n y data < 2 ^ 128
  | 0, _, _, hy => hy
  | n + 1, y, data, hy => by
    rw [gcmUpdate]
    split
    · exact hy
    · exact gcmUpdate_lt hh n _ _ (gcmMul_lt _ hh)

/-- Two different states stay different over the same data. -/
theorem gcmUpdate_state_ne {h : Nat} (hh : h < 2 ^ 128) (h0 : h ≠ 0) :
    ∀ (n y1 y2 : Nat) (data : Bytes), IsBytes data → y1 < 2 ^ 128 → y2 < 2 ^ 128 → y1 ≠ y2 →
      gcmUpdate h n y1 data ≠ gcmUpdate h n y2 data
  | 0, _, _, _, _, _, _, hne => hne
  | n + 1, y1, y2, data, hb, h1, h2, hne => by
    by_cases hd : data.length = 0
    · rw [gcmUpdate, gcmUpdate, if_pos hd, if_pos hd]
      exact hne
    · rw [gcmUpdate_succ h n y1 data hd, gcmUpdate_succ h n y2 data hd]
      have hB := isBlock_beToNat_lt (gcmBlock_isBlock hb)
      refine gcmUpdate_state_ne hh h0 n _ _ _ (isBytes_drop 16 hb) (gcmMul_lt _ hh)
        (gcmMul_lt _ hh) ?_
      intro e
      have := gcmMul_left_inj hh h0 (Nat.xor_lt_two_pow h1 hB) (Nat.xor_lt_two_pow h2 hB) e
      exact hne (Nat.xor_left_injective this)

/-- A changed byte changes the state, whatever follows. -/
theorem gcmUpdate_set_ne {h : Nat} (hh : h < 2 ^ 128) (h0 : h ≠ 0) :
    ∀ (n y : Nat) (data : Bytes) (i v : Nat), IsBytes data → y < 2 ^ 128 → i < data.length →
      data.length ≤ n → v < 256 → v ≠ data.getD i 0 →
      gcmUpdate h n y (data.set i v) ≠ gcmUpdate h n y data
  | 0, _, _, _, _, _, _, hi, hn, _, _ => by omega
  | n + 1, y, data, i, v, hb, hy, hi, hn, hv, hne => by
    have hd : data.length ≠ 0 := by omega
    have hd2 : (data.set i v).length ≠ 0 := by rw [List.length_set]; exact hd
    have hb2 : IsBytes (data.set i v) := isBytes_set hb i hv
    rw [gcmUpdate_succ h n y _ hd2, gcmUpdate_succ h n y data hd]
    by_cases h16 : i < 16
    · rw [List.drop_set_of_lt v data h16]
      have hB1 := gcmBlock_isBlock hb2
      have hB := gcmBlock_isBlock hb
      refine gcmUpdate_state_ne hh h0 n _ _ _ (isBytes_drop 16 hb) (gcmMul_lt _ hh)
        (gcmMul_lt _ hh) ?_
      intro e
      have e1 := gcmMul_left_inj hh h0 (Nat.xor_lt_two_pow hy (isBlock_beToNat_lt hB1))
        (Nat.xor_lt_two_pow hy (isBlock_beToNat_lt hB)) e
      have e2 := Nat.xor_right_injective e1
      have e3 := beToNat_inj hB1.2 hB.2 (by rw [hB1.1, hB.1]) e2
      have e4 := List.append_inj_left e3 (by simp)
      have e5 : ((data.set i v).take 16).getD i 0 = (data.take 16).getD i 0 := by rw [e4]
      rw [getD_take_of_lt _ h16, getD_take_of_lt _ h16, getD_set_self _ _ hi] at e5
      exact hne e5
    · have hle : 16 ≤ i := by omega
      rw [take_set_of_le v data hle, List.drop_set, if_neg h16]
      refine gcmUpdate_set_ne hh h0 n _ _ (i - 16) v (isBytes_drop 16 hb) (gcmMul_lt _ hh)
        (by rw [List.length_drop]; omega) (by rw [List.length_drop]; omega) hv ?_
      rw [getD_drop]
      have : 16 + (i - 16) = i := by omega
      rw [this]
      exact hne

theorem gcmLengths_lt (a c : Nat) :
    (a * 8 % 2 ^ 64) <<< 64 ||| c * 8 % 2 ^ 64 < 2 ^ 128 := by
  have h1 : a * 8 % 2 ^ 64 < 2 ^ 64 := Nat.mod_lt _ (by positivity)
  have h2 : c * 8 % 2 ^ 64 < 2 ^ 64 := Nat.mod_lt _ (by positivity)
  refine Nat.or_lt_two_pow ?_ (lt_of_lt_of_le h2 (Nat.pow_le_pow_right (by omega) (by omega)))
  rw [Nat.shiftLeft_eq]
  calc a * 8 % 2 ^ 64 * 2 ^ 64 < 2 ^ 64 * 2 ^ 64 := Nat.mul_lt_mul_of_pos_right h1 (by positivity)
    _ = 2 ^ 128 := by norm_num

/-- With a non-zero hash subkey, the tag over a ciphertext with one byte changed differs
from the tag over the ciphertext. -/
theorem auth_set_ne (g : GCM) (hh : g.h < 2 ^ 128) (h0 : g.h ≠ 0) (ct data tagMask : Bytes)
    (hb : IsBytes ct) (hm : tagMask.length = 16) {i v : Nat} (hi : i < ct.length)
    (hv : v < 256) (hne : v ≠ ct.getD i 0) :
    g.auth (ct.set i v) data tagMask ≠ g.auth ct data tagMask := by
  intro e
  unfold GCM.auth at e
  simp only [List.length_set] at e
  have hy0 : gcmUpdate g.h data.length 0 data < 2 ^ 128 :=
    gcmUpdate_lt hh _ _ _ (by positivity)
  have hy1 := gcmUpdate_lt hh ct.length _ ct hy0
  have hy2 := gcmUpdate_lt hh ct.length _ (ct.set i v) hy0
  have hL := gcmLengths_lt data.length ct.length
  have e1 := xorBytes_right_inj (by rw [natToBE_length, hm]) (by rw [natToBE_length, hm]) e
  have e2 := natToBE_inj 16 (by simpa using gcmMul_lt _ hh) (by simpa using gcmMul_lt _ hh) e1
  have e3 := gcmMul_left_inj hh h0 (Nat.xor_lt_two_pow hy2 hL) (Nat.xor_lt_two_pow hy1 hL) e2
  have e4 := Nat.xor_left_injective e3
  exact gcmUpdate_set_ne hh h0 ct.length _ ct i v hb hy0 hi (le_refl _) hv hne e4

theorem flipBit_byte_lt {bs : Bytes} (h : IsBytes bs) (i : Nat) {j : Nat} (hj : j < 8) :
    bs.getD i 0 ^^^ 2 ^ j < 256 := by
  have h1 : bs.getD i 0 < 256 := by
    rw [List.getD_eq_getElem?_getD]
    cases hg : bs[i]? with
    | none => simp
    | some x => exact h x (List.getElem?_mem hg)
  have h2 : 2 ^ j < 256 := by
    have : 2 ^ j < 2 ^ 8 := Nat.pow_lt_pow_right (by omega) hj
    simpa using this
  exact xor_lt_256 h1 h2

theorem flipBit_byte_ne (b j : Nat) : b ^^^ 2 ^ j ≠ b := by
  intro h
  have h2 : b ^^^ 2 ^ j = b ^^^ 0 := by rw [h, Nat.xor_zero]
  have h3 := Nat.xor_right_injective h2
  have : 0 < 2 ^ j := Nat.two_pow_pos j
  omega

/-- With a non-zero hash subkey, a flipped ciphertext bit changes the tag. -/
theorem auth_flipBit_ne (g : GCM) (hh : g.h < 2 ^ 128) (h0 : g.h ≠ 0) (ct data tagMask : Bytes)
    (hb : IsBytes ct) (hm : tagMask.length = 16) {i j : Nat} (hi : i < ct.length) (hj : j < 8) :
    g.auth (flipBit ct i j) data tagMask ≠ g.auth ct data tagMask :=
  auth_set_ne g hh h0 ct data tagMask hb hm hi (flipBit_byte_lt hb i hj) (flipBit_byte_ne _ _)

theorem newGCM_h_lt {c : AESCipher} (hc : c.WF) : (newGCM c).h < 2 ^ 128 := by
  have hz : IsBlock (List.replicate 16 0) := ⟨by simp, isBytes_replicate_zero 16⟩
  exact isBlock_beToNat_lt (isBlock_encrypt hc hz)

/-! ## GCM: lengths and the round trip -/

theorem isBlock_deriveCounter {nonce : Bytes} (hl : nonce.length = 12) (hb : IsBytes nonce) :
    IsBlock (deriveCounter nonce) := by
  refine ⟨by simp [deriveCounter, hl], isBytes_append.2 ⟨hb, ?_⟩⟩
  intro b hb
  simp only [List.mem_cons, List.mem_nil_iff, List.not_mem_nil, or_false] at hb
  omega

theorem isBlock_gcmInc32 {counter : Bytes} (h : IsBlock counter) : IsBlock (gcmInc32 counter) := by
  refine ⟨?_, isBytes_append.2 ⟨isBytes_take 12 h.2, isBytes_natToBE _ _⟩⟩
  simp [gcmInc32, natToBE_length, h.1]

theorem counterCrypt_length (g : GCM) (hc : g.cipher.WF) : ∀ (n : Nat) (input counter : Bytes),
    IsBlock counter → input.length ≤ n → (g.counterCrypt n input counter).length = input.length
  | 0, input, _, _, hn => by
    have : input.length = 0 := by omega
    simp [GCM.counterCrypt, this]
  | n + 1, input, counter, hctr, hn => by
    rw [GCM.counterCrypt]
    split
    · rename_i h0; simp [h0]
    · rename_i h0
      have ih := counterCrypt_length g hc n (input.drop 16) (gcmInc32 counter)
        (isBlock_gcmInc32 hctr) (by simp; omega)
      have hk := (isBlock_encrypt hc hctr).1
      rw [List.length_append, ih, xorBytes_length, hk]
      simp only [List.length_take, List.length_drop]
      omega

theorem isBytes_counterCrypt (g : GCM) (hc : g.cipher.WF) : ∀ (n : Nat) (input counter : Bytes),
    IsBlock counter → IsBytes input → IsBytes (g.counterCrypt n input counter)
  | 0, _, _, _, _ => by simp [GCM.counterCrypt, isBytes_nil]
  | n + 1, input, counter, hctr, hi => by
    rw [GCM.counterCrypt]
    split
    · exact isBytes_nil
    · exact isBytes_append.2 ⟨isBytes_xorBytes (isBytes_take 16 hi) (isBlock_encrypt hc hctr).2,
        isBytes_counterCrypt g hc n _ _ (isBlock_gcmInc32 hctr) (isBytes_drop 16 hi)⟩

theorem counterCrypt_counterCrypt (g : GCM) (hc : g.cipher.WF) :
    ∀ (n : Nat) (input counter : Bytes), IsBlock counter → input.length ≤ n →
      g.counterCrypt n (g.counterCrypt n input counter) counter = input
  | 0, input, _, _, hn => by
    have h0 : input.length = 0 := by omega
    simp only [GCM.counterCrypt]
    exact (List.length_eq_zero.1 h0).symm
  | n + 1, input, counter, hctr, hn => by
    by_cases h0 : input.length = 0
    · have hnil := List.length_eq_zero.1 h0
      subst hnil
      simp [GCM.counterCrypt]
    · have hk := (isBlock_encrypt hc hctr).1
      have ih := counterCrypt_counterCrypt g hc n (input.drop 16) (gcmInc32 counter)
        (isBlock_gcmInc32 hctr) (by simp; omega)
      have hrest := counterCrypt_length g hc n (input.drop 16) (gcmInc32 counter)
        (isBlock_gcmInc32 hctr) (by simp; omega)
      have hfirst : (xorBytes (input.take 16) (g.cipher.encrypt counter)).length
          = min 16 input.length := by
        rw [xorBytes_length, hk, List.length_take]; omega
      have hout : g.counterCrypt (n + 1) input counter
          = xorBytes (input.take 16) (g.cipher.encrypt counter)
            ++ g.counterCrypt n (input.drop 16) (gcmInc32 counter) := by
        rw [GCM.counterCrypt, if_neg h0]
      have hlen : (g.counterCrypt (n + 1) input counter).length ≠ 0 := by
        rw [hout, List.length_append, hfirst, hrest]; omega
      have htake : (g.counterCrypt (n + 1) input counter).take 16
          = xorBytes (input.take 16) (g.cipher.encrypt counter) := by
        rw [hout]
        by_cases h16 : 16 ≤ input.length
        · rw [List.take_append_of_le_length (by rw [hfirst]; omega),
            List.take_of_length_le (by rw [hfirst]; omega)]
        · have hd : input.drop 16 = [] := List.drop_eq_nil_of_le (by omega)
          have : g.counterCrypt n (input.drop 16) (gcmInc32 counter) = [] :=
            List.length_eq_zero.1 (by rw [hrest, hd]; rfl)
          rw [this, List.append_nil, List.take_of_length_le (by rw [hfirst]; omega)]
      have hdrop : (g.counterCrypt (n + 1) input counter).drop 16
          = g.counterCrypt n (input.drop 16) (gcmInc32 counter) := by
        rw [hout]
        by_cases h16 : 16 ≤ input.length
        · rw [List.drop_append_of_le_length (by rw [hfirst]; omega),
            List.drop_of_length_le (by rw [hfirst]; omega), List.nil_append]
        · have hd : input.drop 16 = [] := List.drop_eq_nil_of_le (by omega)
          have : g.counterCrypt n (input.drop 16) (gcmInc32 counter) = [] :=
            List.length_eq_zero.1 (by rw [hrest, hd]; rfl)
          rw [this, List.append_nil, List.drop_of_length_le (by rw [hfirst]; omega)]
      rw [GCM.counterCrypt, if_neg hlen, htake, hdrop, ih,
        xorBytes_cancel _ _ (by rw [hk, List.length_take]; omega), List.take_append_drop]

theorem auth_length (g : GCM) (ciphertext data tagMask : Bytes) (h : tagMask.length = 16) :
    (g.auth ciphertext data tagMask).length = 16 := by
  simp [GCM.auth, xorBytes_length, natToBE_length, h]

theorem isBytes_auth (g : GCM) (ciphertext data tagMask : Bytes) (h : IsBytes tagMask) :
    IsBytes (g.auth ciphertext data tagMask) :=
  isBytes_xorBytes (isBytes_natToBE _ _) h

theorem seal_eq (g : GCM) (nonce plaintext data : Bytes) (hn : nonce.length = 12)
    (hp : plaintext.length ≤ gcmMaxPlaintext) :
    g.seal nonce plaintext data
      = .ok (g.counterCrypt plaintext.length plaintext (gcmInc32 (deriveCounter nonce))
          ++ g.auth (g.counterCrypt plaintext.length plaintext (gcmInc32 (deriveCounter nonce)))
              data (g.cipher.encrypt (deriveCounter nonce))) := by
  simp [GCM.seal, gcmNonceSize, hn, Nat.not_lt.2 hp]

theorem seal_tooLarge (g : GCM) (nonce plaintext data : Bytes) (hn : nonce.length = 12)
    (hp : gcmMaxPlaintext < plaintext.length) :
    g.seal nonce plaintext data = .error .gcmMessageTooLarge := by
  simp [GCM.seal, gcmNonceSize, hn, hp]

theorem seal_length (g : GCM) (hc : g.cipher.WF) (nonce plaintext data ct : Bytes)
    (hn : nonce.length = 12) (hb : IsBytes nonce) (h : g.seal nonce plaintext data = .ok ct) :
    ct.length = plaintext.length + 16 := by
  by_cases hp : plaintext.length ≤ gcmMaxPlaintext
  · rw [seal_eq g nonce plaintext data hn hp] at h
    injection h with h
    subst h
    have hctr := isBlock_deriveCounter hn hb
    rw [List.length_append, counterCrypt_length g hc _ _ _ (isBlock_gcmInc32 hctr) (le_refl _),
      auth_length _ _ _ _ (isBlock_encrypt hc hctr).1]
  · rw [seal_tooLarge g nonce plaintext data hn (by omega)] at h
    cases h

theorem isBytes_seal (g : GCM) (hc : g.cipher.WF) (nonce plaintext data ct : Bytes)
    (hn : nonce.length = 12) (hb : IsBytes nonce) (hp : IsBytes plaintext)
    (h : g.seal nonce plaintext data = .ok ct) : IsBytes ct := by
  by_cases hl : plaintext.length ≤ gcmMaxPlaintext
  · rw [seal_eq g nonce plaintext data hn hl] at h
    injection h with h
    subst h
    have hctr := isBlock_deriveCounter hn hb
    exact isBytes_append.2 ⟨isBytes_counterCrypt g hc _ _ _ (isBlock_gcmInc32 hctr) hp,
      isBytes_auth _ _ _ _ (isBlock_encrypt hc hctr).2⟩
  · rw [seal_tooLarge g nonce plaintext data hn (by omega)] at h
    cases h

theorem open_seal (g : GCM) (hc : g.cipher.WF) (nonce plaintext data ct : Bytes)
    (hn : nonce.length = 12) (hb : IsBytes nonce) (h : g.seal nonce plaintext data = .ok ct) :
    g.open nonce ct data = .ret plaintext none := by
  by_cases hp : plaintext.length ≤ gcmMaxPlaintext
  · have hlen := seal_length g hc nonce plaintext data ct hn hb h
    rw [seal_eq g nonce plaintext data hn hp] at h
    injection h with h
    have hctr := isBlock_deriveCounter hn hb
    have hcl := counterCrypt_length g hc _ plaintext _ (isBlock_gcmInc32 hctr) (le_refl _)
    have htl := auth_length g
      (g.counterCrypt plaintext.length plaintext (gcmInc32 (deriveCounter nonce))) data
      (g.cipher.encrypt (deriveCounter nonce)) (isBlock_encrypt hc hctr).1
    have hsub : ct.length - gcmTagSize = plaintext.length := by rw [hlen]; rfl
    have htake : ct.take plaintext.length
        = g.counterCrypt plaintext.length plaintext (gcmInc32 (deriveCounter nonce)) := by
      rw [← h, List.take_append_of_le_length (by rw [hcl]), List.take_of_length_le (by rw [hcl])]
    have hdrop : ct.drop plaintext.length
        = g.auth (g.counterCrypt plaintext.length plaintext (gcmInc32 (deriveCounter nonce)))
            data (g.cipher.encrypt (deriveCounter nonce)) := by
      rw [← h, List.drop_append_of_le_length (by rw [hcl]), List.drop_of_length_le (by rw [hcl]),
        List.nil_append]
    unfold GCM.open
    rw [if_neg (by rw [hn]; decide), if_neg (by rw [hlen]; unfold gcmTagSize; omega),
      if_neg (by rw [hlen]; unfold gcmTagSize; omega)]
    simp only [hsub, htake, hdrop, hcl, ne_eq, not_true_eq_false, if_false]
    rw [counterCrypt_counterCrypt g hc _ _ _ (isBlock_gcmInc32 hctr) (le_refl _)]
  · rw [seal_tooLarge g nonce plaintext data hn (by omega)] at h
    cases h

/-! ## GCM: a changed nonce or tag is rejected -/

theorem flipBit_length (bs : Bytes) (i j : Nat) : (flipBit bs i j).length = bs.length := by
  simp [flipBit]

theorem isBytes_flipBit {bs : Bytes} (h : IsBytes bs) (i : Nat) {j : Nat} (hj : j < 8) :
    IsBytes (flipBit bs i j) := by
  intro b hb
  unfold flipBit at hb
  rcases List.mem_or_eq_of_mem_set hb with hb | rfl
  · exact h b hb
  · have h1 : bs.getD i 0 < 256 := by
      rw [List.getD_eq_getElem?_getD]
      cases hg : bs[i]? with
      | none => simp
      | some x => exact h x (List.getElem?_mem hg)
    have h2 : 2 ^ j < 256 := by
      have : 2 ^ j < 2 ^ 8 := Nat.pow_lt_pow_right (by omega) hj
      simpa using this
    exact xor_lt_256 h1 h2

theorem flipBit_ne {bs : Bytes} {i : Nat} (hi : i < bs.length) (j : Nat) : flipBit bs i j ≠ bs := by
  intro h
  have h1 : (flipBit bs i j).getD i 0 = bs.getD i 0 := by rw [h]
  unfold flipBit at h1
  rw [List.getD_eq_getElem _ _ (by simpa using hi), List.getElem_set_self] at h1
  have h2 : bs.getD i 0 ^^^ 2 ^ j = bs.getD i 0 ^^^ 0 := by rw [h1, Nat.xor_zero]
  have h3 := Nat.xor_right_injective h2
  have : 0 < 2 ^ j := Nat.two_pow_pos j
  omega

/-- Method `Open` on `ct ++ tag`: the tag is compared with the one computed over `ct`. -/
theorem open_append (g : GCM) (nonce ct tag data : Bytes) (hn : nonce.length = 12)
    (ht : tag.length = 16) (hc : ct.length ≤ gcmMaxPlaintext) :
    g.open nonce (ct ++ tag) data
      = if g.auth ct data (g.cipher.encrypt (deriveCounter nonce)) ≠ tag
        then .ret [] (some .authFailed)
        else .ret (g.counterCrypt ct.length ct (gcmInc32 (deriveCounter nonce))) none := by
  have hl : (ct ++ tag).length = ct.length + 16 := by rw [List.length_append, ht]
  have hsub : (ct ++ tag).length - gcmTagSize = ct.length := by rw [hl]; rfl
  have htake : (ct ++ tag).take ct.length = ct := by
    rw [List.take_append_of_le_length (le_refl _), List.take_of_length_le (le_refl _)]
  have hdrop : (ct ++ tag).drop ct.length = tag := by
    rw [List.drop_append_of_le_length (le_refl _), List.drop_of_length_le (le_refl _),
      List.nil_append]
  unfold GCM.open
  rw [if_neg (by rw [hn]; decide), if_neg (by rw [hl]; unfold gcmTagSize; omega),
    if_neg (by rw [hl]; unfold gcmTagSize; omega)]
  simp only [hsub, htake, hdrop]

/-- A tag other than the computed one is rejected. -/
theorem open_wrong_tag (g : GCM) (nonce ct tag data : Bytes) (hn : nonce.length = 12)
    (ht : tag.length = 16) (hc : ct.length ≤ gcmMaxPlaintext)
    (hne : tag ≠ g.auth ct data (g.cipher.encrypt (deriveCounter nonce))) :
    g.open nonce (ct ++ tag) data = .ret [] (some .authFailed) := by
  rw [open_append g nonce ct tag data hn ht hc, if_pos (fun h => hne h.symm)]

/-- The tags of one ciphertext under two nonces differ. -/
theorem auth_nonce_ne (g : GCM) (hc : g.cipher.WF) (ct data : Bytes) {n1 n2 : Bytes}
    (h1 : n1.length = 12) (hb1 : IsBytes n1) (h2 : n2.length = 12) (hb2 : IsBytes n2)
    (hne : n1 ≠ n2) :
    g.auth ct data (g.cipher.encrypt (deriveCounter n1))
      ≠ g.auth ct data (g.cipher.encrypt (deriveCounter n2)) := by
  intro h
  have c1 := isBlock_deriveCounter h1 hb1
  have c2 := isBlock_deriveCounter h2 hb2
  have e1 := isBlock_encrypt hc c1
  have e2 := isBlock_encrypt hc c2
  unfold GCM.auth at h
  simp only at h
  rw [xorBytes_comm _ (g.cipher.encrypt (deriveCounter n1)),
    xorBytes_comm _ (g.cipher.encrypt (deriveCounter n2))] at h
  have h3 := xorBytes_right_inj (by rw [e1.1, natToBE_length]) (by rw [e2.1, natToBE_length]) h
  have h4 := encrypt_inj hc c1 c2 h3
  unfold deriveCounter at h4
  exact hne (List.append_cancel_right h4)

/-! ## encryptAES and decryptAES unfolded -/

theorem cipherNewGCM_ok (c : AESCipher) : cipherNewGCM c = .ok (newGCM c) := by
  simp [cipherNewGCM, AESCipher.blockSize]

theorem ioReadFull_ok {rand : Bytes} {n : Nat} (h : n ≤ rand.length) :
    ioReadFull rand n = (.ok (rand.take n), rand.drop n) := by
  simp [ioReadFull, h]

theorem ioReadFull_error {rand : Bytes} {n : Nat} (h : rand.length < n) :
    ∃ err, ioReadFull rand n = (.error err, []) := by
  unfold ioReadFull
  rw [if_neg (by omega)]
  split
  · exact ⟨_, rfl⟩
  · exact ⟨_, rfl⟩

theorem ioReadFull_error_kind {rand : Bytes} {n : Nat} (h : rand.length < n) :
    ∃ err, ioReadFull rand n = (.error err, []) ∧ (err = .eof ∨ err = .unexpectedEOF) := by
  unfold ioReadFull
  rw [if_neg (by omega)]
  split
  · exact ⟨_, rfl, Or.inl rfl⟩
  · exact ⟨_, rfl, Or.inr rfl⟩

theorem encryptAES_of_key {key : Bytes} (plaintext rand : Bytes)
    (hk : key.length = 16 ∨ key.length = 24 ∨ key.length = 32) (hr : 12 ≤ rand.length) :
    encryptAES key plaintext rand
      = match (newGCM (newCipher key)).seal (rand.take 12) plaintext [] with
        | .error p => (.panic p, rand.drop 12)
        | .ok ciphertext =>
          (.ret (hexEncodeToString (rand.take 12) ++ hexEncodeToString ciphertext) none,
            rand.drop 12) := by
  simp only [encryptAES, aesNewCipher_ok hk, ioReadFull_ok hr, cipherNewGCM_ok]

theorem encryptAES_readError {key : Bytes} (plaintext rand : Bytes)
    (hk : key.length = 16 ∨ key.length = 24 ∨ key.length = 32) (hr : rand.length < 12) :
    ∃ err, encryptAES key plaintext rand = (.ret [] (some err), []) := by
  obtain ⟨err, he⟩ := ioReadFull_error hr
  exact ⟨err, by simp only [encryptAES, aesNewCipher_ok hk, he]⟩

theorem encryptAES_badKey {key : Bytes} (plaintext rand : Bytes)
    (hk : ¬(key.length = 16 ∨ key.length = 24 ∨ key.length = 32)) :
    encryptAES key plaintext rand = (.ret [] (some (.keySize key.length)), rand) := by
  simp only [encryptAES, aesNewCipher_error hk]

theorem decryptAES_badKey {key : Bytes} (ciphertext : Bytes)
    (hk : ¬(key.length = 16 ∨ key.length = 24 ∨ key.length = 32)) :
    decryptAES key ciphertext = .ret [] (some (.keySize key.length)) := by
  simp only [decryptAES, aesNewCipher_error hk]

theorem decryptAES_short {key : Bytes} (ciphertext : Bytes)
    (hk : key.length = 16 ∨ key.length = 24 ∨ key.length = 32) (hc : ciphertext.length < 24) :
    decryptAES key ciphertext = .panic (.sliceBounds 24 ciphertext.length) := by
  simp only [decryptAES, aesNewCipher_ok hk, if_pos hc]

theorem decryptAES_of_key {key : Bytes} (ciphertext : Bytes)
    (hk : key.length = 16 ∨ key.length = 24 ∨ key.length = 32) (hc : 24 ≤ ciphertext.length) :
    decryptAES key ciphertext
      = match (newGCM (newCipher key)).open (hexDecodeString (ciphertext.take 24)).1
          (hexDecodeString (ciphertext.drop 24)).1 [] with
        | .panic p => .panic p
        | .ret _ (some err) => .ret [] (some err)
        | .ret plaintextBytes none => .ret plaintextBytes none := by
  simp only [decryptAES, aesNewCipher_ok hk, if_neg (Nat.not_lt.2 hc), cipherNewGCM_ok]

/-- What an envelope returned by `encryptAES` is made of. -/
theorem encryptAES_ret {key plaintext rand e : Bytes}
    (hk : key.length = 16 ∨ key.length = 24 ∨ key.length = 32)
    (h : (encryptAES key plaintext rand).1 = .ret e none) :
    12 ≤ rand.length ∧ ∃ ct, (newGCM (newCipher key)).seal (rand.take 12) plaintext [] = .ok ct
      ∧ e = hexEncodeToString (rand.take 12) ++ hexEncodeToString ct := by
  by_cases hr : 12 ≤ rand.length
  · refine ⟨hr, ?_⟩
    rw [encryptAES_of_key plaintext rand hk hr] at h
    cases hs : (newGCM (newCipher key)).seal (rand.take 12) plaintext [] with
    | error p => rw [hs] at h; cases h
    | ok ct =>
      rw [hs] at h
      injection h with h1 h2
      exact ⟨ct, rfl, h1.symm⟩
  · obtain ⟨err, he⟩ := encryptAES_readError plaintext rand hk (by omega)
    rw [he] at h
    cases h

theorem hexDecodeString_encode (bs : Bytes) (h : IsBytes bs) :
    hexDecodeString (hexEncodeToString bs) = (bs, none) := by
  have := hexDecodeString_encode_append bs [] h
  simpa [hexDecodeString] using this

/-- The envelope `hex(nonce) ++ rest` splits at character 24. -/
theorem take_envelope (nonce rest : Bytes) (hn : nonce.length = 12) :
    (hexEncodeToString nonce ++ rest).take 24 = hexEncodeToString nonce := by
  rw [List.take_append_of_le_length (by rw [hexEncodeToString_length, hn]),
    List.take_of_length_le (by rw [hexEncodeToString_length, hn])]

theorem drop_envelope (nonce rest : Bytes) (hn : nonce.length = 12) :
    (hexEncodeToString nonce ++ rest).drop 24 = rest := by
  rw [List.drop_append_of_le_length (by rw [hexEncodeToString_length, hn]),
    List.drop_of_length_le (by rw [hexEncodeToString_length, hn]), List.nil_append]

/-- Decryption of `hex(nonce) ++ hex(ct) ++ s` when `s` decodes to nothing. -/
theorem decryptAES_envelope {key nonce ct s plaintext : Bytes}
    (hk : key.length = 16 ∨ key.length = 24 ∨ key.length = 32) (hkb : IsBytes key)
    (hn : nonce.length = 12) (hnb : IsBytes nonce) (hcb : IsBytes ct)
    (hs : (hexDecodeString s).1 = [])
    (hseal : (newGCM (newCipher key)).seal nonce plaintext [] = .ok ct) :
    decryptAES key (hexEncodeToString nonce ++ (hexEncodeToString ct ++ s))
      = .ret plaintext none := by
  rw [decryptAES_of_key _ hk (by
    rw [List.length_append, hexEncodeToString_length, hn]; omega)]
  rw [take_envelope _ _ hn, drop_envelope _ _ hn, hexDecodeString_encode _ hnb,
    hexDecodeString_encode_append _ _ hcb, hs, List.append_nil]
  have hwf : (newGCM (newCipher key)).cipher.WF := newCipher_wf hkb hk
  simp only [open_seal _ hwf nonce plaintext [] ct hn hnb hseal]

/-! ## The model against published test vectors -/

/-- FIPS 197, appendix C.1: AES-128. -/
theorem aes128_fips197 :
    hexEncodeToString ((newCipher (List.range 16)).encrypt ((List.range 16).map (· * 17)))
      = (str "69c4e0d86a7b0430d8cdb78070b4c55a") := by
  decide!

/-- FIPS 197, appendix C.2: AES-192. -/
theorem aes192_fips197 :
    hexEncodeToString ((newCipher (List.range 24)).encrypt ((List.range 16).map (· * 17)))
      = (str "dda97ca4864cdfe06eaf70a0ec0d7191") := by
  decide!

/-- FIPS 197, appendix C.3: AES-256. -/
theorem aes256_fips197 :
    hexEncodeToString ((newCipher (List.range 32)).encrypt ((List.range 16).map (· * 17)))
      = (str "8ea2b7ca516745bfeafc49904b496089") := by
  decide!

/-- The GCM specification, test case 2: zero key, zero nonce, one zero block. -/
theorem gcm_test_case_2 :
    (encryptAES (List.replicate 16 0) (List.replicate 16 0) (List.replicate 12 0)).1
      = .ret (str ("000000000000000000000000" ++ "0388dace60b6a392f328c2b971b2fe78"
          ++ "ab6e47d42cec13bdf53a67b21257bddf")) none := by
  decide!

/-- The output of `openssl enc -aes-128-cfb` on the handler's data, under the key of
`generateKey` and the IV `00 01 .. 0f`. -/
theorem cfb_openssl :
    (encryptData (str "Hello, World! This is a test string for encryption.") generateKey
        (List.range 16)).1
      = .ret (str ("000102030405060708090a0b0c0d0e0f"
          ++ "a804751e68f50a65f9913f9c6bf367e3cb50a8779e9786c6faa4deb4d8d9937a"
          ++ "83831455c69c1c8f64042ca67c740fcd7a5958")) none := by
  decide!

/-! ## The AEAD engine: `encryptAES` and `decryptAES` -/

/-- C1 (AEAD round trip): for every key of 16, 24 or 32 bytes, every plaintext `m` (the
empty one included) and every random source, when `encryptAES key m` returns the envelope
`e`, `decryptAES key e` returns `m` and no error. -/
theorem decryptAES_encryptAES (key m rand e : Bytes)
    (hk : key.length = 16 ∨ key.length = 24 ∨ key.length = 32) (hkb : IsBytes key)
    (hm : IsBytes m) (hr : IsBytes rand)
    (he : (encryptAES key m rand).1 = .ret e none) :
    decryptAES key e = .ret m none := by
  obtain ⟨hlen, ct, hseal, rfl⟩ := encryptAES_ret hk he
  have hn : (rand.take 12).length = 12 := by rw [List.length_take]; omega
  have hnb : IsBytes (rand.take 12) := isBytes_take 12 hr
  have hcb : IsBytes ct :=
    isBytes_seal _ (newCipher_wf hkb hk) _ m [] ct hn hnb hm hseal
  have h := decryptAES_envelope (s := []) hk hkb hn hnb hcb rfl hseal
  rwa [List.append_nil] at h

/-- Scenario A: the 32-byte zero key and "Hello, world!", with a zero nonce. -/
theorem decryptAES_encryptAES_witness :
    (encryptAES (List.replicate 32 0) (str "Hello, world!") (List.replicate 12 0)).1
      = .ret (str ("00000000000000000000000086c22c51224c4b19683ca9b79ba1d423"
          ++ "0928907330420d168e128f4a3a")) none
    ∧ decryptAES (List.replicate 32 0)
        (str ("00000000000000000000000086c22c51224c4b19683ca9b79ba1d423"
          ++ "0928907330420d168e128f4a3a"))
      = .ret (str "Hello, world!") none :=
  ⟨by decide!,
   decryptAES_encryptAES (List.replicate 32 0) (str "Hello, world!") (List.replicate 12 0) _
    (by decide) (by decide) (by decide) (by decide) (by decide!)⟩

/-- C3 (short envelope): with the 32-byte zero key, `decryptAES` on the ten-character
envelope "0123456789" panics on the slice `ciphertext[:24]`; it returns no error value. -/
theorem decryptAES_short_envelope_panics :
    decryptAES (List.replicate 32 0) (str "0123456789") = .panic (.sliceBounds 24 10) := by
  decide

/-- C6 (key-size validation): with a random source that delivers the nonce, `encryptAES`
returns an error, and then the empty string, exactly when the key is not 16, 24 or 32 bytes
long; for such a key it returns `KeySizeError` whatever the random source holds and reads
nothing from it, and `decryptAES` returns the same error on every envelope. -/
theorem encryptAES_keySize (key m rand : Bytes) :
    (12 ≤ rand.length →
      ((∃ err, (encryptAES key m rand).1 = .ret [] (some err))
        ↔ ¬(key.length = 16 ∨ key.length = 24 ∨ key.length = 32)))
    ∧ (∀ v err, (encryptAES key m rand).1 = .ret v (some err) → v = [])
    ∧ (¬(key.length = 16 ∨ key.length = 24 ∨ key.length = 32) →
        encryptAES key m rand = (.ret [] (some (.keySize key.length)), rand)
        ∧ ∀ e, decryptAES key e = .ret [] (some (.keySize key.length))) := by
  refine ⟨?_, ?_, ?_⟩
  · intro hr
    constructor
    · rintro ⟨err, h⟩ hk
      rw [encryptAES_of_key m rand hk hr] at h
      cases hs : (newGCM (newCipher key)).seal (rand.take 12) m [] with
      | error p => rw [hs] at h; cases h
      | ok ct => rw [hs] at h; injection h with _ h2; cases h2
    · intro hk
      exact ⟨_, by rw [encryptAES_badKey m rand hk]⟩
  · intro v err h
    by_cases hk : key.length = 16 ∨ key.length = 24 ∨ key.length = 32
    · by_cases hr : 12 ≤ rand.length
      · rw [encryptAES_of_key m rand hk hr] at h
        cases hs : (newGCM (newCipher key)).seal (rand.take 12) m [] with
        | error p => rw [hs] at h; cases h
        | ok ct => rw [hs] at h; injection h with _ h2; cases h2
      · obtain ⟨err2, he⟩ := encryptAES_readError m rand hk (by omega)
        rw [he] at h
        injection h with h1 _
        exact h1.symm
    · rw [encryptAES_badKey m rand hk] at h
      injection h with h1 _
      exact h1.symm
  · intro hk
    exact ⟨encryptAES_badKey m rand hk, fun e => decryptAES_badKey e hk⟩

theorem seal_ok_inv (g : GCM) (nonce plaintext data sealed : Bytes) (hn : nonce.length = 12)
    (h : g.seal nonce plaintext data = .ok sealed) :
    plaintext.length ≤ gcmMaxPlaintext
    ∧ sealed = g.counterCrypt plaintext.length plaintext (gcmInc32 (deriveCounter nonce))
        ++ g.auth (g.counterCrypt plaintext.length plaintext (gcmInc32 (deriveCounter nonce)))
            data (g.cipher.encrypt (deriveCounter nonce)) := by
  by_cases hp : plaintext.length ≤ gcmMaxPlaintext
  · rw [seal_eq g nonce plaintext data hn hp] at h
    injection h with h
    exact ⟨hp, h.symm⟩
  · rw [seal_tooLarge g nonce plaintext data hn (by omega)] at h
    cases h

/-- Decryption of a lower-case envelope `hex(nonce) ++ hex(c)`. -/
theorem decryptAES_hex {key : Bytes} (nonce c : Bytes)
    (hk : key.length = 16 ∨ key.length = 24 ∨ key.length = 32)
    (hn : nonce.length = 12) (hnb : IsBytes nonce) (hcb : IsBytes c) :
    decryptAES key (hexEncodeToString nonce ++ hexEncodeToString c)
      = match (newGCM (newCipher key)).open nonce c [] with
        | .panic p => .panic p
        | .ret _ (some err) => .ret [] (some err)
        | .ret plaintextBytes none => .ret plaintextBytes none := by
  rw [decryptAES_of_key _ hk (by rw [List.length_append, hexEncodeToString_length, hn]; omega),
    take_envelope _ _ hn, drop_envelope _ _ hn, hexDecodeString_encode _ hnb,
    hexDecodeString_encode _ hcb]

/-- The parts of an envelope `hex(nonce) ++ hex(ct ++ tag)`. -/
theorem envelope_parts (nonce ct tag : Bytes) (hn : nonce.length = 12) (hnb : IsBytes nonce)
    (hcb : IsBytes ct) (ht : tag.length = 16) (htb : IsBytes tag) :
    envelopeNonce (hexEncodeToString nonce ++ hexEncodeToString (ct ++ tag)) = nonce
    ∧ envelopeCiphertext (hexEncodeToString nonce ++ hexEncodeToString (ct ++ tag)) = ct
    ∧ envelopeTag (hexEncodeToString nonce ++ hexEncodeToString (ct ++ tag)) = tag := by
  have hl : (ct ++ tag).length - 16 = ct.length := by rw [List.length_append, ht]; omega
  unfold envelopeNonce envelopeCiphertext envelopeTag
  rw [take_envelope _ _ hn, drop_envelope _ _ hn, hexDecodeString_encode _ hnb,
    hexDecodeString_encode _ (isBytes_append.2 ⟨hcb, htb⟩), hl]
  refine ⟨rfl, ?_, ?_⟩
  · rw [List.take_append_of_le_length (le_refl _), List.take_of_length_le (le_refl _)]
  · rw [List.drop_append_of_le_length (le_refl _), List.drop_of_length_le (le_refl _),
      List.nil_append]

theorem hexDecodeString_length_le : ∀ s : Bytes, 2 * (hexDecodeString s).1.length ≤ s.length
  | [] => by simp [hexDecodeString]
  | [c] => by
    unfold hexDecodeString
    split <;> simp
  | p :: q :: rest => by
    have ih := hexDecodeString_length_le rest
    unfold hexDecodeString
    split
    · simp
    · split
      · simp
      · simp only [List.length_cons]
        omega

/-- An envelope that encodes a 12-byte nonce has at least 24 characters. -/
theorem length_of_envelopeNonce {e : Bytes} (h : (envelopeNonce e).length = 12) :
    24 ≤ e.length := by
  have h1 := hexDecodeString_length_le (e.take 24)
  unfold envelopeNonce at h
  rw [h, List.length_take] at h1
  omega

/-- Function `decryptAES` sees an envelope only through the nonce, the ciphertext and the
tag it decodes to. -/
theorem decryptAES_of_parts {key : Bytes} (e nonce ct tag : Bytes)
    (hk : key.length = 16 ∨ key.length = 24 ∨ key.length = 32)
    (hnl : nonce.length = 12)
    (hn : envelopeNonce e = nonce) (hc : envelopeCiphertext e = ct)
    (ht : envelopeTag e = tag) :
    decryptAES key e
      = match (newGCM (newCipher key)).open nonce (ct ++ tag) [] with
        | .panic p => .panic p
        | .ret _ (some err) => .ret [] (some err)
        | .ret plaintextBytes none => .ret plaintextBytes none := by
  have h24 : 24 ≤ e.length := length_of_envelopeNonce (by rw [hn, hnl])
  have hd : (hexDecodeString (e.drop 24)).1 = ct ++ tag := by
    rw [← hc, ← ht]
    unfold envelopeCiphertext envelopeTag
    rw [List.take_append_drop]
  rw [decryptAES_of_key _ hk h24, hd]
  unfold envelopeNonce at hn
  rw [hn]

/-- With a zero hash subkey the tag does not depend on the ciphertext. -/
theorem gcmMulLoop_zero (x : Nat) : ∀ k, gcmMulLoop x k 0 0 = 0
  | 0 => rfl
  | k + 1 => by
    rw [gcmMulLoop]
    simp only [Nat.zero_mod, if_true, Nat.zero_div, Nat.xor_self, ite_self]
    exact gcmMulLoop_zero x k

theorem auth_of_zero_subkey (g : GCM) (h0 : g.h = 0) (ct1 ct2 data tagMask : Bytes) :
    g.auth ct1 data tagMask = g.auth ct2 data tagMask := by
  unfold GCM.auth
  simp only [h0, gcmMul, gcmMulLoop_zero]

/-- A key whose hash subkey is zero authenticates nothing: the envelope with a bit of the
ciphertext flipped is opened, and a plaintext other than the original is returned. -/
theorem decryptAES_zero_subkey_accepts (key m rand e : Bytes)
    (hk : key.length = 16 ∨ key.length = 24 ∨ key.length = 32) (hkb : IsBytes key)
    (hm : IsBytes m) (hr : IsBytes rand)
    (he : (encryptAES key m rand).1 = .ret e none)
    (h0 : beToNat ((newCipher key).encrypt (List.replicate 16 0)) = 0)
    (e2 : Bytes) (i j : Nat) (hi : i < m.length)
    (hn2 : envelopeNonce e2 = envelopeNonce e)
    (hc2 : envelopeCiphertext e2 = flipBit (envelopeCiphertext e) i j)
    (ht2 : envelopeTag e2 = envelopeTag e) :
    ∃ p, p ≠ m ∧ decryptAES key e2 = .ret p none := by
  obtain ⟨hlen, sealed, hseal, rfl⟩ := encryptAES_ret hk he
  have hn : (rand.take 12).length = 12 := by rw [List.length_take]; omega
  have hnb : IsBytes (rand.take 12) := isBytes_take 12 hr
  have hwf : (newGCM (newCipher key)).cipher.WF := newCipher_wf hkb hk
  obtain ⟨hmax, rfl⟩ := seal_ok_inv _ _ _ _ _ hn hseal
  have hctr := isBlock_deriveCounter hn hnb
  have hcl := counterCrypt_length _ hwf _ m _ (isBlock_gcmInc32 hctr) (le_refl _)
  have hcb := isBytes_counterCrypt _ hwf m.length m _ (isBlock_gcmInc32 hctr) hm
  have htl := auth_length (newGCM (newCipher key))
    ((newGCM (newCipher key)).counterCrypt m.length m (gcmInc32 (deriveCounter (rand.take 12))))
    [] _ (isBlock_encrypt hwf hctr).1
  have htb := isBytes_auth (newGCM (newCipher key))
    ((newGCM (newCipher key)).counterCrypt m.length m (gcmInc32 (deriveCounter (rand.take 12))))
    [] _ (isBlock_encrypt hwf hctr).2
  obtain ⟨p1, p2, p3⟩ := envelope_parts _ _ _ hn hnb hcb htl htb
  rw [p1] at hn2
  rw [p2] at hc2
  rw [p3] at ht2
  rw [decryptAES_of_parts e2 _ _ _ hk hn hn2 hc2 ht2,
    open_append _ _ _ _ _ hn htl (by rw [flipBit_length, hcl]; exact hmax),
    if_neg (by
      rw [not_not]
      exact auth_of_zero_subkey _ h0 _ _ _ _)]
  refine ⟨_, ?_, rfl⟩
  intro hp
  have h1 := counterCrypt_counterCrypt _ hwf m.length
    (flipBit ((newGCM (newCipher key)).counterCrypt m.length m
      (gcmInc32 (deriveCounter (rand.take 12)))) i j)
    (gcmInc32 (deriveCounter (rand.take 12))) (isBlock_gcmInc32 hctr)
    (by rw [flipBit_length, hcl])
  rw [flipBit_length, hcl] at hp
  rw [hp] at h1
  exact flipBit_ne (by rw [hcl]; exact hi) j h1.symm

/-- C2 (AEAD tamper detection): for every key of 16, 24 or 32 bytes and every envelope `e`
that `encryptAES` returns under it, `e` encodes a 12-byte nonce, a ciphertext as long as
the plaintext and a 16-byte tag, and on every envelope `e2` that encodes the same three
byte strings but for one flipped bit, `decryptAES` under the same key returns the
authentication error and the empty string: for a bit of the nonce and for a bit of the tag
under every key, for a bit of the ciphertext under every key whose hash subkey, the
encryption of the zero block, is not zero; and under every key it never returns the
original plaintext. -/
theorem decryptAES_tamper (key m rand e : Bytes)
    (hk : key.length = 16 ∨ key.length = 24 ∨ key.length = 32) (hkb : IsBytes key)
    (hm : IsBytes m) (hr : IsBytes rand)
    (he : (encryptAES key m rand).1 = .ret e none) :
    e = hexEncodeToString (envelopeNonce e)
          ++ hexEncodeToString (envelopeCiphertext e ++ envelopeTag e)
    ∧ (envelopeNonce e).length = 12 ∧ (envelopeCiphertext e).length = m.length
    ∧ (envelopeTag e).length = 16
    ∧ ∀ (e2 : Bytes) (i j : Nat), j < 8 →
        (i < 12 → envelopeNonce e2 = flipBit (envelopeNonce e) i j →
          envelopeCiphertext e2 = envelopeCiphertext e → envelopeTag e2 = envelopeTag e →
          decryptAES key e2 = .ret [] (some .authFailed))
        ∧ (i < 16 → envelopeNonce e2 = envelopeNonce e →
          envelopeCiphertext e2 = envelopeCiphertext e →
          envelopeTag e2 = flipBit (envelopeTag e) i j →
          decryptAES key e2 = .ret [] (some .authFailed))
        ∧ (i < m.length → envelopeNonce e2 = envelopeNonce e →
          envelopeCiphertext e2 = flipBit (envelopeCiphertext e) i j →
          envelopeTag e2 = envelopeTag e →
          decryptAES key e2 ≠ .ret m none
          ∧ (beToNat ((newCipher key).encrypt (List.replicate 16 0)) ≠ 0 →
              decryptAES key e2 = .ret [] (some .authFailed))) := by
  obtain ⟨hlen, sealed, hseal, rfl⟩ := encryptAES_ret hk he
  have hn : (rand.take 12).length = 12 := by rw [List.length_take]; omega
  have hnb : IsBytes (rand.take 12) := isBytes_take 12 hr
  have hwf : (newGCM (newCipher key)).cipher.WF := newCipher_wf hkb hk
  obtain ⟨hmax, rfl⟩ := seal_ok_inv _ _ _ _ _ hn hseal
  have hctr := isBlock_deriveCounter hn hnb
  have hcl := counterCrypt_length _ hwf _ m _ (isBlock_gcmInc32 hctr) (le_refl _)
  have hcb := isBytes_counterCrypt _ hwf m.length m _ (isBlock_gcmInc32 hctr) hm
  have htl := auth_length (newGCM (newCipher key))
    ((newGCM (newCipher key)).counterCrypt m.length m (gcmInc32 (deriveCounter (rand.take 12))))
    [] _ (isBlock_encrypt hwf hctr).1
  have htb := isBytes_auth (newGCM (newCipher key))
    ((newGCM (newCipher key)).counterCrypt m.length m (gcmInc32 (deriveCounter (rand.take 12))))
    [] _ (isBlock_encrypt hwf hctr).2
  obtain ⟨p1, p2, p3⟩ := envelope_parts _ _ _ hn hnb hcb htl htb
  rw [p1, p2, p3]
  refine ⟨rfl, hn, hcl, htl, fun e2 i j hj => ⟨?_, ?_, ?_⟩⟩
  · intro hi hn2 hc2 ht2
    rw [decryptAES_of_parts e2 _ _ _ hk (by rw [flipBit_length, hn]) hn2 hc2 ht2,
      open_wrong_tag _ _ _ _ _ (by rw [flipBit_length, hn]) htl (by rw [hcl]; exact hmax)
        (auth_nonce_ne _ hwf _ _ hn hnb (by rw [flipBit_length, hn])
          (isBytes_flipBit hnb i hj) (fun h => flipBit_ne (by rw [hn]; exact hi) j h.symm))]
  · intro hi hn2 hc2 ht2
    rw [decryptAES_of_parts e2 _ _ _ hk hn hn2 hc2 ht2,
      open_wrong_tag _ _ _ _ _ hn (by rw [flipBit_length, htl]) (by rw [hcl]; exact hmax)
        (flipBit_ne (by rw [htl]; exact hi) j)]
  · intro hi hn2 hc2 ht2
    rw [decryptAES_of_parts e2 _ _ _ hk hn hn2 hc2 ht2,
      open_append _ _ _ _ _ hn htl (by rw [flipBit_length, hcl]; exact hmax)]
    refine ⟨?_, ?_⟩
    · split_ifs with ha
      · simp
      · intro hp
        simp only [Outcome.ret.injEq, and_true] at hp
        have h1 := counterCrypt_counterCrypt _ hwf m.length
          (flipBit ((newGCM (newCipher key)).counterCrypt m.length m
            (gcmInc32 (deriveCounter (rand.take 12)))) i j)
          (gcmInc32 (deriveCounter (rand.take 12))) (isBlock_gcmInc32 hctr)
          (by rw [flipBit_length, hcl])
        rw [flipBit_length, hcl] at hp
        rw [hp] at h1
        exact flipBit_ne (by rw [hcl]; exact hi) j h1.symm
    · intro hH
      have hne := auth_flipBit_ne (newGCM (newCipher key)) (newGCM_h_lt hwf) hH
        ((newGCM (newCipher key)).counterCrypt m.length m
          (gcmInc32 (deriveCounter (rand.take 12))))
        [] ((newGCM (newCipher key)).cipher.encrypt (deriveCounter (rand.take 12))) hcb
        (isBlock_encrypt hwf hctr).1 (by rw [hcl]; exact hi) hj
      rw [if_pos hne]

/-- Scenario A, the envelope of "Hello, world!" under the zero key and nonce: with bit 0
of the first nonce byte flipped, with bit 0 of the last tag byte flipped (written in
upper case), and with bit 0 of the first ciphertext byte flipped, the hash subkey of the
zero key not being zero, `decryptAES` returns the authentication error. -/
theorem decryptAES_tamper_witness :
    decryptAES (List.replicate 32 0)
        (str ("01000000000000000000000086c22c51224c4b19683ca9b79ba1d423"
          ++ "0928907330420d168e128f4a3a"))
      = .ret [] (some .authFailed)
    ∧ decryptAES (List.replicate 32 0)
        (str ("00000000000000000000000086C22C51224C4B19683CA9B79BA1D423"
          ++ "0928907330420D168E128F4A3B"))
      = .ret [] (some .authFailed)
    ∧ decryptAES (List.replicate 32 0)
        (str ("00000000000000000000000087c22c51224c4b19683ca9b79ba1d423"
          ++ "0928907330420d168e128f4a3a"))
      = .ret [] (some .authFailed) := by
  have h := (decryptAES_tamper (List.replicate 32 0) (str "Hello, world!")
    (List.replicate 12 0)
    (str ("00000000000000000000000086c22c51224c4b19683ca9b79ba1d423"
      ++ "0928907330420d168e128f4a3a"))
    (by decide) (by decide) (by decide) (by decide) (by decide!)).2.2.2.2
  exact ⟨(h _ 0 0 (by decide)).1 (by decide) (by decide!) (by decide!) (by decide!),
    (h _ 15 0 (by decide)).2.1 (by decide) (by decide!) (by decide!) (by decide!),
    ((h _ 0 0 (by decide)).2.2 (by decide) (by decide!) (by decide!) (by decide!)).2
      (by decide!)⟩

theorem open_cases (g : GCM) (nonce ct data : Bytes) (hn : nonce.length = 12) :
    g.open nonce ct data = .ret [] (some .authFailed) ∨ ∃ pt, g.open nonce ct data = .ret pt none := by
  unfold GCM.open
  rw [if_neg (by rw [hn]; decide)]
  split
  · exact Or.inl rfl
  · split
    · exact Or.inl rfl
    · simp only
      split
      · exact Or.inl rfl
      · exact Or.inr ⟨_, rfl⟩

theorem open_short (g : GCM) (nonce ct data : Bytes) (hn : nonce.length = 12)
    (hc : ct.length < 16) : g.open nonce ct data = .ret [] (some .authFailed) := by
  unfold GCM.open
  rw [if_neg (by rw [hn]; decide), if_pos (by unfold gcmTagSize; exact hc)]

/-- C4, as stated, fails: the envelope of Scenario A followed by the character `g` is at
least 24 characters long and is not valid hexadecimal (`hex.DecodeString` reports the
invalid byte), yet `decryptAES` returns the plaintext and no error. -/
theorem decryptAES_invalid_hex_returns_plaintext :
    24 ≤ (str ("00000000000000000000000086c22c51224c4b19683ca9b79ba1d423"
        ++ "0928907330420d168e128f4a3ag")).length
    ∧ (hexDecodeString (str ("00000000000000000000000086c22c51224c4b19683ca9b79ba1d423"
        ++ "0928907330420d168e128f4a3ag"))).2 = some (.hexInvalidByte 103)
    ∧ decryptAES (List.replicate 32 0)
        (str ("00000000000000000000000086c22c51224c4b19683ca9b79ba1d423"
          ++ "0928907330420d168e128f4a3ag"))
      = .ret (str "Hello, world!") none := by
  decide!

/-- C4 (invalid hex), amended to what `decryptAES` does with the decoding errors it drops:
for every key of 16, 24 or 32 bytes and every envelope of at least 24 characters whose
first 24 characters are hexadecimal, valid hexadecimal after that or not, `decryptAES`
returns either the authentication error of AES-GCM or a plaintext, and the authentication
error whenever fewer than 16 bytes decode from the remainder; its result is the one on
the envelope cut at the first character pair that does not decode. -/
theorem decryptAES_ignores_hex_errors (key env : Bytes)
    (hk : key.length = 16 ∨ key.length = 24 ∨ key.length = 32) (hlen : 24 ≤ env.length)
    (hnonce : ∀ c ∈ env.take 24, (fromHexChar c).isSome) :
    (decryptAES key env = .ret [] (some .authFailed) ∨ ∃ pt, decryptAES key env = .ret pt none)
    ∧ ((hexDecodeString (env.drop 24)).1.length < 16 →
        decryptAES key env = .ret [] (some .authFailed))
    ∧ decryptAES key env
        = decryptAES key (env.take 24 ++ hexEncodeToString (hexDecodeString (env.drop 24)).1) := by
  have ht : (env.take 24).length = 24 := by rw [List.length_take]; omega
  have hn : (hexDecodeString (env.take 24)).1.length = 12 :=
    hexDecodeString_length 12 _ ht hnonce
  refine ⟨?_, ?_, ?_⟩
  · rw [decryptAES_of_key env hk hlen]
    rcases open_cases (newGCM (newCipher key)) _ (hexDecodeString (env.drop 24)).1 [] hn with
      h | ⟨pt, h⟩
    · rw [h]; exact Or.inl rfl
    · rw [h]; exact Or.inr ⟨pt, rfl⟩
  · intro hs
    rw [decryptAES_of_key env hk hlen, open_short _ _ _ _ hn hs]
  · have h1 : (env.take 24 ++ hexEncodeToString (hexDecodeString (env.drop 24)).1).take 24
        = env.take 24 := by
      rw [List.take_append_of_le_length (by rw [ht]), List.take_of_length_le (by rw [ht])]
    have h2 : (env.take 24 ++ hexEncodeToString (hexDecodeString (env.drop 24)).1).drop 24
        = hexEncodeToString (hexDecodeString (env.drop 24)).1 := by
      rw [List.drop_append_of_le_length (by rw [ht]), List.drop_of_length_le (by rw [ht]),
        List.nil_append]
    rw [decryptAES_of_key env hk hlen,
      decryptAES_of_key _ hk (by rw [List.length_append, ht]; omega), h1, h2,
      hexDecodeString_encode _ (isBytes_hexDecodeString _)]

/-- The 32-byte zero key and the 26-character envelope "012345678901234567890123zz",
whose remainder decodes to nothing. -/
theorem decryptAES_ignores_hex_errors_witness :
    decryptAES (List.replicate 32 0) (str "012345678901234567890123zz")
      = .ret [] (some .authFailed) :=
  (decryptAES_ignores_hex_errors (List.replicate 32 0) (str "012345678901234567890123zz")
    (by decide) (by decide) (by decide)).2.1 (by decide)

/-- C5, as stated, fails: on a plaintext one byte above the GCM limit of
`(2^32 - 2) * 16` bytes, `encryptAES` panics in `Seal` and returns no string. -/
theorem encryptAES_tooLarge_panics :
    (encryptAES (List.replicate 16 0) (List.replicate (gcmMaxPlaintext + 1) 0)
      (List.replicate 12 0)).1 = .panic .gcmMessageTooLarge := by
  rw [encryptAES_of_key _ _ (by simp) (by simp),
    seal_tooLarge _ _ _ _ (by simp) (by simp)]

/-- C5 (AEAD envelope wire format), amended with the GCM limit: for every key of 16, 24
or 32 bytes, every plaintext `m` of at most `(2^32 - 2) * 16` bytes and every 12-byte nonce
read from the random source, `encryptAES` returns no error and the string
`hex(nonce) ++ hex(ct ++ tag)`, where `ct ++ tag` is what AES-GCM `Seal` returns for that
nonce, `m` and no associated data, `ct` as long as `m` and `tag` 16 bytes long; the string is
made of the characters `0-9` and `a-f` only, is `24 + 2 * (len m + 16)` characters long, its
first 24 characters are the hex encoding of the nonce and the rest the hex encoding of
`ct ++ tag`. -/
theorem encryptAES_envelope (key m rand : Bytes)
    (hk : key.length = 16 ∨ key.length = 24 ∨ key.length = 32) (hkb : IsBytes key)
    (hr : 12 ≤ rand.length) (hrb : IsBytes rand) (hm : m.length ≤ gcmMaxPlaintext) :
    ∃ ct tag e, (newGCM (newCipher key)).seal (rand.take 12) m [] = .ok (ct ++ tag)
      ∧ ct.length = m.length ∧ tag.length = 16
      ∧ encryptAES key m rand = (.ret e none, rand.drop 12)
      ∧ e = hexEncodeToString (rand.take 12) ++ hexEncodeToString (ct ++ tag)
      ∧ (∀ c ∈ e, IsHexLower c)
      ∧ e.length = 24 + 2 * (m.length + 16)
      ∧ e.take 24 = hexEncodeToString (rand.take 12)
      ∧ e.drop 24 = hexEncodeToString (ct ++ tag) := by
  have hn : (rand.take 12).length = 12 := by rw [List.length_take]; omega
  have hctr := isBlock_deriveCounter hn (isBytes_take 12 hrb)
  have hwf : (newGCM (newCipher key)).cipher.WF := newCipher_wf hkb hk
  have hseal := seal_eq (newGCM (newCipher key)) (rand.take 12) m [] hn hm
  have hcl := counterCrypt_length _ hwf _ m _ (isBlock_gcmInc32 hctr) (le_refl _)
  have htl := auth_length (newGCM (newCipher key))
    ((newGCM (newCipher key)).counterCrypt m.length m (gcmInc32 (deriveCounter (rand.take 12))))
    [] _ (isBlock_encrypt hwf hctr).1
  refine ⟨_, _, _, hseal, hcl, htl, ?_, rfl, ?_, ?_, take_envelope _ _ hn, drop_envelope _ _ hn⟩
  · rw [encryptAES_of_key m rand hk hr, hseal]
  · intro c hc
    rcases List.mem_append.1 hc with h | h
    · exact hexEncodeToString_lower _ c h
    · exact hexEncodeToString_lower _ c h
  · rw [List.length_append, hexEncodeToString_length, hexEncodeToString_length,
      List.length_append, hn, hcl, htl]

/-- The envelope of Scenario A has the stated shape. -/
theorem encryptAES_envelope_witness :
    ∃ ct tag e, (newGCM (newCipher (List.replicate 32 0))).seal
          ((List.replicate 12 0).take 12) (str "Hello, world!") [] = .ok (ct ++ tag)
      ∧ ct.length = (str "Hello, world!").length ∧ tag.length = 16
      ∧ encryptAES (List.replicate 32 0) (str "Hello, world!") (List.replicate 12 0)
          = (.ret e none, (List.replicate 12 0).drop 12)
      ∧ e = hexEncodeToString ((List.replicate 12 0).take 12) ++ hexEncodeToString (ct ++ tag)
      ∧ (∀ c ∈ e, IsHexLower c)
      ∧ e.length = 24 + 2 * ((str "Hello, world!").length + 16)
      ∧ e.take 24 = hexEncodeToString ((List.replicate 12 0).take 12)
      ∧ e.drop 24 = hexEncodeToString (ct ++ tag) :=
  encryptAES_envelope (List.replicate 32 0) (str "Hello, world!") (List.replicate 12 0)
    (by decide) (by decide) (by decide) (by decide) (by decide)

/-- C10 (envelope decoding is not canonical): for every key of 16, 24 or 32 bytes and
every envelope `e` that `encryptAES` returns for a plaintext `m`, `decryptAES` returns `m`
and no error on `e ++ s` for every `s` that is one character or starts with a character
that is not hexadecimal, although `hex.DecodeString` reports an error on it; and it returns
`m` on `e` with any one letter `a-f` replaced by its upper-case form. -/
theorem decryptAES_not_canonical (key m rand e : Bytes)
    (hk : key.length = 16 ∨ key.length = 24 ∨ key.length = 32) (hkb : IsBytes key)
    (hm : IsBytes m) (hr : IsBytes rand)
    (he : (encryptAES key m rand).1 = .ret e none) :
    (∀ s, (s.length = 1 ∨ ∃ c rest, s = c :: rest ∧ fromHexChar c = none) →
      (hexDecodeString ((e ++ s).drop 24)).2 ≠ none ∧ decryptAES key (e ++ s) = .ret m none)
    ∧ (∀ i, 97 ≤ e.getD i 0 ∧ e.getD i 0 ≤ 102 →
      decryptAES key (e.set i (e.getD i 0 - 32)) = .ret m none) := by
  obtain ⟨hlen, ct, hseal, rfl⟩ := encryptAES_ret hk he
  have hn : (rand.take 12).length = 12 := by rw [List.length_take]; omega
  have hnb : IsBytes (rand.take 12) := isBytes_take 12 hr
  have hcb : IsBytes ct :=
    isBytes_seal _ (newCipher_wf hkb hk) _ m [] ct hn hnb hm hseal
  constructor
  · intro s hs
    have hg := hexDecodeString_garbage s hs
    rw [List.append_assoc]
    refine ⟨?_, decryptAES_envelope hk hkb hn hnb hcb hg.1 hseal⟩
    rw [drop_envelope _ _ hn, hexDecodeString_encode_append _ _ hcb]
    exact hg.2
  · intro i hi
    rw [← decryptAES_congr key _ _ (forall₂_sameHex_set _ i _ (sameHex_upper hi))]
    have h := decryptAES_envelope (s := []) hk hkb hn hnb hcb rfl hseal
    rwa [List.append_nil] at h

/-- The envelope of Scenario A followed by "z", and with its letter `c` at index 26 in
upper case. -/
theorem decryptAES_not_canonical_witness :
    decryptAES (List.replicate 32 0)
        (str ("00000000000000000000000086c22c51224c4b19683ca9b79ba1d423"
          ++ "0928907330420d168e128f4a3a") ++ str "z")
      = .ret (str "Hello, world!") none
    ∧ decryptAES (List.replicate 32 0)
        (str ("00000000000000000000000086C22c51224c4b19683ca9b79ba1d423"
          ++ "0928907330420d168e128f4a3a"))
      = .ret (str "Hello, world!") none := by
  have h := decryptAES_not_canonical (List.replicate 32 0) (str "Hello, world!")
    (List.replicate 12 0)
    (str ("00000000000000000000000086c22c51224c4b19683ca9b79ba1d423"
      ++ "0928907330420d168e128f4a3a"))
    (by decide) (by decide) (by decide) (by decide) (by decide!)
  have hu : str ("00000000000000000000000086C22c51224c4b19683ca9b79ba1d423"
        ++ "0928907330420d168e128f4a3a")
      = (str ("00000000000000000000000086c22c51224c4b19683ca9b79ba1d423"
        ++ "0928907330420d168e128f4a3a")).set 26
          ((str ("00000000000000000000000086c22c51224c4b19683ca9b79ba1d423"
            ++ "0928907330420d168e128f4a3a")).getD 26 0 - 32) := by decide!
  rw [hu]
  exact ⟨(h.1 (str "z") (Or.inl (by decide))).2, h.2 26 (by decide!)⟩

/-! ## The legacy streaming cipher: `encryptData` -/

theorem cfbEncrypt_length (b : AESCipher) (hb : b.WF) : ∀ (n : Nat) (prev p : Bytes),
    IsBlock prev → IsBytes p → p.length ≤ n → (cfbEncrypt b n prev p).length = p.length
  | 0, _, p, _, _, hn => by
    have : p.length = 0 := by omega
    simp [cfbEncrypt, this]
  | n + 1, prev, p, hprev, hp, hn => by
    rw [cfbEncrypt]
    split
    · rename_i h0; simp [h0]
    · rename_i h0
      have hk := isBlock_encrypt hb hprev
      have hlen : (xorBytes (p.take 16) (b.encrypt prev)).length = min 16 p.length := by
        rw [xorBytes_length, hk.1, List.length_take]; omega
      by_cases h16 : 16 ≤ p.length
      · have hc : IsBlock (xorBytes (p.take 16) (b.encrypt prev)) :=
          ⟨by rw [hlen]; omega, isBytes_xorBytes (isBytes_take 16 hp) hk.2⟩
        have ih := cfbEncrypt_length b hb n _ (p.drop 16) hc (isBytes_drop 16 hp)
          (by simp; omega)
        simp only [List.length_append, hlen, ih, List.length_drop]
        omega
      · have hd : p.drop 16 = [] := List.drop_eq_nil_of_le (by omega)
        have hz : cfbEncrypt b n (xorBytes (p.take 16) (b.encrypt prev)) (p.drop 16) = [] := by
          rw [hd]; cases n <;> simp [cfbEncrypt]
        simp only [List.length_append, hlen, hz, List.length_nil]
        omega

/-- The stream of `cipher.NewCFBEncrypter` computes CFB mode. -/
theorem cfbXORKeyStream_eq (b : AESCipher) (hb : b.WF) : ∀ (n : Nat) (next src : Bytes),
    IsBlock next → IsBytes src → cfbXORKeyStream b n next src = cfbEncrypt b n next src
  | 0, _, _, _, _ => rfl
  | n + 1, next, src, hnext, hsrc => by
    rw [cfbXORKeyStream, cfbEncrypt]
    split
    · rfl
    · rename_i h0
      have hk := isBlock_encrypt hb hnext
      have hlen : (xorBytes (src.take 16) (b.encrypt next)).length = min 16 src.length := by
        rw [xorBytes_length, hk.1, List.length_take]; omega
      simp only
      by_cases h16 : 16 ≤ src.length
      · have hd : next.drop (xorBytes (src.take 16) (b.encrypt next)).length = [] :=
          List.drop_eq_nil_of_le (by rw [hlen, hnext.1]; omega)
        rw [hd, List.append_nil]
        have hc : IsBlock (xorBytes (src.take 16) (b.encrypt next)) :=
          ⟨by rw [hlen]; omega, isBytes_xorBytes (isBytes_take 16 hsrc) hk.2⟩
        rw [cfbXORKeyStream_eq b hb n _ (src.drop 16) hc (isBytes_drop 16 hsrc)]
      · have hd : src.drop 16 = [] := List.drop_eq_nil_of_le (by omega)
        rw [hd]
        cases n <;> simp [cfbXORKeyStream, cfbEncrypt]

/-- C7 (legacy envelope): the key of `generateKey` is 16 bytes long, and for every data
byte sequence, every key of 16, 24 or 32 bytes and a random source that delivers the
16-byte IV, `encryptData` returns no error and the lower-case hex string
`hex(iv) ++ hex(c)`, where `c` is the AES-CFB encryption of the data under the key and
the IV and is as long as the data: the string is `32 + 2 * len data` characters long, its
first 32 characters encode the IV and the rest encodes `c`, with no tag after it. -/
theorem encryptData_envelope (data key rand : Bytes)
    (hk : key.length = 16 ∨ key.length = 24 ∨ key.length = 32) (hkb : IsBytes key)
    (hd : IsBytes data) (hr : 16 ≤ rand.length) (hrb : IsBytes rand) :
    generateKey.length = 16
    ∧ ∃ e c, encryptData data key rand = (.ret e none, rand.drop 16)
      ∧ c = cfbEncrypt (newCipher key) data.length (rand.take 16) data
      ∧ c.length = data.length
      ∧ e = hexEncodeToString (rand.take 16) ++ hexEncodeToString c
      ∧ (∀ x ∈ e, IsHexLower x)
      ∧ e.length = 32 + 2 * data.length
      ∧ e.take 32 = hexEncodeToString (rand.take 16)
      ∧ e.drop 32 = hexEncodeToString c := by
  have hiv : (rand.take 16).length = 16 := by rw [List.length_take]; omega
  have hivb : IsBlock (rand.take 16) := ⟨hiv, isBytes_take 16 hrb⟩
  have hwf : (newCipher key).WF := newCipher_wf hkb hk
  have hcl := cfbEncrypt_length _ hwf data.length (rand.take 16) data hivb hd (le_refl _)
  have hhex : (hexEncodeToString (rand.take 16)).length = 32 := by
    rw [hexEncodeToString_length, hiv]
  refine ⟨by decide, _, _, ?_, rfl, hcl, rfl, ?_, ?_, ?_, ?_⟩
  · simp only [encryptData, aesNewCipher_ok hk, ioReadFull_ok hr, cipherNewCFBEncrypter,
      AESCipher.blockSize, hiv, ne_eq, not_true_eq_false, if_false, CFB.xorKeyStream,
      cfbXORKeyStream_eq _ hwf _ _ _ hivb hd, hexEncodeToString_append]
  · intro x hx
    rcases List.mem_append.1 hx with h | h
    · exact hexEncodeToString_lower _ x h
    · exact hexEncodeToString_lower _ x h
  · rw [List.length_append, hhex, hexEncodeToString_length, hcl]
  · rw [List.take_append_of_le_length (by rw [hhex]), List.take_of_length_le (by rw [hhex])]
  · rw [List.drop_append_of_le_length (by rw [hhex]), List.drop_of_length_le (by rw [hhex]),
      List.nil_append]

/-- The input of `BenchmarkEncryptDataSmall`, with the IV `0, 1, ..., 15`. -/
theorem encryptData_envelope_witness :
    generateKey.length = 16
    ∧ ∃ e c, encryptData (str "Short data") generateKey (List.range 16)
        = (.ret e none, (List.range 16).drop 16)
      ∧ c = cfbEncrypt (newCipher generateKey) (str "Short data").length
          ((List.range 16).take 16) (str "Short data")
      ∧ c.length = (str "Short data").length
      ∧ e = hexEncodeToString ((List.range 16).take 16) ++ hexEncodeToString c
      ∧ (∀ x ∈ e, IsHexLower x)
      ∧ e.length = 32 + 2 * (str "Short data").length
      ∧ e.take 32 = hexEncodeToString ((List.range 16).take 16)
      ∧ e.drop 32 = hexEncodeToString c :=
  encryptData_envelope (str "Short data") generateKey (List.range 16)
    (by decide) (by decide) (by decide) (by decide) (by decide)

/-! ## The integrity engine: `generateChecksum` and `generateHMAC` -/

/-! ### The compression of whole chunks -/

theorem sha256Blocks_take : ∀ (n : Nat) (hv : Sha256State) (p : Bytes) (m : Nat),
    64 * n ≤ m → sha256Blocks n hv (p.take m) = sha256Blocks n hv p
  | 0, _, _, _, _ => rfl
  | n + 1, hv, p, m, h => by
    simp only [sha256Blocks]
    rw [List.take_take, Nat.min_eq_left (by omega), List.drop_take,
      sha256Blocks_take n _ (p.drop 64) (m - 64) (by omega)]

theorem sha256Blocks_append_of_le (n : Nat) (hv : Sha256State) (p q : Bytes)
    (h : 64 * n ≤ p.length) : sha256Blocks n hv (p ++ q) = sha256Blocks n hv p := by
  rw [← sha256Blocks_take n hv (p ++ q) p.length h, List.take_left']
  rfl

theorem sha256Blocks_add : ∀ (a b : Nat) (hv : Sha256State) (p : Bytes),
    sha256Blocks (a + b) hv p = sha256Blocks b (sha256Blocks a hv p) (p.drop (64 * a))
  | 0, b, hv, p => by simp [sha256Blocks]
  | a + 1, b, hv, p => by
    rw [show a + 1 + b = (a + b) + 1 by omega]
    simp only [sha256Blocks]
    rw [sha256Blocks_add a b, List.drop_drop]
    congr 2
    omega

theorem sha256Blocks_one (hv : Sha256State) (p : Bytes) :
    sha256Blocks 1 hv p = sha256Block hv (p.take 64) := rfl

/-! ### Method `Write`, case by case -/

theorem write_of_empty (d : Digest) (p : Bytes) (hx : d.x = []) :
    d.write p = ⟨sha256Blocks (p.length / 64) d.h p, p.drop (p.length / 64 * 64),
      (d.len + p.length) % 2 ^ 64⟩ := by
  unfold Digest.write
  simp only [hx, List.length_nil, gt_iff_lt, Nat.lt_irrefl, if_false]
  by_cases hp : p.length ≥ 64
  · simp only [if_pos hp]
    have hn : p.length / 64 * 64 / 64 = p.length / 64 := Nat.mul_div_cancel _ (by omega)
    rw [hn, sha256Blocks_take _ _ _ _ (by omega)]
    congr 1
    split_ifs with h0
    · rfl
    · exact (List.eq_nil_of_length_eq_zero (by omega)).symm
  · simp only [if_neg hp]
    have hq : p.length / 64 = 0 := by omega
    rw [hq]
    simp only [sha256Blocks, Nat.zero_mul, List.drop_zero]
    congr 1
    split_ifs with h0
    · rfl
    · exact (List.eq_nil_of_length_eq_zero (by omega)).symm

theorem write_of_short (d : Digest) (p : Bytes) (hx : 0 < d.x.length)
    (h : d.x.length + p.length < 64) :
    d.write p = ⟨d.h, d.x ++ p, (d.len + p.length) % 2 ^ 64⟩ := by
  unfold Digest.write
  have hmin : min (64 - d.x.length) p.length = p.length := by omega
  have hne : ¬ (d.x ++ p).length = 64 := by rw [List.length_append]; omega
  simp only [gt_iff_lt, hx, if_true, hmin, List.take_length, List.drop_length, hne, if_false,
    List.length_nil, ge_iff_le, Nat.lt_irrefl]
  rfl

theorem write_of_fill (d : Digest) (p : Bytes) (hx : 0 < d.x.length) (hx2 : d.x.length < 64)
    (h : 64 ≤ d.x.length + p.length) :
    d.write p = ⟨sha256Blocks ((p.drop (64 - d.x.length)).length / 64)
        (sha256Blocks 1 d.h (d.x ++ p.take (64 - d.x.length))) (p.drop (64 - d.x.length)),
      (p.drop (64 - d.x.length)).drop ((p.drop (64 - d.x.length)).length / 64 * 64),
      (d.len + p.length) % 2 ^ 64⟩ := by
  have hmin : min (64 - d.x.length) p.length = 64 - d.x.length := by omega
  have hfull : (d.x ++ p.take (64 - d.x.length)).length = 64 := by
    rw [List.length_append, List.length_take]; omega
  unfold Digest.write
  simp only [gt_iff_lt, hx, if_true, hmin, hfull]
  generalize p.drop (64 - d.x.length) = p1
  generalize sha256Blocks 1 d.h (d.x ++ p.take (64 - d.x.length)) = h1
  by_cases hp : p1.length ≥ 64
  · simp only [if_pos hp]
    have hn : p1.length / 64 * 64 / 64 = p1.length / 64 := Nat.mul_div_cancel _ (by omega)
    rw [hn, sha256Blocks_take _ _ _ _ (by omega)]
    congr 1
    split_ifs with h0
    · rfl
    · exact (List.eq_nil_of_length_eq_zero (by omega)).symm
  · simp only [if_neg hp]
    have hq : p1.length / 64 = 0 := by omega
    rw [hq]
    simp only [sha256Blocks, Nat.zero_mul, List.drop_zero]
    congr 1
    split_ifs with h0
    · rfl
    · exact (List.eq_nil_of_length_eq_zero (by omega)).symm

/-! ### What a hash holds after any sequence of writes -/

theorem sha256New_eq : sha256New = digestOf sha256Init [] := rfl

theorem mod_add_mod_pow (a b : Nat) : (a % 2 ^ 64 + b) % 2 ^ 64 = (a + b) % 2 ^ 64 :=
  Nat.mod_add_mod a (2 ^ 64) b

theorem sha256Blocks_append (q r : Nat) (hv : Sha256State) (a b : Bytes)
    (ha : a.length = 64 * q) :
    sha256Blocks (q + r) hv (a ++ b) = sha256Blocks r (sha256Blocks q hv a) b := by
  rw [sha256Blocks_add, sha256Blocks_append_of_le _ _ _ _ (by omega), List.drop_left' ha]

/-- The hash that holds `q` whole chunks `a` and a rest `x` shorter than a chunk. -/
theorem digestOf_eq (h0 : Sha256State) (a x : Bytes) (q : Nat) (ha : a.length = 64 * q)
    (hx : x.length < 64) :
    digestOf h0 (a ++ x) = ⟨sha256Blocks q h0 a, x, (a.length + x.length) % 2 ^ 64⟩ := by
  have hq : (a.length + x.length) / 64 = q := by omega
  simp only [digestOf, List.length_append]
  rw [hq, Digest.mk.injEq]
  exact ⟨sha256Blocks_append_of_le _ _ _ _ (by omega),
    List.drop_left' (by omega), rfl⟩

theorem bytes_split (m : Bytes) :
    ∃ a x q, m = a ++ x ∧ a.length = 64 * q ∧ x.length < 64 :=
  ⟨m.take (64 * (m.length / 64)), m.drop (64 * (m.length / 64)), m.length / 64,
    (List.take_append_drop _ _).symm, by rw [List.length_take]; omega,
    by rw [List.length_drop]; omega⟩

/-- Writing `p` to a hash that holds `m` gives the hash that holds `m ++ p`. -/
theorem digestOf_write (h0 : Sha256State) (m p : Bytes) :
    (digestOf h0 m).write p = digestOf h0 (m ++ p) := by
  obtain ⟨a, x, q, rfl, ha, hx⟩ := bytes_split m
  rw [digestOf_eq h0 a x q ha hx]
  by_cases hx0 : x.length = 0
  · -- the buffer is empty
    have hxn : x = [] := List.eq_nil_of_length_eq_zero hx0
    subst hxn
    rw [write_of_empty _ _ rfl]
    have hp := List.take_append_drop (64 * (p.length / 64)) p
    have h1 : a ++ [] ++ p = (a ++ p.take (64 * (p.length / 64)))
        ++ p.drop (64 * (p.length / 64)) := by
      rw [List.append_nil, List.append_assoc, hp]
    rw [h1, digestOf_eq h0 _ _ (q + p.length / 64)
      (by rw [List.length_append, List.length_take]; omega)
      (by rw [List.length_drop]; omega),
      sha256Blocks_append _ _ _ _ _ ha, sha256Blocks_take _ _ _ _ (le_refl _),
      Nat.mul_comm (p.length / 64) 64, mod_add_mod_pow]
    simp only [List.length_nil, List.length_append, List.length_take, List.length_drop,
      Digest.mk.injEq, true_and]
    congr 1
    omega
  · by_cases hs : x.length + p.length < 64
    · -- the buffer is not filled
      rw [write_of_short _ _ (by simpa using Nat.pos_of_ne_zero hx0) (by simpa using hs),
        List.append_assoc, digestOf_eq h0 a (x ++ p) q ha
          (by rw [List.length_append]; omega), mod_add_mod_pow]
      simp only [List.length_append, Digest.mk.injEq, true_and]
      congr 1
      omega
    · -- the buffer is filled and compressed
      rw [write_of_fill _ _ (by simpa using Nat.pos_of_ne_zero hx0) (by simpa using hx)
        (by simpa using Nat.le_of_not_lt hs)]
      simp only []
      generalize hk : 64 - x.length = k
      have hkl : (p.take k).length = k := by rw [List.length_take]; omega
      have hc : (x ++ p.take k).length = 64 := by rw [List.length_append, hkl]; omega
      have hp := List.take_append_drop k p
      have hp1 := List.take_append_drop (64 * ((p.drop k).length / 64)) (p.drop k)
      have h1 : a ++ x ++ p = ((a ++ (x ++ p.take k))
          ++ (p.drop k).take (64 * ((p.drop k).length / 64)))
          ++ (p.drop k).drop (64 * ((p.drop k).length / 64)) := by
        rw [List.append_assoc _ _ ((p.drop k).drop _), hp1, List.append_assoc,
          List.append_assoc, List.append_assoc, hp]
      rw [h1, digestOf_eq h0 _ _ (q + 1 + (p.drop k).length / 64)
        (by simp only [List.length_append, List.length_take, List.length_drop] at hc ⊢; omega)
        (by rw [List.length_drop]; omega),
        sha256Blocks_append _ _ _ _ _
          (by rw [List.length_append, hc]; omega : (a ++ (x ++ p.take k)).length
            = 64 * (q + 1)),
        sha256Blocks_append _ _ _ _ _ ha, sha256Blocks_take _ _ _ _ (le_refl _),
        Nat.mul_comm ((p.drop k).length / 64) 64, mod_add_mod_pow]
      simp only [List.length_append, List.length_take, List.length_drop,
        Digest.mk.injEq, true_and]
      congr 1
      simp only [List.length_append, List.length_take] at hc
      omega

/-! ### Method `checkSum`: the padding fills the last chunk, so the panic is never raised -/

theorem sha256Padding_length (len : Nat) :
    (sha256Padding len).length
      = (if len % 64 < 56 then 56 - len % 64 else 64 + 56 - len % 64) + 8 := by
  simp only [sha256Padding, List.length_cons, List.length_append, List.length_replicate,
    natToBE_length]
  split_ifs <;> omega

theorem sha256Padding_mod (len : Nat) : sha256Padding (len % 2 ^ 64) = sha256Padding len := by
  have h1 : len % 2 ^ 64 % 64 = len % 64 :=
    Nat.mod_mod_of_dvd len (by norm_num : 64 ∣ 2 ^ 64)
  have h2 : len % 2 ^ 64 * 8 % 2 ^ 64 = len * 8 % 2 ^ 64 := by
    rw [Nat.mul_mod, Nat.mod_mod, ← Nat.mul_mod]
  simp only [sha256Padding, h1, h2]

theorem padded_length (m : Bytes) : (m ++ sha256Padding m.length).length % 64 = 0 := by
  rw [List.length_append, sha256Padding_length]
  split_ifs <;> omega

/-- The digest of a hash that started from `h0` and holds `m`: the chaining value after
the chunks of `m` and its padding. -/
theorem digestOf_checkSum (h0 : Sha256State) (m : Bytes) :
    (digestOf h0 m).checkSum
      = .ok (
        let s := sha256Blocks ((m ++ sha256Padding m.length).length / 64) h0
          (m ++ sha256Padding m.length)
        natToBE 4 s.a ++ natToBE 4 s.b ++ natToBE 4 s.c ++ natToBE 4 s.d
          ++ natToBE 4 s.e ++ natToBE 4 s.f ++ natToBE 4 s.g ++ natToBE 4 s.h) := by
  unfold Digest.checkSum
  have hlen : (digestOf h0 m).len = m.length % 2 ^ 64 := rfl
  simp only [hlen, sha256Padding_mod, digestOf_write]
  have hx : (digestOf h0 (m ++ sha256Padding m.length)).x.length = 0 := by
    simp only [digestOf, List.length_drop]
    have := padded_length m
    omega
  rw [if_neg (by omega)]
  rfl

/-- A fresh hash that is given `data` and asked for its sum returns the digest of `data`
as the one-pass computation `sha256Sum` has it. -/
theorem sha256New_write_sum (data b : Bytes) :
    (sha256New.write data).sum b = .ok (b ++ sha256Sum data) := by
  rw [sha256New_eq, digestOf_write, Digest.sum, List.nil_append, digestOf_checkSum]
  rfl

/-! ### The one-pass computation is SHA-256 as FIPS 180-4 defines it -/

theorem sha256Schedule_eq_spec : ∀ (n i : Nat) (w : List Nat), w.length = i →
    sha256Schedule n i w = specSchedule n w
  | 0, _, _, _ => rfl
  | n + 1, i, w, h => by
    subst h
    simp only [sha256Schedule, specSchedule]
    exact sha256Schedule_eq_spec n _ _ (by simp)

theorem sha256Words_eq_map : ∀ (n : Nat) (p : Bytes),
    sha256Words n p = (List.range n).map (fun t => beToNat ((p.drop (4 * t)).take 4))
  | 0, _ => rfl
  | n + 1, p => by
    rw [sha256Words, sha256Words_eq_map n (p.drop 4), List.range_succ_eq_map, List.map_cons,
      List.map_map]
    simp only [Nat.mul_zero, List.drop_zero, List.cons.injEq, true_and]
    apply List.map_congr_left
    intro t _
    simp only [Function.comp, List.drop_drop]
    congr 3
    omega

theorem sha256Words_length (n : Nat) (p : Bytes) : (sha256Words n p).length = n := by
  rw [sha256Words_eq_map, List.length_map, List.length_range]

theorem sha256Round_eq_spec (s : Sha256State) (k w : Nat) :
    sha256Round s k w = specStep s (k, w) := rfl

theorem sha256Rounds_eq_foldl : ∀ (ks ws : List Nat) (s : Sha256State),
    sha256Rounds ks ws s = (ks.zip ws).foldl specStep s
  | [], _, _ => by simp [sha256Rounds]
  | _ :: _, [], _ => by simp [sha256Rounds]
  | k :: ks, w :: ws, s => by
    rw [sha256Rounds, List.zip_cons_cons, List.foldl_cons, sha256Rounds_eq_foldl ks ws,
      sha256Round_eq_spec]

theorem sha256K_eq_spec : sha256K = specK := by decide

theorem sha256Init_eq_spec : sha256Init = specH0 := by decide

theorem sha256Block_eq_spec (hv : Sha256State) (p : Bytes) :
    sha256Block hv p = specCompress hv p := by
  have hw : sha256Schedule 48 16 (sha256Words 16 p) = specSchedule 48 (specWords p) := by
    rw [sha256Schedule_eq_spec 48 16 _ (sha256Words_length 16 p), sha256Words_eq_map]
    rfl
  simp only [sha256Block, specCompress, hw, sha256Rounds_eq_foldl, sha256K_eq_spec]
  generalize List.foldl specStep hv (specK.zip (specSchedule 48 (specWords p))) = s
  rw [Nat.add_comm hv.a, Nat.add_comm hv.b, Nat.add_comm hv.c, Nat.add_comm hv.d,
    Nat.add_comm hv.e, Nat.add_comm hv.f, Nat.add_comm hv.g, Nat.add_comm hv.h]

theorem sha256Block_take (hv : Sha256State) (p : Bytes) :
    sha256Block hv (p.take 64) = sha256Block hv p := by
  have h : sha256Words 16 (p.take 64) = sha256Words 16 p := by
    rw [sha256Words_eq_map, sha256Words_eq_map]
    apply List.map_congr_left
    intro t ht
    rw [List.mem_range] at ht
    rw [List.drop_take, List.take_take, Nat.min_eq_left (by omega)]
  simp only [sha256Block, h]

theorem foldl_range_succ {α : Type} (f : α → Nat → α) (n : Nat) (a : α) :
    (List.range (n + 1)).foldl f a = (List.range n).foldl (fun b i => f b (i + 1)) (f a 0) := by
  rw [List.range_succ_eq_map, List.foldl_cons, List.foldl_map]

theorem sha256Blocks_eq_foldl : ∀ (n : Nat) (hv : Sha256State) (p : Bytes),
    sha256Blocks n hv p
      = (List.range n).foldl (fun hv i => specCompress hv ((p.drop (64 * i)).take 64)) hv
  | 0, _, _ => rfl
  | n + 1, hv, p => by
    have ih := sha256Blocks_eq_foldl n (sha256Block hv (p.take 64)) (p.drop 64)
    have hf : (fun hv i => specCompress hv (((p.drop 64).drop (64 * i)).take 64))
        = (fun hv i => specCompress hv ((p.drop (64 * (i + 1))).take 64)) := by
      funext hv i
      rw [List.drop_drop, show 64 + 64 * i = 64 * (i + 1) by omega]
    rw [foldl_range_succ, Nat.mul_zero, List.drop_zero, ← sha256Block_eq_spec, ← hf, ← ih]
    simp only [sha256Blocks]

theorem specPad_eq (m : Bytes) : specPad m = m ++ sha256Padding m.length := by
  have hz : (specZeroBits (8 * m.length) + 1) / 8 - 1
      = (if m.length % 64 < 56 then 56 - m.length % 64 else 64 + 56 - m.length % 64) - 1 := by
    unfold specZeroBits
    split_ifs <;> omega
  have hl : natToBE 8 (8 * m.length) = natToBE 8 (m.length * 8 % 2 ^ 64) := by
    rw [natToBE_mod 8 (8 * m.length), Nat.mul_comm]
    rfl
  simp only [specPad, sha256Padding, hz, hl]
  rw [List.append_assoc]

/-- The one-pass computation of the code's digest is SHA-256. -/
theorem sha256Sum_eq_spec (m : Bytes) : sha256Sum m = specSHA256 m := by
  simp only [sha256Sum, specSHA256, specPad_eq, sha256Blocks_eq_foldl, sha256Init_eq_spec]

theorem sha256Sum_length (data : Bytes) : (sha256Sum data).length = 32 := by
  simp [sha256Sum, natToBE_length]

theorem specSHA256_length (m : Bytes) : (specSHA256 m).length = 32 := by
  rw [← sha256Sum_eq_spec, sha256Sum_length]

/-- Function `generateChecksum` never panics and returns the hex form of the one-pass
digest. -/
theorem generateChecksum_eq (data : Bytes) :
    generateChecksum data = .ok (hexEncodeToString (sha256Sum data)) := by
  simp only [generateChecksum, sha256New_write_sum, List.nil_append]

/-! ### The keyed hash -/

theorem xorBytes_replicate (c : Nat) : ∀ (n : Nat) (k : Bytes), k.length ≤ n →
    xorBytes k (List.replicate n c) = k.map (· ^^^ c)
  | _, [], _ => by simp [xorBytes]
  | 0, b :: k, h => by simp at h
  | n + 1, b :: k, h => by
    have ih := xorBytes_replicate c n k (by simpa using h)
    simp only [xorBytes] at ih ⊢
    rw [List.replicate_succ, List.zipWith_cons_cons, ih, List.map_cons]


theorem hmacNew_eq (key : Bytes) :
    hmacNew key = .ok
      (if key.length > 64 then hmacPads (sha256New.write key) sha256New (sha256Sum key)
       else hmacPads sha256New sha256New key) := by
  unfold hmacNew
  split_ifs with hk
  · rw [sha256New_write_sum, List.nil_append]
  · rfl

theorem hmacPads_eq (outer : Digest) (key : Bytes) (hk : key.length ≤ 64) :
    hmacPads outer sha256New key
      = ⟨(key ++ List.replicate (64 - key.length) 0).map (· ^^^ 0x5c),
         (key ++ List.replicate (64 - key.length) 0).map (· ^^^ 0x36), outer,
         digestOf sha256Init ((key ++ List.replicate (64 - key.length) 0).map (· ^^^ 0x36))⟩ := by
  unfold hmacPads
  simp only [List.take_of_length_le hk]
  rw [sha256New_eq, digestOf_write, List.nil_append]

theorem digestOf_sum (m b : Bytes) :
    (digestOf sha256Init m).sum b = .ok (b ++ sha256Sum m) := by
  have h := sha256New_write_sum m b
  rwa [sha256New_eq, digestOf_write, List.nil_append] at h

theorem hmac_sum_eq (opad ipad : Bytes) (outer : Digest) (data : Bytes) :
    (HMAC.write ⟨opad, ipad, outer, digestOf sha256Init ipad⟩ data).sum []
      = .ok (sha256Sum (opad ++ sha256Sum (ipad ++ data))) := by
  unfold HMAC.write HMAC.sum
  simp only [digestOf_write, digestOf_sum, List.nil_append, List.length_nil, List.drop_zero,
    List.take_zero, sha256New_eq]

/-- Function `generateHMAC` never panics and returns the hex form of HMAC-SHA256 as
RFC 2104 defines it. -/
theorem generateHMAC_eq (key data : Bytes) :
    generateHMAC key data = .ok (hexEncodeToString (specHMAC key data)) := by
  unfold generateHMAC
  rw [hmacNew_eq]
  by_cases hk : key.length > 64
  · have hl : (sha256Sum key).length ≤ 64 := by rw [sha256Sum_length]; omega
    simp only [if_pos hk, hmacPads_eq _ _ hl, hmac_sum_eq, specHMAC, ← sha256Sum_eq_spec]
    rw [xorBytes_replicate _ 64 _ (by rw [List.length_append, List.length_replicate]; omega),
      xorBytes_replicate _ 64 _ (by rw [List.length_append, List.length_replicate]; omega)]
  · have hl : key.length ≤ 64 := by omega
    simp only [if_neg hk, hmacPads_eq _ _ hl, hmac_sum_eq, specHMAC, ← sha256Sum_eq_spec]
    rw [xorBytes_replicate _ 64 _ (by rw [List.length_append, List.length_replicate]; omega),
      xorBytes_replicate _ 64 _ (by rw [List.length_append, List.length_replicate]; omega)]

theorem specHMAC_length (key data : Bytes) : (specHMAC key data).length = 32 := by
  simp only [specHMAC, specSHA256_length]

/-- The number of zero bits of the padding is the one FIPS 180-4 asks for: the smallest
solution of `l + 1 + k ≡ 448 (mod 512)`. -/
theorem specZeroBits_least (l : Nat) :
    (l + 1 + specZeroBits l) % 512 = 448
      ∧ ∀ k, (l + 1 + k) % 512 = 448 → specZeroBits l ≤ k := by
  unfold specZeroBits
  refine ⟨by omega, fun k hk => by omega⟩

/-- C9 (digest encoding): for every input, `generateChecksum` returns (it never panics)
the lower-case hex encoding of the SHA-256 digest of the input as FIPS 180-4 defines it, 32
bytes, so 64 characters, all in `0-9a-f`; on the empty string, on "abc", on the 56-byte
message of FIPS 180-4 and on 119 letters `a` these are the published digests. For every
key and data `generateHMAC` returns the lower-case hex encoding of HMAC-SHA256 as RFC 2104
defines it, 64 characters in `0-9a-f`; on the test cases 1, 2 and 6 of RFC 4231 these are
the published tags. -/
theorem generateChecksum_generateHMAC_hex :
    (∀ data : Bytes,
        generateChecksum data = .ok (hexEncodeToString (specSHA256 data))
        ∧ (specSHA256 data).length = 32
        ∧ (hexEncodeToString (specSHA256 data)).length = 64
        ∧ ∀ c ∈ hexEncodeToString (specSHA256 data), IsHexLower c)
    ∧ generateChecksum (str "")
        = .ok (str "e3b0c44298fc1c149afbf4c8996fb92427ae41e4649b934ca495991b7852b855")
    ∧ generateChecksum (str "abc")
        = .ok (str "ba7816bf8f01cfea414140de5dae2223b00361a396177a9cb410ff61f20015ad")
    ∧ generateChecksum (str "abcdbcdecdefdefgefghfghighijhijkijkljklmklmnlmnomnopnopq")
        = .ok (str "248d6a61d20638b8e5c026930c3e6039a33ce45964ff2167f6ecedd419db06c1")
    ∧ generateChecksum (List.replicate 119 97)
        = .ok (str "31eba51c313a5c08226adf18d4a359cfdfd8d2e816b13f4af952f7ea6584dcfb")
    ∧ (∀ key data : Bytes,
        generateHMAC key data = .ok (hexEncodeToString (specHMAC key data))
        ∧ (specHMAC key data).length = 32
        ∧ (hexEncodeToString (specHMAC key data)).length = 64
        ∧ ∀ c ∈ hexEncodeToString (specHMAC key data), IsHexLower c)
    ∧ generateHMAC (List.replicate 20 0x0b) (str "Hi There")
        = .ok (str "b0344c61d8db38535ca8afceaf0bf12b881dc200c9833da726e9376c2e32cff7")
    ∧ generateHMAC (str "Jefe") (str "what do ya want for nothing?")
        = .ok (str "5bdcc146bf60754e6a042426089575c75a003f089d2739839dec58b964ec3843")
    ∧ generateHMAC (List.replicate 131 0xaa)
          (str "Test Using Larger Than Block-Size Key - Hash Key First")
        = .ok (str "60e431591ee0b67f0d8a26aacbf5b77f8e0bc6213728c5140546040f0ee37f54") := by
  refine ⟨fun data => ⟨?_, specSHA256_length data, ?_, hexEncodeToString_lower _⟩,
    by decide!, by decide!, by decide!, by decide!,
    fun key data => ⟨generateHMAC_eq key data, specHMAC_length key data, ?_,
      hexEncodeToString_lower _⟩, by decide!, by decide!, by decide!⟩
  · rw [generateChecksum_eq, sha256Sum_eq_spec]
  · rw [hexEncodeToString_length, specSHA256_length]
  · rw [hexEncodeToString_length, specHMAC_length]

/-! ## The asymmetric engine: `encryptRSA` -/

theorem bitLen_eq {n k : Nat} (h1 : 2 ^ k ≤ n) (h2 : n < 2 ^ (k + 1)) : bitLen n = k + 1 := by
  have hn : n ≠ 0 := by
    have : 0 < 2 ^ k := Nat.two_pow_pos k
    omega
  have ha : k ≤ n.log2 := (Nat.le_log2 hn).2 h1
  have hb : n.log2 < k + 1 := (Nat.log2_lt hn).2 h2
  unfold bitLen
  rw [if_neg hn]
  omega

theorem le_of_bitLen {n k : Nat} (h : bitLen n = k + 1) : 2 ^ k ≤ n := by
  unfold bitLen at h
  by_cases hn : n = 0
  · rw [if_pos hn] at h
    omega
  · rw [if_neg hn] at h
    have hk : n.log2 = k := by omega
    rw [← hk]
    exact Nat.log2_self_le hn

theorem two_le_of_bitLen {n : Nat} (h : bitLen n = 2048) : 2 ^ 2047 ≤ n ∧ ¬ n ≤ 1 := by
  have h1 := le_of_bitLen (k := 2047) h
  have h2 : 2 ^ 1 ≤ 2 ^ 2047 := Nat.pow_le_pow_right (by omega) (by omega)
  exact ⟨h1, by omega⟩

theorem size_of_bitLen {pub : PublicKey} (h : bitLen pub.N = 2048) : pub.size = 256 := by
  simp [PublicKey.size, h]

theorem checkPublicKeySize_of_bitLen {pub : PublicKey} (h : bitLen pub.N = 2048) :
    checkPublicKeySize pub = none := by
  simp [checkPublicKeySize, checkKeySize, h]

/-- What `checkPublicKey` accepts: an odd modulus and an odd exponent from 2 to
`2^31 - 1`. -/
theorem checkPublicKey_eq_none_iff (pub : PublicKey) :
    checkPublicKey pub = none
      ↔ pub.N % 2 = 1 ∧ 2 ≤ pub.E ∧ pub.E % 2 = 1 ∧ pub.E ≤ 2 ^ 31 - 1 := by
  unfold checkPublicKey
  constructor
  · intro h
    split_ifs at h with h1 h2 h3 h4
    exact ⟨by omega, by omega, by omega, by omega⟩
  · rintro ⟨h1, h2, h3, h4⟩
    rw [if_neg (by omega), if_neg (by omega), if_neg (by omega), if_neg (by omega)]

theorem checkPublicKey_ne_tooLong {pub : PublicKey} {err : GoError}
    (h : checkPublicKey pub = some err) : err ≠ .messageTooLong := by
  unfold checkPublicKey at h
  split_ifs at h <;> simp at h <;> subst h <;> simp

/-- A key that fails a check gets that check's error, whatever the plaintext. -/
theorem rsaEncryptOAEP_badKey {pub : PublicKey} (rand msg label : Bytes)
    (hbits : bitLen pub.N = 2048) {err : GoError} (hpub : checkPublicKey pub = some err) :
    rsaEncryptOAEP rand pub msg label = (.ret [] (some err), rand) := by
  have hN : ¬ pub.N ≤ 1 := (two_le_of_bitLen hbits).2
  simp only [rsaEncryptOAEP, checkPublicKeySize_of_bitLen hbits, if_neg hN, hpub]

theorem rsaEncryptOAEP_tooLong {pub : PublicKey} (rand msg label : Bytes)
    (hbits : bitLen pub.N = 2048) (hpub : checkPublicKey pub = none)
    (hlen : 190 < msg.length) :
    rsaEncryptOAEP rand pub msg label = (.ret [] (some .messageTooLong), rand) := by
  have hN : ¬ pub.N ≤ 1 := (two_le_of_bitLen hbits).2
  have h : (msg.length : Int) > ((256 : Nat) : Int) - 2 * 32 - 2 := by omega
  simp only [rsaEncryptOAEP, checkPublicKeySize_of_bitLen hbits, if_neg hN, hpub,
    size_of_bitLen hbits, if_pos h]

theorem rsaEncryptOAEP_readError {pub : PublicKey} (rand msg label : Bytes)
    (hbits : bitLen pub.N = 2048) (hpub : checkPublicKey pub = none)
    (hlen : msg.length ≤ 190) (hr : rand.length < 32) :
    ∃ err, err ≠ .messageTooLong ∧ rsaEncryptOAEP rand pub msg label = (.ret [] (some err), []) := by
  have hN : ¬ pub.N ≤ 1 := (two_le_of_bitLen hbits).2
  have h : ¬((msg.length : Int) > ((256 : Nat) : Int) - 2 * 32 - 2) := by omega
  obtain ⟨err, he, hne⟩ := ioReadFull_error_kind hr
  exact ⟨err, by rcases hne with rfl | rfl <;> simp,
    by simp only [rsaEncryptOAEP, checkPublicKeySize_of_bitLen hbits, if_neg hN, hpub,
      size_of_bitLen hbits, if_neg h, he]⟩

theorem isBytes_sha256Sum (data : Bytes) : IsBytes (sha256Sum data) := by
  simp only [sha256Sum, isBytes_append]
  exact ⟨⟨⟨⟨⟨⟨⟨isBytes_natToBE _ _, isBytes_natToBE _ _⟩, isBytes_natToBE _ _⟩,
    isBytes_natToBE _ _⟩, isBytes_natToBE _ _⟩, isBytes_natToBE _ _⟩, isBytes_natToBE _ _⟩,
    isBytes_natToBE _ _⟩

theorem isBytes_mgf1Stream (seed : Bytes) : ∀ n c, IsBytes (mgf1Stream seed n c)
  | 0, _ => isBytes_nil
  | n + 1, c => by
    rw [mgf1Stream]
    exact isBytes_append.2 ⟨isBytes_sha256Sum _, isBytes_mgf1Stream seed n (c + 1)⟩

theorem mgf1Stream_length (seed : Bytes) : ∀ n c, (mgf1Stream seed n c).length = 32 * n
  | 0, _ => rfl
  | n + 1, c => by
    rw [mgf1Stream, List.length_append, sha256Sum_length, mgf1Stream_length seed n (c + 1)]
    omega

theorem mgf1XOR_length (out seed : Bytes) : (mgf1XOR out seed).length = out.length := by
  rw [mgf1XOR, xorBytes_length, mgf1Stream_length]
  omega

theorem isBytes_mgf1XOR {out : Bytes} (seed : Bytes) (h : IsBytes out) :
    IsBytes (mgf1XOR out seed) :=
  isBytes_xorBytes h (isBytes_mgf1Stream _ _ _)

/-- The encoded message starts with a zero byte, so as a number it is below every modulus
of `8 * (len - 1) + 1` bits or more. -/
theorem beToNat_zero_cons_lt {bs : Bytes} (h : IsBytes bs) :
    beToNat (0 :: bs) < 256 ^ bs.length := by
  have := beToNat_lt h
  rw [beToNat_cons]
  simpa using this

theorem beToNat_natToBE : ∀ (k n : Nat), beToNat (natToBE k n) = n % 256 ^ k
  | 0, n => by simp [natToBE, beToNat, Nat.mod_one]
  | k + 1, n => by
    rw [natToBE, beToNat_cons, natToBE_length, beToNat_natToBE k n, pow_succ]
    rw [Nat.mod_mul]
    ring

theorem isBytes_oaepEncode {k : Nat} {seed msg : Bytes} (label : Bytes)
    (hs : IsBytes seed) (hm : IsBytes msg) : IsBytes (oaepEncode k seed msg label) := by
  have hdb : IsBytes (sha256Sum label ++ List.replicate (k - 2 * 32 - 2 - msg.length) 0
      ++ 1 :: msg) :=
    isBytes_append.2 ⟨isBytes_append.2 ⟨isBytes_sha256Sum _, isBytes_replicate_zero _⟩,
      isBytes_cons.2 ⟨by omega, hm⟩⟩
  simp only [oaepEncode, List.cons_append]
  exact isBytes_cons.2 ⟨by omega,
    isBytes_append.2 ⟨isBytes_mgf1XOR _ hs, isBytes_mgf1XOR _ hdb⟩⟩

theorem oaepEncode_length {seed msg : Bytes} (label : Bytes)
    (hs : seed.length = 32) (hm : msg.length ≤ 190) :
    (oaepEncode 256 seed msg label).length = 256 := by
  simp only [oaepEncode, List.length_cons, List.length_append, mgf1XOR_length,
    sha256Sum_length, List.length_replicate, hs]
  omega

theorem oaepEncode_lt {seed msg : Bytes} (label : Bytes)
    (hs : IsBytes seed) (hm : IsBytes msg) (hsl : seed.length = 32) (hml : msg.length ≤ 190) :
    beToNat (oaepEncode 256 seed msg label) < 2 ^ 2047 := by
  have hb := isBytes_oaepEncode (k := 256) label hs hm
  have hl := oaepEncode_length label hsl hml
  simp only [oaepEncode, List.cons_append] at hb hl ⊢
  rw [isBytes_cons] at hb
  have hlt := beToNat_zero_cons_lt hb.2
  rw [List.length_cons] at hl
  rw [show _ = 255 from Nat.succ.inj hl] at hlt
  have h255 : (256 : Nat) ^ 255 ≤ 2 ^ 2047 := by
    rw [show (256 : Nat) = 2 ^ 8 from rfl, ← pow_mul]
    exact Nat.pow_le_pow_right (by omega) (by omega)
  omega

/-- The steps of `rsa.EncryptOAEP` once the key has passed its checks, the plaintext is
within the capacity and the seed is delivered. -/
theorem rsaEncryptOAEP_eq {pub : PublicKey} (rand msg label : Bytes)
    (hbits : bitLen pub.N = 2048) (hpub : checkPublicKey pub = none)
    (hlen : msg.length ≤ 190) (hr : 32 ≤ rand.length) :
    rsaEncryptOAEP rand pub msg label
      = if beToNat (oaepEncode 256 (rand.take 32) msg label) ≥ pub.N then
          (.ret [] (some .inputOverflowsModulus), rand.drop 32)
        else
          (.ret (natToBE 256 (beToNat (oaepEncode 256 (rand.take 32) msg label)
            ^ pub.E.toNat % pub.N)) none, rand.drop 32) := by
  have hN : ¬ pub.N ≤ 1 := (two_le_of_bitLen hbits).2
  have h : ¬((msg.length : Int) > ((256 : Nat) : Int) - 2 * 32 - 2) := by omega
  simp only [rsaEncryptOAEP, checkPublicKeySize_of_bitLen hbits, if_neg hN, hpub,
    size_of_bitLen hbits, if_neg h, ioReadFull_ok hr, rsaEncrypt, oaepEncode]
  split_ifs <;> rfl

theorem rsaEncryptOAEP_ok {pub : PublicKey} (rand msg label : Bytes)
    (hbits : bitLen pub.N = 2048) (hpub : checkPublicKey pub = none)
    (hlen : msg.length ≤ 190) (hr : 32 ≤ rand.length) (hm : IsBytes msg) (hrb : IsBytes rand) :
    rsaEncryptOAEP rand pub msg label
      = (.ret (natToBE 256 (beToNat (oaepEncode 256 (rand.take 32) msg label)
          ^ pub.E.toNat % pub.N)) none, rand.drop 32) := by
  have hge := (two_le_of_bitLen hbits).1
  have hlt := oaepEncode_lt label (isBytes_take 32 hrb) hm
    (by rw [List.length_take]; omega) hlen
  rw [rsaEncryptOAEP_eq rand msg label hbits hpub hlen hr, if_neg (by omega)]

theorem natToBE_mod_lt {k m n : Nat} (hn : 0 < n) :
    (natToBE k (m % n)).length = k ∧ IsBytes (natToBE k (m % n))
      ∧ beToNat (natToBE k (m % n)) < n := by
  refine ⟨natToBE_length _ _, isBytes_natToBE _ _, ?_⟩
  rw [beToNat_natToBE]
  exact lt_of_le_of_lt (Nat.mod_le _ _) (Nat.mod_lt _ hn)

/-- With the seed delivered, a plaintext within the capacity never gets
`ErrMessageTooLong`: the only error left is the one of `encrypt`. -/
theorem rsaEncryptOAEP_not_tooLong {pub : PublicKey} (rand msg label : Bytes)
    (hbits : bitLen pub.N = 2048) (hpub : checkPublicKey pub = none)
    (hlen : msg.length ≤ 190) (hr : 32 ≤ rand.length) (v : Bytes) :
    (rsaEncryptOAEP rand pub msg label).1 ≠ .ret v (some .messageTooLong) := by
  have hN : ¬ pub.N ≤ 1 := (two_le_of_bitLen hbits).2
  have hl : ¬((msg.length : Int) > ((256 : Nat) : Int) - 2 * 32 - 2) := by omega
  simp only [rsaEncryptOAEP, checkPublicKeySize_of_bitLen hbits, if_neg hN, hpub,
    size_of_bitLen hbits, if_neg hl, ioReadFull_ok hr, rsaEncrypt]
  split_ifs <;> simp

theorem encryptRSA_error {publicKey : PublicKey} {plaintext rand : Bytes} {e : GoError}
    (h : (encryptRSA publicKey plaintext rand).1 = .ret [] (some e)) :
    ∃ v, (rsaEncryptOAEP rand publicKey plaintext []).1 = .ret v (some e) := by
  unfold encryptRSA at h
  generalize rsaEncryptOAEP rand publicKey plaintext [] = o at h
  obtain ⟨o1, o2⟩ := o
  cases o1 with
  | panic p => simp at h
  | ret v err =>
    cases err with
    | none => simp at h
    | some err =>
      simp only [Outcome.ret.injEq, Option.some.injEq, true_and] at h
      subst h
      exact ⟨v, rfl⟩

theorem encryptRSA_eq (publicKey : PublicKey) (plaintext rand : Bytes) :
    ((rsaEncryptOAEP rand publicKey plaintext []).1 = .ret [] (some .messageTooLong)
        → (encryptRSA publicKey plaintext rand).1 = .ret [] (some .messageTooLong))
    ∧ (∀ err r, rsaEncryptOAEP rand publicKey plaintext [] = (.ret [] (some err), r)
        → encryptRSA publicKey plaintext rand = (.ret [] (some err), r))
    ∧ (∀ c r, rsaEncryptOAEP rand publicKey plaintext [] = (.ret c none, r)
        → encryptRSA publicKey plaintext rand = (.ret c none, r)) := by
  refine ⟨fun h => ?_, fun err r h => ?_, fun c r h => ?_⟩
  · unfold encryptRSA
    generalize rsaEncryptOAEP rand publicKey plaintext [] = o at h
    obtain ⟨o1, o2⟩ := o
    simp only at h
    subst h
    rfl
  · simp only [encryptRSA, h]
  · simp only [encryptRSA, h]

/-- C8 (asymmetric capacity limit), as the code has it: for every public key with a
2048-bit modulus the modulus takes 256 bytes and the capacity is `256 - 2 * 32 - 2 = 190`.
When the key is one `rsa.EncryptOAEP` accepts (an odd modulus, an odd exponent from 3 to
`2^31 - 1`), `encryptRSA` returns `ErrMessageTooLong` exactly when the plaintext is longer
than 190 bytes, and for a plaintext of at most 190 bytes and a random source that delivers
the 32-byte seed it returns no error and a ciphertext of exactly 256 bytes, a number below
the modulus. For any other key of that size it returns the error of the key check and
nothing else, whatever the length of the plaintext. -/
theorem encryptRSA_capacity (pub : PublicKey) (plaintext rand : Bytes)
    (hbits : bitLen pub.N = 2048) :
    pub.size = 256 ∧ 256 - 2 * 32 - 2 = 190
    ∧ (pub.N % 2 = 1 → 2 ≤ pub.E → pub.E % 2 = 1 → pub.E ≤ 2 ^ 31 - 1 →
        ((encryptRSA pub plaintext rand).1 = .ret [] (some .messageTooLong)
            ↔ 190 < plaintext.length)
        ∧ (plaintext.length ≤ 190 → 32 ≤ rand.length → IsBytes plaintext → IsBytes rand →
            ∃ c, encryptRSA pub plaintext rand = (.ret c none, rand.drop 32)
              ∧ c.length = 256 ∧ IsBytes c ∧ beToNat c < pub.N))
    ∧ (¬ (pub.N % 2 = 1 ∧ 2 ≤ pub.E ∧ pub.E % 2 = 1 ∧ pub.E ≤ 2 ^ 31 - 1) →
        ∃ err, err ≠ GoError.messageTooLong
          ∧ encryptRSA pub plaintext rand = (.ret [] (some err), rand)) := by
  refine ⟨size_of_bitLen hbits, rfl, fun h1 h2 h3 h4 => ⟨⟨?_, ?_⟩, ?_⟩, fun hbad => ?_⟩
  · have hpub := (checkPublicKey_eq_none_iff pub).2 ⟨h1, h2, h3, h4⟩
    intro h
    by_contra hlen
    by_cases hr : 32 ≤ rand.length
    · obtain ⟨v, hv⟩ := encryptRSA_error h
      exact rsaEncryptOAEP_not_tooLong rand plaintext [] hbits hpub (by omega) hr v hv
    · obtain ⟨err, hne, hc⟩ :=
        rsaEncryptOAEP_readError rand plaintext [] hbits hpub (by omega) (by omega)
      rw [((encryptRSA_eq pub plaintext rand).2.1 err _ hc)] at h
      injection h with _ h2
      injection h2 with h3
      exact hne h3
  · have hpub := (checkPublicKey_eq_none_iff pub).2 ⟨h1, h2, h3, h4⟩
    intro hlen
    exact (encryptRSA_eq pub plaintext rand).1
      (by rw [rsaEncryptOAEP_tooLong rand plaintext [] hbits hpub hlen])
  · have hpub := (checkPublicKey_eq_none_iff pub).2 ⟨h1, h2, h3, h4⟩
    intro hlen hr hp hrb
    have hpos : 0 < pub.N := by
      have := (two_le_of_bitLen hbits).2
      omega
    obtain ⟨hcl, hcb, hcn⟩ := natToBE_mod_lt (k := 256)
      (m := beToNat (oaepEncode 256 (rand.take 32) plaintext []) ^ pub.E.toNat) hpos
    exact ⟨_, (encryptRSA_eq pub plaintext rand).2.2 _ _
      (rsaEncryptOAEP_ok rand plaintext [] hbits hpub hlen hr hp hrb), hcl, hcb, hcn⟩
  · cases hpub : checkPublicKey pub with
    | none => exact absurd ((checkPublicKey_eq_none_iff pub).1 hpub) hbad
    | some err =>
      exact ⟨err, checkPublicKey_ne_tooLong hpub,
        (encryptRSA_eq pub plaintext rand).2.1 err _
          (rsaEncryptOAEP_badKey rand plaintext [] hbits hpub)⟩

theorem bitLen_exampleModulus : bitLen exampleModulus = 2048 :=
  bitLen_eq (k := 2047) (by decide!) (by decide!)

/-- The ciphertext of "Hello, world!" under the example key for the seed `0, 1, ..., 31`;
`openssl pkeyutl -decrypt` with the private key and OAEP over SHA-256 gives the plaintext
back. -/
theorem encryptRSA_example :
    encryptRSA ⟨exampleModulus, 65537⟩ (str "Hello, world!") (List.range 32)
      = (.ret
      [17, 20, 19, 66, 36, 89, 82, 244, 5, 237, 78, 136, 191, 120, 195, 116, 59, 175, 33, 10,
       16, 156, 27, 248, 167, 37, 29, 156, 132, 249, 172, 0, 140, 13, 5, 115, 154, 224, 56, 86,
       139, 40, 65, 6, 203, 91, 124, 86, 94, 67, 8, 141, 104, 53, 116, 160, 22, 212, 166, 68,
       168, 157, 92, 168, 243, 72, 54, 166, 103, 32, 76, 167, 58, 180, 18, 252, 19, 60, 115,
       130, 112, 228, 208, 69, 167, 71, 234, 89, 56, 114, 228, 137, 164, 86, 97, 121, 3, 181,
       180, 196, 149, 157, 137, 21, 141, 193, 12, 86, 120, 75, 176, 134, 235, 122, 127, 195,
       215, 134, 147, 118, 171, 225, 220, 35, 231, 71, 133, 126, 178, 3, 154, 21, 202, 158, 75,
       151, 47, 56, 5, 136, 109, 254, 217, 253, 227, 180, 21, 93, 237, 113, 116, 147, 146, 175,
       65, 25, 105, 44, 9, 115, 252, 157, 36, 140, 101, 51, 146, 85, 187, 116, 125, 109, 28,
       174, 126, 40, 134, 115, 242, 214, 210, 125, 165, 34, 200, 214, 54, 157, 189, 73, 80, 204,
       146, 191, 57, 237, 99, 37, 88, 237, 106, 233, 209, 22, 140, 242, 77, 56, 113, 27, 241,
       231, 78, 251, 151, 117, 208, 41, 154, 101, 36, 92, 200, 177, 214, 88, 14, 237, 55, 155,
       2, 190, 28, 136, 230, 49, 233, 32, 210, 35, 37, 78, 175, 92, 212, 254, 201, 40, 250, 244,
       49, 55, 3, 218, 103, 178]
      none, []) := by
  apply (encryptRSA_eq _ _ _).2.2
  rw [@rsaEncryptOAEP_ok ⟨exampleModulus, 65537⟩ (List.range 32)
    (str "Hello, world!") [] bitLen_exampleModulus (by decide!) (by decide) (by decide)
    (by decide) (by decide)]
  decide!

/-- The plaintext "Hello, world!" under the example key with the exponent 65537 and the
seed `0, 1, ..., 31`: no error and the 256 bytes of `encryptRSA_example`; 191 bytes get
`ErrMessageTooLong`. -/
theorem encryptRSA_capacity_witness :
    bitLen exampleModulus = 2048
    ∧ (∃ c, encryptRSA ⟨exampleModulus, 65537⟩ (str "Hello, world!") (List.range 32)
          = (.ret c none, [])
        ∧ c.length = 256 ∧ IsBytes c ∧ beToNat c < exampleModulus
        ∧ c.take 4 = [17, 20, 19, 66])
    ∧ (encryptRSA ⟨exampleModulus, 65537⟩ (List.replicate 191 97) (List.range 32)).1
        = .ret [] (some .messageTooLong) := by
  have h := (encryptRSA_capacity ⟨exampleModulus, 65537⟩ (str "Hello, world!")
    (List.range 32) bitLen_exampleModulus).2.2.1 (by decide!) (by decide) (by decide)
    (by decide)
  have h191 := ((encryptRSA_capacity ⟨exampleModulus, 65537⟩ (List.replicate 191 97)
    (List.range 32) bitLen_exampleModulus).2.2.1 (by decide!) (by decide) (by decide)
    (by decide)).1.2 (by rw [List.length_replicate]; omega)
  obtain ⟨c, hc, hl, hb, hn⟩ := h.2 (by decide) (by decide) (by decide) (by decide)
  refine ⟨bitLen_exampleModulus, ⟨c, hc, hl, hb, hn, ?_⟩, h191⟩
  rw [encryptRSA_example] at hc
  injection hc with h1 _
  injection h1 with h2 _
  rw [← h2]
  rfl

/-- C8, the claim as stated fails: under a 2048-bit key with the even exponent 4 the
two-byte plaintext "hi" gets an error, and a plaintext of 191 bytes gets the same error
and not `ErrMessageTooLong`; likewise under the even modulus `2^2047`. -/
theorem encryptRSA_rejected_key :
    bitLen exampleModulus = 2048 ∧ bitLen (2 ^ 2047) = 2048
    ∧ (str "hi").length ≤ 190
    ∧ encryptRSA ⟨exampleModulus, 4⟩ (str "hi") (List.range 32)
        = (.ret [] (some .publicExponentEven), List.range 32)
    ∧ encryptRSA ⟨exampleModulus, 4⟩ (List.replicate 191 97) (List.range 32)
        = (.ret [] (some .publicExponentEven), List.range 32)
    ∧ encryptRSA ⟨2 ^ 2047, 65537⟩ (str "hi") (List.range 32)
        = (.ret [] (some .publicModulusEven), List.range 32)
    ∧ ¬ (∀ (pub : PublicKey) (plaintext rand : Bytes), bitLen pub.N = 2048 →
          ((encryptRSA pub plaintext rand).1 = .ret [] (some .messageTooLong)
              ↔ 190 < plaintext.length)
          ∧ (plaintext.length ≤ 190 → 32 ≤ rand.length →
              ∃ c, (encryptRSA pub plaintext rand).1 = .ret c none ∧ c.length = 256)) := by
  have hb2 : bitLen (2 ^ 2047) = 2048 :=
    bitLen_eq (k := 2047) (le_refl _) (Nat.pow_lt_pow_right (by omega) (by omega))
  have h4 : ∀ plaintext, encryptRSA ⟨exampleModulus, 4⟩ plaintext (List.range 32)
      = (.ret [] (some .publicExponentEven), List.range 32) := fun plaintext =>
    (encryptRSA_eq _ plaintext _).2.1 _ _
      (rsaEncryptOAEP_badKey _ plaintext [] bitLen_exampleModulus (by decide!))
  refine ⟨bitLen_exampleModulus, hb2, by decide, h4 _, h4 _, ?_, ?_⟩
  · exact (encryptRSA_eq _ _ _).2.1 _ _
      (@rsaEncryptOAEP_badKey ⟨2 ^ 2047, 65537⟩ _ _ [] hb2 _
        (by decide!))
  · intro hall
    obtain ⟨c, hc, _⟩ := (hall ⟨exampleModulus, 4⟩ (str "hi") (List.range 32)
      bitLen_exampleModulus).2 (by decide) (by decide)
    rw [h4] at hc
    injection hc with _ h2
    cases h2

end GoPerf
